import Mathlib

/-!
# openMVG: scene bookkeeping of the localization pipeline

A shallow embedding of

* `GroupSharedIntrinsics` and `generate_feature_path`
  (`src/openMVG/sfm/sfm_data_utils.cpp`),
* `Merge` (`src/software/SfM/main_ConvertSfM_DataFormat.cpp`),
* `FindCommonRootDir` and, of `main`, the validation of the filter flags, the
  per-image loop and the filtered export
  (`src/software/Localization/main_SfM_Localization.cpp`),

followed by theorems about them.  Machine integers of type `IndexT`
(`uint32_t`) are natural numbers reduced modulo `2 ^ 32` wherever the source
performs arithmetic on them or narrows a `size_t` to them.
-/

namespace OpenMVG

/-! ## Index type -/

/-- Number of values of `IndexT` (`uint32_t`): arithmetic on indices is modulo this. -/
def IndexT_card : Nat := 4294967296

/-- The sentinel `UndefinedIndexT = std::numeric_limits<IndexT>::max()`. -/
def UndefinedIndexT : Nat := 4294967295

/-! ## Containers -/

/-- Modelled from the spec: the declaration of the container `Hash_Map`
(`openMVG/types.hpp`) is not part of the sources at hand.  The spec describes
mappings with unique identifiers as keys, which is what `find?`, `assign`,
`count` and `size` below follow.  A map is the list of its entries in the order
in which a loop visits them.  Neither the spec nor the sources at hand fix that
order (a comment in `Merge` calls the maps unordered): a list with pairwise
distinct keys stands for a map in whatever order its container visits it
(`IsMap`), a list with ascending keys for a map held in key order (`WF`). -/
abbrev Hash_Map (V : Type) := List (Nat × V)

namespace Hash_Map

variable {V : Type}

/-- Lookup, `m.find(k)`: the value stored under `k`, if any. -/
def find? : Hash_Map V → Nat → Option V
  | [], _ => none
  | (k', v) :: m, k => if k' = k then some v else find? m k

/-- The test `m.count(k)`. -/
def count (m : Hash_Map V) (k : Nat) : Bool := (m.find? k).isSome

/-- The assignment `m[k] = v`: overwrite the entry under `k` or insert a new
entry.  A new entry is put before the first entry with a larger key, which is
its place in a map held in key order. -/
def assign : Hash_Map V → Nat → V → Hash_Map V
  | [], k, v => [(k, v)]
  | (k', v') :: m, k, v =>
    if k < k' then (k, v) :: (k', v') :: m
    else if k = k' then (k, v) :: m
    else (k', v') :: assign m k v

/-- Keys in iteration order. -/
def keys (m : Hash_Map V) : List Nat := m.map Prod.fst

/-- The member `m.size()`. -/
def size (m : Hash_Map V) : Nat := m.length

/-- Representation invariant of a map keyed by `IndexT` and held in key order:
keys strictly ascending (hence unique) and every key a 32-bit value. -/
def WF (m : Hash_Map V) : Prop :=
  m.keys.Pairwise (· < ·) ∧ ∀ k ∈ m.keys, k < IndexT_card

instance (m : Hash_Map V) : Decidable (WF m) := by
  unfold WF; infer_instance

/-- Representation invariant of a map keyed by `IndexT` in any iteration order:
keys pairwise distinct and every key a 32-bit value. -/
def IsMap (m : Hash_Map V) : Prop :=
  m.keys.Nodup ∧ ∀ k ∈ m.keys, k < IndexT_card

instance (m : Hash_Map V) : Decidable (IsMap m) := by
  unfold IsMap; infer_instance

end Hash_Map

/-- An ordered set `std::set<size_t>`: its elements in ascending order. -/
abbrev StdSet := List Nat

namespace StdSet

/-- The member `s.insert(x)`: no effect when `x` is already present. -/
def insert : StdSet → Nat → StdSet
  | [], x => [x]
  | y :: s, x =>
    if x < y then x :: y :: s
    else if x = y then y :: s
    else y :: insert s x

/-- The expression `std::distance(s.cbegin(), s.find(x))`: the position of `x`,
or `s.size()` when `find` returns `cend()`. -/
def distanceFind (s : StdSet) (x : Nat) : Nat := s.indexOf x

end StdSet

/-! ## Data model -/

/-- A view (`sfm::View`): image path, the three ids, image size. -/
structure View where
  s_Img_path : String
  id_view : Nat
  id_intrinsic : Nat
  id_pose : Nat
  ui_width : Nat
  ui_height : Nat
deriving DecidableEq, Repr

/-- A landmark: its observations, keyed by view id (the value is the feature id;
the 2-D position plays no part here). -/
structure Landmark where
  obs : Hash_Map Nat
deriving DecidableEq, Repr

/-- The scene `SfM_Data`.  The intrinsic and pose types are parameters: their
classes are declared outside the sources at hand. -/
structure SfM_Data (Intr Pose : Type) where
  views : Hash_Map View
  poses : Hash_Map Pose
  intrinsics : Hash_Map Intr
  landmarks : Hash_Map Landmark
  s_root_path : String
deriving DecidableEq, Repr

/-! ## `GroupSharedIntrinsics` -/

section GroupShared

variable {Intr Pose : Type}

/-- First loop of `GroupSharedIntrinsics`: the set `hash_index` and the vector
`hash_value`. -/
def buildHashes (hashValue : Intr → Nat) (intrinsics : Hash_Map Intr) :
    StdSet × List Nat :=
  intrinsics.foldl
    (fun acc intrinsic_it =>
      let hashVal := hashValue intrinsic_it.2
      (acc.1.insert hashVal, acc.2 ++ [hashVal]))
    ([], [])

/-- Second loop: `old_new_reindex[key] = distance(hash_index.cbegin(),
hash_index.find(hash_value[i]))`, with the counter `i`; the distance is narrowed
to `IndexT`. -/
def buildReindex (hash_index : StdSet) (hash_value : List Nat)
    (intrinsics : Hash_Map Intr) : Hash_Map Nat × Nat :=
  intrinsics.foldl
    (fun acc intrinsic_it =>
      (acc.1.assign intrinsic_it.1
          (hash_index.distanceFind (hash_value.getD acc.2 0) % IndexT_card),
        acc.2 + 1))
    ([], 0)

/-- Third loop: `intrinsic_updated[old_new_reindex[key]] = intrinsics[key]`.
Both `operator[]` reads are of keys that are present. -/
def buildUpdated (old_new_reindex : Hash_Map Nat) (intrinsics : Hash_Map Intr) :
    Hash_Map Intr :=
  intrinsics.foldl
    (fun intrinsic_updated intrinsic_it =>
      match intrinsics.find? intrinsic_it.1 with
      | some x =>
        intrinsic_updated.assign ((old_new_reindex.find? intrinsic_it.1).getD 0) x
      | none => intrinsic_updated)
    []

/-- Last loop: rewrite `id_intrinsic` of a view when `old_new_reindex` has it. -/
def updateView (old_new_reindex : Hash_Map Nat) (v : View) : View :=
  if old_new_reindex.count v.id_intrinsic then
    { v with id_intrinsic := (old_new_reindex.find? v.id_intrinsic).getD 0 }
  else v

/-- The function `GroupSharedIntrinsics(sfm_data)`; `hashValue` is
`IntrinsicBase::hashValue`. -/
def GroupSharedIntrinsics (hashValue : Intr → Nat) (sfm_data : SfM_Data Intr Pose) :
    SfM_Data Intr Pose :=
  let hashes := buildHashes hashValue sfm_data.intrinsics
  let old_new_reindex := (buildReindex hashes.1 hashes.2 sfm_data.intrinsics).1
  let intrinsic_updated := buildUpdated old_new_reindex sfm_data.intrinsics
  { sfm_data with
    intrinsics := intrinsic_updated
    views := sfm_data.views.map (fun view_it => (view_it.1, updateView old_new_reindex view_it.2)) }

end GroupShared

/-! ## `Merge` -/

section MergeDefs

variable {Intr Pose : Type}

/-- The offset `Merge` computes for one map of the base scene: initialised with
`size()`, then raised to `key + 1` (an `IndexT` sum) for every key. -/
def mergeOffset {V : Type} (m : Hash_Map V) : Nat :=
  m.foldl (fun offset entry => max offset ((entry.1 + 1) % IndexT_card))
    (m.size % IndexT_card)

/-- The copy of an incoming view that `Merge` stores under `key + viewOffset`. -/
def mergedView (viewOffset intrinsicOffset : Nat) (key : Nat) (v : View) : View :=
  { v with
    id_view := (key + viewOffset) % IndexT_card
    id_intrinsic := (v.id_intrinsic + intrinsicOffset) % IndexT_card
    id_pose := (v.id_pose + viewOffset) % IndexT_card }

/-- The append loops of `Merge`: every entry of `incoming` is assigned under
`key + offset`, its value transformed by `f key`. -/
def mergeAppend {V : Type} (base incoming : Hash_Map V) (offset : Nat)
    (f : Nat → V → V) : Hash_Map V :=
  incoming.foldl
    (fun acc entry => acc.assign ((entry.1 + offset) % IndexT_card) (f entry.1 entry.2))
    base

/-- The function `Merge(sfm_data, sfm_merge)`: the new value of `sfm_data`. -/
def Merge (sfm_data sfm_merge : SfM_Data Intr Pose) : SfM_Data Intr Pose :=
  let viewOffset := mergeOffset sfm_data.views
  let poseOffset := mergeOffset sfm_data.poses
  let intrinsicOffset := mergeOffset sfm_data.intrinsics
  { sfm_data with
    views := mergeAppend sfm_data.views sfm_merge.views viewOffset
      (mergedView viewOffset intrinsicOffset)
    poses := mergeAppend sfm_data.poses sfm_merge.poses poseOffset (fun _ p => p)
    intrinsics := mergeAppend sfm_data.intrinsics sfm_merge.intrinsics intrinsicOffset
      (fun _ i => i) }

end MergeDefs

/-! ## The localization loop of `main` -/

/-- The resection methods named by `main` (`resection::SolverType`). -/
inductive SolverType where
  | DEFAULT
  | DLT_6POINTS
  | P3P_KE_CVPR17
  | P3P_KNEIP_CVPR11
  | P3P_NORDBERG_ECCV18
  | UP2P_KUKELOVA_ACCV10
deriving DecidableEq, Repr

/-- The part of `sfm::Image_Localizer_Match_Data` that `main` reads. -/
structure Image_Localizer_Match_Data (Proj : Type) where
  projection_matrix : Proj
  vec_inliers : List Nat
  vec_landmarks : List Nat

/-- The external operations the loop calls, as functions of the image name
(which stands for the image file and the regions extracted from it). -/
structure Externals (Intr Pose Proj : Type) where
  /-- The test `image::GetFormat(name) != image::Unknown`. -/
  formatKnown : String → Bool
  /-- The call `image::ReadImage`: width and height of the image read. -/
  ReadImage : String → Option (Nat × Nat)
  /-- The accessor `IntrinsicBase::w()`. -/
  w : Intr → Nat
  /-- The accessor `IntrinsicBase::h()`. -/
  h : Intr → Nat
  /-- The constructor `cameras::Intrinsic_Spherical(w, h)`. -/
  Intrinsic_Spherical : Nat → Nat → Intr
  /-- The call `localizer.Localize(solver, size, intrinsic, regions, pose, &data)`. -/
  Localize : SolverType → Nat × Nat → Option Intr → String →
    Option (Pose × Image_Localizer_Match_Data Proj)
  /-- The pinhole-family constructors applied to the decomposition of the
  projection matrix, by camera model id (1 to 5). -/
  newPinhole : Nat → Nat → Nat → Proj → Intr
  /-- The call `SfM_Localizer::RefinePose(intrinsic, pose, data, true,
  refineIntrinsic)`: the refined intrinsic and pose on success. -/
  RefinePose : Intr → Pose → Image_Localizer_Match_Data Proj → Bool → Option (Intr × Pose)

/-- The options of `main` the loop reads, and `intrinsics_data.GetIntrinsics()`. -/
structure Options (Intr : Type) where
  bUseSingleIntrinsics : Bool
  bFilterUsedLandmarks : Bool
  i_User_camera_model : Nat
  resection_method : SolverType
  intrinsics_data : Hash_Map Intr

/-- The camera model id `cameras::CAMERA_SPHERICAL`. -/
def CAMERA_SPHERICAL : Nat := 7

/-- The state the loop shares between images. -/
structure LocState (Intr Pose : Type) where
  sfm_data : SfM_Data Intr Pose
  total_num_images : Nat
  used_landmarks : StdSet
  /-- The poses whose centers are pushed to `vec_found_poses`. -/
  vec_found_poses : List Pose

section Localization

variable {Intr Pose Proj : Type}

/-- What one image brings to the integration critical section: its name and
size, and, when `bSuccessfulLocalization` holds, the intrinsic and the pose
(`optional_intrinsic`, `pose`) that the flag guards. -/
structure Candidate (Intr Pose : Type) where
  name : String
  width : Nat
  height : Nat
  localized : Option (Intr × Pose)

/-- The flag `bSuccessfulLocalization` of a candidate. -/
def Candidate.bSuccessfulLocalization (c : Candidate Intr Pose) : Bool :=
  c.localized.isSome

/-- The integration critical section (lines 600-623).  The ids of the new view
are `views.size()` narrowed to `IndexT`.  The result is `none` when
`GetViews().begin()` is dereferenced on an empty map. -/
def integrate (bUseSingleIntrinsics : Bool) (st : LocState Intr Pose)
    (c : Candidate Intr Pose) : Option (LocState Intr Pose) :=
  let sfm := st.sfm_data
  let n := sfm.views.size % IndexT_card
  let v : View := ⟨c.name, n, n, n, c.width % IndexT_card, c.height % IndexT_card⟩
  match c.localized with
  | some (optional_intrinsic, pose) =>
    if !bUseSingleIntrinsics then
      some { st with
        total_num_images := st.total_num_images + 1
        vec_found_poses := st.vec_found_poses ++ [pose]
        sfm_data := { sfm with
          intrinsics := sfm.intrinsics.assign v.id_intrinsic optional_intrinsic
          poses := sfm.poses.assign v.id_pose pose
          views := sfm.views.assign v.id_view v } }
    else
      match sfm.views.head? with
      | some first =>
        let v1 := { v with id_intrinsic := first.2.id_intrinsic }
        some { st with
          total_num_images := st.total_num_images + 1
          vec_found_poses := st.vec_found_poses ++ [pose]
          sfm_data := { sfm with
            poses := sfm.poses.assign v1.id_pose pose
            views := sfm.views.assign v1.id_view v1 } }
      | none => none
  | none =>
    let v0 := { v with id_intrinsic := UndefinedIndexT, id_pose := UndefinedIndexT }
    some { st with
      total_num_images := st.total_num_images + 1
      sfm_data := { sfm with views := sfm.views.assign v0.id_view v0 } }

/-- The critical sections of a sequence of images, in the order they are entered. -/
def integrateAll (bUseSingleIntrinsics : Bool) :
    LocState Intr Pose → List (Candidate Intr Pose) → Option (LocState Intr Pose)
  | st, [] => some st
  | st, c :: cs =>
    match integrate bUseSingleIntrinsics st c with
    | some st1 => integrateAll bUseSingleIntrinsics st1 cs
    | none => none

/-- The switch on the camera model (lines 561-583): a pinhole-family intrinsic
for the ids 1 to 5, nothing for the spherical camera and for unknown ids. -/
def createIntrinsic (ext : Externals Intr Pose Proj) (i_User_camera_model : Nat)
    (width height : Nat) (data : Image_Localizer_Match_Data Proj) : Option Intr :=
  if 1 ≤ i_User_camera_model ∧ i_User_camera_model ≤ 5 then
    some (ext.newPinhole i_User_camera_model width height data.projection_matrix)
  else none

/-- The tally of used landmarks (lines 537-542). -/
def tallyUsedLandmarks (used_landmarks : StdSet) (data : Image_Localizer_Match_Data Proj) :
    StdSet :=
  data.vec_inliers.foldl (fun used idx => used.insert (data.vec_landmarks.getD idx 0))
    used_landmarks

/-- The result of the part of the loop body that precedes the critical section. -/
inductive Reached (Intr Pose : Type) where
  /-- An uncaught exception: `GetIntrinsics().at(0)` without a key 0. -/
  | aborted
  /-- One of the `continue` statements was taken. -/
  | skipped
  /-- The critical section is entered, with the used landmarks so far. -/
  | candidate (used_landmarks : StdSet) (c : Candidate Intr Pose)

/-- The solver handed to `Localize` (line 518). -/
def solverFor (resection_method : SolverType) (optional_intrinsic : Option Intr) : SolverType :=
  if optional_intrinsic.isSome then resection_method else SolverType.DLT_6POINTS

/-- Localization and refinement of one image (lines 510-596), given the image
size and the intrinsic in `optional_intrinsic` before the call of `Localize`. -/
def localizeAndRefine (ext : Externals Intr Pose Proj) (opts : Options Intr)
    (used_landmarks : StdSet) (name : String) (width height : Nat)
    (optional_intrinsic : Option Intr) : StdSet × Option (Intr × Pose) :=
  match ext.Localize (solverFor opts.resection_method optional_intrinsic) (width, height)
      optional_intrinsic name with
  | none => (used_landmarks, none)
  | some (pose, matching_data) =>
    let used :=
      if opts.bFilterUsedLandmarks then tallyUsedLandmarks used_landmarks matching_data
      else used_landmarks
    let b_new_intrinsic := optional_intrinsic.isNone
    let intrinsic :=
      if b_new_intrinsic then
        createIntrinsic ext opts.i_User_camera_model width height matching_data
      else optional_intrinsic
    match intrinsic with
    | none => (used, none)
    | some intr => (used, ext.RefinePose intr pose matching_data b_new_intrinsic)

/-- The loop body up to the critical section (lines 438-596). -/
def attempt (ext : Externals Intr Pose Proj) (opts : Options Intr)
    (used_landmarks : StdSet) (name : String) : Reached Intr Pose :=
  if !ext.formatKnown name then Reached.skipped
  else
    match ext.ReadImage name with
    | none => Reached.skipped
    | some (width, height) =>
      let go (optional_intrinsic : Option Intr) : Reached Intr Pose :=
        let optional_intrinsic :=
          if optional_intrinsic.isNone ∧ opts.i_User_camera_model = CAMERA_SPHERICAL then
            some (ext.Intrinsic_Spherical width height)
          else optional_intrinsic
        let r := localizeAndRefine ext opts used_landmarks name width height optional_intrinsic
        Reached.candidate r.1 ⟨name, width, height, r.2⟩
      if opts.bUseSingleIntrinsics then
        if opts.intrinsics_data.size ≠ 1 then Reached.skipped
        else
          match opts.intrinsics_data.find? 0 with
          | none => Reached.aborted
          | some intr =>
            if width ≠ ext.w intr ∨ ext.h intr ≠ height then Reached.skipped
            else go (some intr)
      else go none

/-- One iteration of the loop over the query images (lines 436-624). -/
def processImage (ext : Externals Intr Pose Proj) (opts : Options Intr)
    (st : LocState Intr Pose) (name : String) : Option (LocState Intr Pose) :=
  match attempt ext opts st.used_landmarks name with
  | Reached.aborted => none
  | Reached.skipped => some st
  | Reached.candidate used c =>
    integrate opts.bUseSingleIntrinsics { st with used_landmarks := used } c

/-- The loop over the query images, in the order the critical sections are entered. -/
def processAll (ext : Externals Intr Pose Proj) (opts : Options Intr) :
    LocState Intr Pose → List String → Option (LocState Intr Pose)
  | st, [] => some st
  | st, name :: names =>
    match processImage ext opts st name with
    | some st1 => processAll ext opts st1 names
    | none => none

/-- The listing of the base images (lines 341-366): `views.at(n)` for every
`n` below `views.size()`; an absent key throws.  `filename` stands for the path
component extracted from each image path. -/
def listOriginalImages (filename : String → String) (views : Hash_Map View) :
    Option (List String) :=
  (List.range views.size).mapM (fun n => (views.find? n).map (fun v => filename v.s_Img_path))

end Localization

/-! ## Notions used to state the properties -/


/-- The content hashes of the entries of an intrinsics map, in iteration order. -/
def hashesOf {Intr : Type} (hashValue : Intr → Nat) (intrinsics : Hash_Map Intr) : List Nat :=
  intrinsics.map (fun entry => hashValue entry.2)

/-- The rank of `h` among the values of `hs`: the number of distinct values of
`hs` that are smaller than `h`. -/
def rankOf (hs : List Nat) (h : Nat) : Nat :=
  (hs.toFinset.filter (· < h)).card

/-! ## Sample data -/


/-- A sample hash on intrinsics represented by numbers: the last decimal digit. -/
def sampleHash (x : Nat) : Nat := x % 10

/-- A sample scene: three intrinsics, two of them with the same hash, and three
views, the last of which references no intrinsic of the map. -/
def sampleScene : SfM_Data Nat Unit :=
  { views := [(0, ⟨"a.jpg", 0, 3, 0, 640, 480⟩), (1, ⟨"b.jpg", 1, 5, 1, 640, 480⟩),
      (2, ⟨"c.jpg", 2, 9, 2, 640, 480⟩)]
    poses := [(0, ()), (1, ()), (2, ())]
    intrinsics := [(3, 57), (5, 20), (7, 17)]
    landmarks := []
    s_root_path := "root" }

/-- The sample scene with its intrinsics visited by descending key: the same
entries as in `sampleScene`, in the iteration order 7, 5, 3. -/
def descendingScene : SfM_Data Nat Unit :=
  { sampleScene with intrinsics := [(7, 17), (5, 20), (3, 57)] }

/-! ## Sample data for `Merge` -/


/-- A base scene with views keyed 0 and 1, one pose and one intrinsic (poses and
intrinsics are represented by numbers); the second view is not localized. -/
def mergeBase : SfM_Data Nat Nat :=
  { views := [(0, ⟨"base/0.jpg", 0, 0, 0, 640, 480⟩),
      (1, ⟨"base/1.jpg", 1, 0, UndefinedIndexT, 640, 480⟩)]
    poses := [(0, 100)]
    intrinsics := [(0, 11)]
    landmarks := []
    s_root_path := "" }

/-- An incoming scene with views keyed 0, 2 and 5. -/
def mergeIncoming : SfM_Data Nat Nat :=
  { views := [(0, ⟨"in/0.jpg", 0, 0, 0, 640, 480⟩), (2, ⟨"in/2.jpg", 2, 0, 2, 640, 480⟩),
      (5, ⟨"in/5.jpg", 5, 1, 5, 640, 480⟩)]
    poses := [(0, 200), (2, 202), (5, 205)]
    intrinsics := [(0, 21), (1, 22)]
    landmarks := []
    s_root_path := "" }

/-- A base scene whose only view is keyed by the largest 32-bit value. -/
def sentinelKeyBase : SfM_Data Nat Nat :=
  { views := [(4294967295, ⟨"base/x.jpg", 4294967295, 0, 0, 640, 480⟩)]
    poses := [(0, 100)]
    intrinsics := [(0, 11)]
    landmarks := []
    s_root_path := "" }

/-- An incoming scene whose only view is keyed one below the largest 32-bit value. -/
def sentinelKeyIncoming : SfM_Data Nat Nat :=
  { views := [(4294967294, ⟨"in/y.jpg", 4294967294, 0, 0, 640, 480⟩)]
    poses := [(0, 200)]
    intrinsics := [(0, 21)]
    landmarks := []
    s_root_path := "" }

/-- Every key is below the largest 32-bit value, so that `key + 1` does not wrap. -/
def KeysBelowMax {V : Type} (m : Hash_Map V) : Prop :=
  ∀ k ∈ m.keys, k < UndefinedIndexT

instance {V : Type} (m : Hash_Map V) : Decidable (KeysBelowMax m) := by
  unfold KeysBelowMax; infer_instance

/-- The keys of `incoming`, shifted by the offset computed from `base`, do not
overflow 32 bits. -/
def ShiftInRange {V : Type} (base incoming : Hash_Map V) : Prop :=
  ∀ k ∈ incoming.keys, k + mergeOffset base < IndexT_card

instance {V : Type} (base incoming : Hash_Map V) : Decidable (ShiftInRange base incoming) := by
  unfold ShiftInRange; infer_instance


/-- The range conditions under which `Merge` appends without collision: the
base keys are below the largest 32-bit value, the incoming maps are maps, and
the shifted incoming keys do not overflow 32 bits. -/
def MergeInRange {Intr Pose : Type} (base incoming : SfM_Data Intr Pose) : Prop :=
  (KeysBelowMax base.views ∧ incoming.views.WF ∧ ShiftInRange base.views incoming.views) ∧
  (KeysBelowMax base.poses ∧ incoming.poses.WF ∧ ShiftInRange base.poses incoming.poses) ∧
  (KeysBelowMax base.intrinsics ∧ incoming.intrinsics.WF ∧
    ShiftInRange base.intrinsics incoming.intrinsics)

instance {Intr Pose : Type} (base incoming : SfM_Data Intr Pose) :
    Decidable (MergeInRange base incoming) := by
  unfold MergeInRange; infer_instance

/-! ## Sample data for the localization loop -/


/-- Sample external operations (intrinsics, poses and projection matrices are
represented by numbers): `notes.txt` has no image format, `broken.jpg` cannot
be read, `far.jpg` cannot be localized, the refinement of `blur.jpg` fails, and
every other image is localized and refined. -/
def sampleExternals : Externals Nat Nat Nat :=
  { formatKnown := fun name => decide (name ≠ "notes.txt")
    ReadImage := fun name => if name = "broken.jpg" then none else some (640, 480)
    w := fun _ => 640
    h := fun _ => 480
    Intrinsic_Spherical := fun _ _ => 7
    Localize := fun _ _ _ name =>
      if name = "far.jpg" then none
      else if name = "blur.jpg" then some (400, ⟨9, [0, 1], [4, 8]⟩)
      else some (500, ⟨9, [0, 1], [4, 8]⟩)
    newPinhole := fun model _ _ _ => model
    RefinePose := fun intr pose _ _ => if pose = 500 then some (intr, 501) else none }

/-- Sample options: a new intrinsic per image, camera model 3, no usage tracking. -/
def sampleOptions : Options Nat :=
  { bUseSingleIntrinsics := false
    bFilterUsedLandmarks := false
    i_User_camera_model := 3
    resection_method := SolverType.DEFAULT
    intrinsics_data := [] }

/-- A sample state before the loop: the sample merge base scene, nothing processed. -/
def sampleState : LocState Nat Nat :=
  { sfm_data := mergeBase
    total_num_images := 0
    used_landmarks := []
    vec_found_poses := [] }

/-- Three sample candidates for the critical section: a failure between two
successes. -/
def sampleCandidates : List (Candidate Nat Nat) :=
  [⟨"q0.jpg", 640, 480, some (3, 501)⟩, ⟨"q1.jpg", 640, 480, none⟩,
    ⟨"q2.jpg", 640, 480, some (3, 502)⟩]


/-- Sample options in single-intrinsic mode with an empty set of intrinsics to
choose from. -/
def singleOptions : Options Nat :=
  { bUseSingleIntrinsics := true
    bFilterUsedLandmarks := false
    i_User_camera_model := 3
    resection_method := SolverType.DEFAULT
    intrinsics_data := [] }

/-- The conditions under which the loop body leaves by a `continue` before the
critical section: unsupported image format, unreadable image, or, in
single-intrinsic mode, a number of intrinsics other than one or an image size
different from that of the single intrinsic. -/
def Rejected {Intr Pose Proj : Type} (ext : Externals Intr Pose Proj) (opts : Options Intr)
    (name : String) : Prop :=
  ext.formatKnown name = false ∨ ext.ReadImage name = none ∨
    (opts.bUseSingleIntrinsics = true ∧
      (opts.intrinsics_data.size ≠ 1 ∨
        ∃ intr width height, Hash_Map.find? opts.intrinsics_data 0 = some intr ∧
          ext.ReadImage name = some (width, height) ∧
          (width ≠ ext.w intr ∨ ext.h intr ≠ height)))

/-! ## Reference validity -/

/-- Every view's intrinsic id is the undefined sentinel or a key of the
intrinsics map, and every view's pose id is the undefined sentinel or a key of
the poses map. -/
def RefsValid {Intr Pose : Type} (sfm_data : SfM_Data Intr Pose) : Prop :=
  ∀ e ∈ sfm_data.views,
    (e.2.id_intrinsic = UndefinedIndexT ∨ e.2.id_intrinsic ∈ sfm_data.intrinsics.keys) ∧
    (e.2.id_pose = UndefinedIndexT ∨ e.2.id_pose ∈ sfm_data.poses.keys)

instance {Intr Pose : Type} (sfm_data : SfM_Data Intr Pose) : Decidable (RefsValid sfm_data) := by
  unfold RefsValid; infer_instance

/-! ## Sample data for the ids of poses and intrinsics -/

/-- A sample state with two views keyed 0 and 1 whose second view references the
pose and the intrinsic keyed 2. -/
def sparseIdsState : LocState Nat Nat :=
  { sfm_data :=
      { views := [(0, ⟨"base/0.jpg", 0, 0, 0, 640, 480⟩), (1, ⟨"base/1.jpg", 1, 2, 2, 640, 480⟩)]
        poses := [(0, 100), (2, 102)]
        intrinsics := [(0, 11), (2, 12)]
        landmarks := []
        s_root_path := "" }
    total_num_images := 0
    used_landmarks := []
    vec_found_poses := [] }

/-- A sample state whose scene has one view and one intrinsic, keyed 0, that
the view does not reference: the view has a pose and the undefined intrinsic
id. -/
def unreferencedIntrinsicState : LocState Nat Nat :=
  { sfm_data :=
      { views := [(0, ⟨"base/0.jpg", 0, UndefinedIndexT, 0, 640, 480⟩)]
        poses := [(0, 100)]
        intrinsics := [(0, 11)]
        landmarks := [(0, ⟨[(0, 0)]⟩)]
        s_root_path := "" }
    total_num_images := 0
    used_landmarks := []
    vec_found_poses := [] }

/-- Sample options in single-intrinsic mode with the single intrinsic of
`unreferencedIntrinsicState`. -/
def sharedIntrinsicOptions : Options Nat :=
  { bUseSingleIntrinsics := true
    bFilterUsedLandmarks := false
    i_User_camera_model := 3
    resection_method := SolverType.DEFAULT
    intrinsics_data := [(0, 11)] }

/-! ## The filtered export of `main` -/

section FilterDefs

variable {Intr Pose Pos Dist : Type}

/-- The filter parameters of `main`: the switch `-U`, the radius and the fixed
position `(filterPosX, filterPosY, filterPosZ)`. -/
structure FilterOptions (Pos Dist : Type) where
  bFilterUsedLandmarks : Bool
  filterRadius : Dist
  filterPos : Pos

/-- The candidate set `whichfiles` (lines 635-659): the views observing a used
landmark when usage filtering is requested, otherwise the `id_view` of every
view. -/
def candidateViews (bFilterUsedLandmarks : Bool) (used_landmarks : StdSet)
    (sfm_data : SfM_Data Intr Pose) : StdSet :=
  if bFilterUsedLandmarks then
    used_landmarks.foldl
      (fun whichfiles iLandmark =>
        match sfm_data.landmarks.find? iLandmark with
        | some lm => lm.obs.foldl (fun which iObs => which.insert iObs.1) whichfiles
        | none => whichfiles)
      []
  else
    sfm_data.views.foldl (fun whichfiles v => whichfiles.insert v.2.id_view) []

/-- The radius filter (lines 661-675) over the remaining candidates, with the
set `goodfiles` built so far.  `distance pose pos` is
`(pose.center() - pos).norm()`.  The result is `none` when `views.at` or
`poses.at` throws. -/
def radiusFilter [LE Dist] [DecidableRel (fun a b : Dist => a ≤ b)]
    (distance : Pose → Pos → Dist) (pos : Pos) (filterRadius : Dist)
    (sfm_data : SfM_Data Intr Pose) : StdSet → StdSet → Option StdSet
  | [], goodfiles => some goodfiles
  | iImage :: rest, goodfiles =>
    match sfm_data.views.find? iImage with
    | none => none
    | some view =>
      match sfm_data.poses.find? view.id_pose with
      | none => none
      | some pose =>
        radiusFilter distance pos filterRadius sfm_data rest
          (if distance pose pos ≤ filterRadius then goodfiles.insert iImage else goodfiles)

/-- The renumbering loop (lines 678-692) over the remaining views, with the next
key `iKey` and the views and poses of `used` built so far.  The result is `none`
when a view or a pose is missing. -/
def renumberViews (sfm_data : SfM_Data Intr Pose) :
    StdSet → Nat → Hash_Map View × Hash_Map Pose → Option (Hash_Map View × Hash_Map Pose)
  | [], _, used => some used
  | iImage :: rest, iKey, used =>
    match sfm_data.views.find? iImage with
    | none => none
    | some view =>
      match sfm_data.poses.find? view.id_pose with
      | none => none
      | some pose =>
        renumberViews sfm_data rest ((iKey + 1) % IndexT_card)
          (used.1.assign iKey { view with id_view := iKey, id_pose := iKey },
            used.2.assign iKey pose)

/-- The filtered export (lines 629-694): the scene `used` handed to `Save`, or
`none` when a lookup throws. -/
def exportFiltered [LE Dist] [DecidableRel (fun a b : Dist => a ≤ b)]
    (distance : Pose → Pos → Dist) (fopts : FilterOptions Pos Dist)
    (used_landmarks : StdSet) (sfm_data : SfM_Data Intr Pose) :
    Option (SfM_Data Intr Pose) :=
  let whichfiles := candidateViews fopts.bFilterUsedLandmarks used_landmarks sfm_data
  match radiusFilter distance fopts.filterPos fopts.filterRadius sfm_data whichfiles [] with
  | none => none
  | some goodfiles =>
    match renumberViews sfm_data goodfiles 0 ([], []) with
    | none => none
    | some used =>
      some
        { views := used.1
          poses := used.2
          intrinsics := sfm_data.intrinsics
          landmarks := []
          s_root_path := sfm_data.s_root_path }

/-- The test of the radius filter on one view id, for stating what the filter
retains: the view exists, its pose exists, and the distance of the pose to
`pos` is at most the radius. -/
def withinRadius [LE Dist] [DecidableRel (fun a b : Dist => a ≤ b)]
    (distance : Pose → Pos → Dist) (pos : Pos) (filterRadius : Dist)
    (sfm_data : SfM_Data Intr Pose) (iImage : Nat) : Bool :=
  match sfm_data.views.find? iImage with
  | none => false
  | some view =>
    match sfm_data.poses.find? view.id_pose with
    | none => false
    | some pose => decide (distance pose pos ≤ filterRadius)

end FilterDefs

/-! ## Sample data for the filtered export -/

/-- A sample distance between integer points.  A distance is represented by its
square, which is exact on integer points and keeps the order of non-negative
numbers; a radius is represented the same way. -/
def sampleDistance (center pos : Int × Int × Int) : Nat :=
  ((center.1 - pos.1) * (center.1 - pos.1)
    + (center.2.1 - pos.2.1) * (center.2.1 - pos.2.1)
    + (center.2.2 - pos.2.2) * (center.2.2 - pos.2.2)).toNat

/-- A sample scene with three views whose poses have the centers `(0,0,0)`,
`(1,0,0)` and `(5,0,0)` (a pose is represented by its center), and two
landmarks. -/
def filterScene : SfM_Data Nat (Int × Int × Int) :=
  { views := [(0, ⟨"a.jpg", 0, 0, 0, 640, 480⟩), (1, ⟨"b.jpg", 1, 0, 1, 640, 480⟩),
      (2, ⟨"c.jpg", 2, 0, 2, 640, 480⟩)]
    poses := [(0, (0, 0, 0)), (1, (1, 0, 0)), (2, (5, 0, 0))]
    intrinsics := [(0, 11)]
    landmarks := [(7, ⟨[(0, 3), (2, 5)]⟩), (9, ⟨[(2, 1)]⟩)]
    s_root_path := "root" }

/-- The sample scene after a query image that could not be localized: a fourth
view with undefined pose id and intrinsic id. -/
def filterSceneWithFailure : SfM_Data Nat (Int × Int × Int) :=
  { filterScene with
    views := filterScene.views ++
      [(3, ⟨"q.jpg", 3, UndefinedIndexT, UndefinedIndexT, 640, 480⟩)] }

/-- A radius-1 filter around the origin, without usage filtering. -/
def radiusOneOptions : FilterOptions (Int × Int × Int) Nat :=
  { bFilterUsedLandmarks := false, filterRadius := 1, filterPos := (0, 0, 0) }

/-- The filter parameters when no filter flag is given: `filterRadius = 0` and
`filterPosX = filterPosY = filterPosZ = 0`, with the switch `-U` as given. -/
def defaultFilterOptions (bFilterUsedLandmarks : Bool) : FilterOptions (Int × Int × Int) Nat :=
  { bFilterUsedLandmarks := bFilterUsedLandmarks, filterRadius := 0, filterPos := (0, 0, 0) }

/-! ## Validation of the filter flags -/

/-- Which of the filter options were given on the command line: `cmd.used` of
`-x`, `-y`, `-z`, `-f`, `-Q` and `-D`. -/
structure FilterFlags where
  used_x : Bool
  used_y : Bool
  used_z : Bool
  used_f : Bool
  used_Q : Bool
  used_D : Bool
deriving DecidableEq, Repr

/-- The exit codes of `main`. -/
inductive ExitCode where
  | EXIT_SUCCESS
  | EXIT_FAILURE
deriving DecidableEq, Repr

/-- The validation of the filter flags (lines 174-190): `true` when one of the
three tests returns `EXIT_FAILURE`. -/
def filterFlagsRejected (flags : FilterFlags) : Bool :=
  let numxyz := flags.used_x.toNat + flags.used_y.toNat + flags.used_z.toNat
  if numxyz ≠ 0 ∧ numxyz ≠ 3 then true
  else
    let numr := (decide (numxyz = 3)).toNat + flags.used_f.toNat + flags.used_Q.toNat
    if numr > 1 then true
    else if numr ≠ 0 ∧ !flags.used_D then true
    else false

/-- The part of `main` from the flag validation on (lines 170-732): the
validation of the filter flags, the test of the camera model, then the rest of
the program, which starts by loading the scene. -/
def mainAfterParsing (flags : FilterFlags) (cameraModelValid : Bool)
    (loadAndRun : Unit → ExitCode) : ExitCode :=
  if filterFlagsRejected flags then ExitCode.EXIT_FAILURE
  else if !cameraModelValid then ExitCode.EXIT_FAILURE
  else loadAndRun ()

/-- The number of spatial filters supplied: a fixed position (any of `-x`, `-y`,
`-z`), a reference image (`-f`), the queried set (`-Q`). -/
def spatialFiltersSupplied (flags : FilterFlags) : Nat :=
  (flags.used_x || flags.used_y || flags.used_z).toNat + flags.used_f.toNat
    + flags.used_Q.toNat

/-! ## Notions used to state the tally of used landmarks -/

/-- Sample options with usage tracking (`-U`). -/
def trackingOptions : Options Nat :=
  { bUseSingleIntrinsics := false
    bFilterUsedLandmarks := true
    i_User_camera_model := 3
    resection_method := SolverType.DEFAULT
    intrinsics_data := [] }

/-- The intrinsic in `optional_intrinsic` when `Localize` is called for an image
of the given size that was not rejected: the single intrinsic in single-intrinsic
mode, a spherical intrinsic for the spherical camera model, none otherwise. -/
def intrinsicAtLocalize {Intr Pose Proj : Type} (ext : Externals Intr Pose Proj)
    (opts : Options Intr) (width height : Nat) : Option Intr :=
  if opts.bUseSingleIntrinsics then Hash_Map.find? opts.intrinsics_data 0
  else if opts.i_User_camera_model = CAMERA_SPHERICAL then
    some (ext.Intrinsic_Spherical width height)
  else none

/-- The call of `Localize` for the image `name` is reached and succeeds, with
the matching data `data`. -/
def LocalizeSucceeded {Intr Pose Proj : Type} (ext : Externals Intr Pose Proj)
    (opts : Options Intr) (name : String) (data : Image_Localizer_Match_Data Proj) : Prop :=
  ¬ Rejected ext opts name ∧
    ∃ width height pose, ext.ReadImage name = some (width, height) ∧
      ext.Localize
          (solverFor opts.resection_method (intrinsicAtLocalize ext opts width height))
          (width, height) (intrinsicAtLocalize ext opts width height) name
        = some (pose, data)

/-! ## Sample data for the choice of the solver -/

/-- The sample external operations with a `Localize` that fails for every solver
but the 6-point DLT. -/
def dltOnlyExternals : Externals Nat Nat Nat :=
  { sampleExternals with
    Localize := fun solver size intr name =>
      if solver = SolverType.DLT_6POINTS then sampleExternals.Localize solver size intr name
      else none }

/-- The sample options with the requested resection method `P3P_KE_CVPR17`. -/
def p3pOptions : Options Nat :=
  { sampleOptions with resection_method := SolverType.P3P_KE_CVPR17 }

/-! ## `generate_feature_path` -/

/-- The path functions of `stlplus` that `generate_feature_path` calls; they are
declared outside the sources at hand. -/
structure PathFunctions where
  /-- The elements of a file specification. -/
  filespec_elements : String → List String
  folder_append_separator : String → String
  basename_part : String → String
  create_filespec : String → String → String → String

/-- The loop `while (!dir.empty() && dir.back() == '@') { ++nd; dir.pop_back(); }`
on the reversed characters of `dir`: the remaining characters (reversed) and
the counter. -/
def stripMarkers : List Char → Nat → List Char × Nat
  | [], nd => ([], nd)
  | c :: rest, nd => if c = '@' then stripMarkers rest (nd + 1) else (c :: rest, nd)

/-- The function `generate_feature_path(feat_directory, sImageName, extension)`.
The offset `ioffset` is a signed integer. -/
def generate_feature_path (fs : PathFunctions)
    (feat_directory sImageName extension : String) : String :=
  let stripped := stripMarkers feat_directory.data.reverse 0
  let dir : String := String.mk stripped.1.reverse
  let nd := stripped.2
  let dir :=
    if nd ≠ 0 then
      let pth := fs.filespec_elements sImageName
      let ioffset : Int := (pth.length : Int) - (nd : Int) - 1
      if 0 ≤ ioffset then
        (List.range nd).foldl
          (fun dir i => fs.folder_append_separator dir ++ pth.getD (ioffset.toNat + i) "")
          dir
      else dir
    else dir
  let basename := fs.basename_part sImageName
  fs.create_filespec dir basename extension

/-- Sample path functions: `videos/a/frame_1.jpg` has the elements `videos`, `a`
and `frame_1.jpg` and the base name `frame_1`. -/
def samplePathFunctions : PathFunctions :=
  { filespec_elements := fun s =>
      if s = "videos/a/frame_1.jpg" then ["videos", "a", "frame_1.jpg"] else [s]
    folder_append_separator := fun d => d ++ "/"
    basename_part := fun s => if s = "videos/a/frame_1.jpg" then "frame_1" else s
    create_filespec := fun d b e => d ++ "/" ++ b ++ e }

/-! ## `FindCommonRootDir` -/

/-- The largest value of the counter `int i`. -/
def INT_MAX : Nat := 2147483647

/-- The loop of `FindCommonRootDir` on the characters of the two strings, with
the number of iterations left before `i` reaches `min(dir1.size(), dir2.size())`
and the counter `i`: the value of `i` after the loop, or `none` when `i++`
overflows. -/
def findCommonLoop (dir1 dir2 : List Char) : Nat → Nat → Option Nat
  | 0, i => some i
  | remaining + 1, i =>
    if dir1.getD i default ≠ dir2.getD i default then some i
    else if i = INT_MAX then none
    else findCommonLoop dir1 dir2 remaining (i + 1)

/-- The function `FindCommonRootDir(dir1, dir2)`: `dir1.substr(0, i)` for the
`i` the loop ends with. -/
def FindCommonRootDir (dir1 dir2 : String) : Option String :=
  (findCommonLoop dir1.data dir2.data (min dir1.length dir2.length) 0).map
    (fun i => String.mk (dir1.data.take i))

/-! ## Sample data for the undefined sentinel in `Merge` -/

/-- A base scene with two localized views: poses keyed 0 and 1, one intrinsic
keyed 0. -/
def mergeBasePosed : SfM_Data Nat Nat :=
  { views := [(0, ⟨"base/0.jpg", 0, 0, 0, 640, 480⟩), (1, ⟨"base/1.jpg", 1, 0, 1, 640, 480⟩)]
    poses := [(0, 100), (1, 101)]
    intrinsics := [(0, 11)]
    landmarks := []
    s_root_path := "" }

/-- An incoming scene whose only view is not localized: its pose id and its
intrinsic id are the undefined sentinel. -/
def mergeIncomingUnlocalized : SfM_Data Nat Nat :=
  { views := [(0, ⟨"in/q.jpg", 0, UndefinedIndexT, UndefinedIndexT, 640, 480⟩)]
    poses := []
    intrinsics := []
    landmarks := []
    s_root_path := "" }

/-! # Theorems -/


/-! ## Maps -/

namespace Hash_Map

variable {V : Type}

theorem find?_assign (m : Hash_Map V) (k k' : Nat) (v : V) :
    (m.assign k v).find? k' = if k = k' then some v else m.find? k' := by
  induction m with
  | nil => simp [assign, find?]
  | cons e m ih =>
    obtain ⟨a, b⟩ := e
    by_cases h1 : k < a
    · simp [assign, find?, h1]
    · by_cases h2 : k = a
      · subst h2
        by_cases h3 : k = k' <;> simp [assign, find?, h3]
      · simp only [assign, h1, h2, if_false, find?, ih]
        by_cases h3 : a = k'
        · subst h3; simp [h2]
        · simp [h3]

theorem mem_keys_assign (m : Hash_Map V) (k k' : Nat) (v : V) :
    k' ∈ (m.assign k v).keys ↔ k' = k ∨ k' ∈ m.keys := by
  induction m with
  | nil => simp [assign, keys]
  | cons e m ih =>
    obtain ⟨a, b⟩ := e
    by_cases h1 : k < a
    · simp [assign, keys, h1]
    · by_cases h2 : k = a
      · subst h2
        simp [assign, keys]
      · simp only [keys] at ih
        simp only [assign, h1, h2, if_false, keys, List.map_cons, List.mem_cons, ih]
        tauto

theorem sorted_assign (m : Hash_Map V) (k : Nat) (v : V)
    (h : m.keys.Pairwise (· < ·)) : (m.assign k v).keys.Pairwise (· < ·) := by
  induction m with
  | nil => simp [assign, keys]
  | cons e m ih =>
    obtain ⟨a, b⟩ := e
    simp only [keys, List.map_cons, List.pairwise_cons] at h
    by_cases h1 : k < a
    · simp only [assign, h1, if_true, keys, List.map_cons, List.pairwise_cons]
      refine ⟨?_, h⟩
      intro x hx
      rcases List.mem_cons.1 hx with hx | hx
      · omega
      · have := h.1 x hx
        omega
    · by_cases h2 : k = a
      · subst h2
        simpa [assign, keys] using h
      · simp only [assign, h1, h2, if_false, keys, List.map_cons, List.pairwise_cons]
        refine ⟨?_, ih h.2⟩
        intro x hx
        rcases (mem_keys_assign m k x v).1 hx with hx | hx
        · omega
        · exact h.1 x hx

theorem find?_eq_none (m : Hash_Map V) (k : Nat) : m.find? k = none ↔ k ∉ m.keys := by
  induction m with
  | nil => simp [find?, keys]
  | cons e m ih =>
    obtain ⟨a, b⟩ := e
    simp only [keys] at ih
    by_cases h : a = k
    · simp [find?, keys, h]
    · have h' : ¬ k = a := fun h'' => h h''.symm
      simp [find?, keys, h, h', ih]

theorem mem_of_find? (m : Hash_Map V) (k : Nat) (v : V) (h : m.find? k = some v) :
    (k, v) ∈ m := by
  induction m with
  | nil => simp [find?] at h
  | cons e m ih =>
    obtain ⟨a, b⟩ := e
    by_cases h1 : a = k
    · simp [find?, h1] at h
      simp [h1, h]
    · simp only [find?, h1, if_false] at h
      exact List.mem_cons_of_mem _ (ih h)

theorem find?_of_mem (m : Hash_Map V) (k : Nat) (v : V)
    (hs : m.keys.Pairwise (· < ·)) (h : (k, v) ∈ m) : m.find? k = some v := by
  induction m with
  | nil => simp at h
  | cons e m ih =>
    obtain ⟨a, b⟩ := e
    simp only [keys, List.map_cons, List.pairwise_cons] at hs
    rcases List.mem_cons.1 h with h | h
    · cases h
      simp [find?]
    · have hk : k ∈ m.map Prod.fst := List.mem_map.2 ⟨(k, v), h, rfl⟩
      have := hs.1 k hk
      have hne : ¬ a = k := by omega
      simp only [find?, hne, if_false]
      exact ih hs.2 h

theorem mem_keys_iff (m : Hash_Map V) (k : Nat) : k ∈ m.keys ↔ ∃ v, m.find? k = some v := by
  constructor
  · intro h
    cases hf : m.find? k with
    | none => exact absurd h ((find?_eq_none m k).1 hf)
    | some v => exact ⟨v, rfl⟩
  · rintro ⟨v, hv⟩
    by_contra hc
    rw [(find?_eq_none m k).2 hc] at hv
    cases hv

theorem ext (m₁ m₂ : Hash_Map V) (h₁ : m₁.keys.Pairwise (· < ·))
    (h₂ : m₂.keys.Pairwise (· < ·)) (h : ∀ k, m₁.find? k = m₂.find? k) : m₁ = m₂ := by
  induction m₁ generalizing m₂ with
  | nil =>
    cases m₂ with
    | nil => rfl
    | cons e m₂ =>
      obtain ⟨a, b⟩ := e
      have := h a
      simp [find?] at this
  | cons e₁ m₁ ih =>
    obtain ⟨a₁, b₁⟩ := e₁
    cases m₂ with
    | nil =>
      have := h a₁
      simp [find?] at this
    | cons e₂ m₂ =>
      obtain ⟨a₂, b₂⟩ := e₂
      simp only [keys, List.map_cons, List.pairwise_cons] at h₁ h₂
      have hn₁ : ∀ k, k ≤ a₁ → find? m₁ k = none := fun k hk =>
        (find?_eq_none m₁ k).2 (fun hc => by have := h₁.1 k hc; omega)
      have hn₂ : ∀ k, k ≤ a₂ → find? m₂ k = none := fun k hk =>
        (find?_eq_none m₂ k).2 (fun hc => by have := h₂.1 k hc; omega)
      have ha : a₁ = a₂ := by
        by_contra hne
        rcases Nat.lt_or_gt_of_ne hne with hlt | hgt
        · have := h a₁
          have hne' : ¬ a₂ = a₁ := fun h'' => hne h''.symm
          simp [find?, hne', hn₂ a₁ (by omega)] at this
        · have := h a₂
          simp [find?, hne, hn₁ a₂ (by omega)] at this
      subst ha
      have hb : b₁ = b₂ := by
        have := h a₁
        simpa [find?] using this
      subst hb
      congr 1
      apply ih m₂ h₁.2 h₂.2
      intro k
      by_cases hk : a₁ = k
      · subst hk
        rw [hn₁ a₁ (le_refl _), hn₂ a₁ (le_refl _)]
      · have := h k
        simpa [find?, hk] using this

end Hash_Map

/-! ## Ordered sets and ranks -/

namespace StdSet

theorem mem_insert (s : StdSet) (x y : Nat) : y ∈ insert s x ↔ y = x ∨ y ∈ s := by
  induction s with
  | nil => simp [insert]
  | cons a s ih =>
    by_cases h1 : x < a
    · simp [insert, h1]
    · by_cases h2 : x = a
      · subst h2
        simp [insert]
      · simp only [insert, h1, h2, if_false, List.mem_cons, ih]
        tauto

theorem sorted_insert (s : StdSet) (x : Nat) (h : s.Pairwise (· < ·)) :
    (insert s x).Pairwise (· < ·) := by
  induction s with
  | nil => simp [insert]
  | cons a s ih =>
    simp only [List.pairwise_cons] at h
    by_cases h1 : x < a
    · simp only [insert, h1, if_true, List.pairwise_cons]
      refine ⟨?_, h⟩
      intro y hy
      rcases List.mem_cons.1 hy with hy | hy
      · omega
      · have := h.1 y hy
        omega
    · by_cases h2 : x = a
      · subst h2
        simpa [insert] using h
      · simp only [insert, h1, h2, if_false, List.pairwise_cons]
        refine ⟨?_, ih h.2⟩
        intro y hy
        rcases (mem_insert s x y).1 hy with hy | hy
        · omega
        · exact h.1 y hy

theorem mem_foldl_insert (hs : List Nat) (s : StdSet) (y : Nat) :
    y ∈ hs.foldl insert s ↔ y ∈ s ∨ y ∈ hs := by
  induction hs generalizing s with
  | nil => simp
  | cons a hs ih =>
    simp only [List.foldl_cons, ih, mem_insert, List.mem_cons]
    tauto

theorem sorted_foldl_insert (hs : List Nat) (s : StdSet) (h : s.Pairwise (· < ·)) :
    (hs.foldl insert s).Pairwise (· < ·) := by
  induction hs generalizing s with
  | nil => simpa using h
  | cons a hs ih => exact ih _ (sorted_insert s a h)

/-- In a strictly ascending list the position of a member is its rank. -/
theorem indexOf_eq_rank (s : List Nat) (h : s.Pairwise (· < ·)) (x : Nat) (hx : x ∈ s) :
    s.indexOf x = rankOf s x := by
  induction s with
  | nil => simp at hx
  | cons a s ih =>
    simp only [List.pairwise_cons] at h
    by_cases hxa : x = a
    · subst hxa
      have : (x :: s).toFinset.filter (· < x) = ∅ := by
        apply Finset.filter_eq_empty_iff.2
        intro y hy
        simp only [List.toFinset_cons, Finset.mem_insert, List.mem_toFinset] at hy
        rcases hy with hy | hy
        · omega
        · have := h.1 y hy
          omega
      rw [List.indexOf_cons_self]
      simp only [rankOf, this, Finset.card_empty]
    · have hxs : x ∈ s := by
        rcases List.mem_cons.1 hx with hx | hx
        · exact absurd hx hxa
        · exact hx
      have hax : a < x := h.1 x hxs
      have hne : ¬ a = x := fun h' => hxa h'.symm
      have hnot : a ∉ s.toFinset.filter (· < x) := by
        intro hc
        have := h.1 a (List.mem_toFinset.1 (Finset.mem_filter.1 hc).1)
        omega
      rw [List.indexOf_cons_ne _ hne, ih h.2 hxs]
      simp only [rankOf, List.toFinset_cons]
      rw [Finset.filter_insert, if_pos hax, Finset.card_insert_of_not_mem hnot]

end StdSet

theorem rankOf_congr (hs hs' : List Nat) (h : ∀ x, x ∈ hs ↔ x ∈ hs') (x : Nat) :
    rankOf hs x = rankOf hs' x := by
  have : hs.toFinset = hs'.toFinset := by
    ext y
    simp [h y]
  simp [rankOf, this]

theorem rankOf_lt_card (hs : List Nat) (x : Nat) (hx : x ∈ hs) :
    rankOf hs x < hs.toFinset.card := by
  apply Finset.card_lt_card
  refine ⟨Finset.filter_subset _ _, fun hsub => ?_⟩
  have := hsub (List.mem_toFinset.2 hx)
  simp at this

theorem rankOf_strictMono (hs : List Nat) (x y : Nat) (hx : x ∈ hs) (hxy : x < y) :
    rankOf hs x < rankOf hs y := by
  apply Finset.card_lt_card
  refine ⟨fun z hz => ?_, fun hsub => ?_⟩
  · simp only [Finset.mem_filter] at hz ⊢
    exact ⟨hz.1, by omega⟩
  · have := hsub (Finset.mem_filter.2 ⟨List.mem_toFinset.2 hx, hxy⟩)
    simp at this

theorem rankOf_inj (hs : List Nat) (x y : Nat) (hx : x ∈ hs) (hy : y ∈ hs)
    (h : rankOf hs x = rankOf hs y) : x = y := by
  rcases Nat.lt_trichotomy x y with hlt | heq | hgt
  · have := rankOf_strictMono hs x y hx hlt
    omega
  · exact heq
  · have := rankOf_strictMono hs y x hy hgt
    omega

/-- Every number below the count of distinct values is the rank of one of them. -/
theorem exists_rankOf_eq (hs : List Nat) (r : Nat) (hr : r < hs.toFinset.card) :
    ∃ x ∈ hs, rankOf hs x = r := by
  have hsorted : (hs.toFinset.sort (· ≤ ·)).Pairwise (· < ·) := Finset.sort_sorted_lt _
  have hlen : (hs.toFinset.sort (· ≤ ·)).length = hs.toFinset.card := Finset.length_sort _
  have hr' : r < (hs.toFinset.sort (· ≤ ·)).length := by omega
  have hmem : ∀ y, y ∈ hs.toFinset.sort (· ≤ ·) ↔ y ∈ hs := fun y => by simp
  refine ⟨(hs.toFinset.sort (· ≤ ·)).get ⟨r, hr'⟩, (hmem _).1 (List.get_mem _ _ _), ?_⟩
  rw [← rankOf_congr _ _ hmem, ← StdSet.indexOf_eq_rank _ hsorted _ (List.get_mem _ _ _)]
  exact List.get_indexOf hsorted.nodup ⟨r, hr'⟩

/-! ## Maps built by a loop of assignments -/

namespace Hash_Map

variable {V W : Type}

theorem sorted_foldl_assign (es : List W) (f : W → Nat) (g : W → V) (m0 : Hash_Map V)
    (h0 : m0.keys.Pairwise (· < ·)) :
    (es.foldl (fun m e => m.assign (f e) (g e)) m0).keys.Pairwise (· < ·) := by
  induction es generalizing m0 with
  | nil => simpa using h0
  | cons e es ih => exact ih _ (sorted_assign m0 _ _ h0)

/-- The last assignment to a key wins. -/
theorem find?_foldl_assign (es : List W) (f : W → Nat) (g : W → V) (m0 : Hash_Map V)
    (r : Nat) :
    (es.foldl (fun m e => m.assign (f e) (g e)) m0).find? r =
      match es.reverse.find? (fun e => decide (f e = r)) with
      | some e => some (g e)
      | none => m0.find? r := by
  induction es generalizing m0 with
  | nil => simp
  | cons e es ih =>
    simp only [List.foldl_cons, ih, List.reverse_cons, List.find?_append]
    cases hfind : es.reverse.find? (fun e => decide (f e = r)) with
    | some e' => simp
    | none =>
      by_cases hfe : f e = r
      · simp [List.find?, hfe, find?_assign]
      · simp [List.find?, hfe, find?_assign]

theorem find?_foldl_assign_some (es : List W) (f : W → Nat) (g : W → V) (r : Nat) (v : V)
    (h : find? (es.foldl (fun m e => assign m (f e) (g e)) ([] : Hash_Map V)) r = some v) :
    ∃ e ∈ es, f e = r ∧ g e = v := by
  rw [find?_foldl_assign] at h
  cases hfind : es.reverse.find? (fun e => decide (f e = r)) with
  | none => simp [hfind, find?] at h
  | some e =>
    simp only [hfind, Option.some.injEq] at h
    have h1 := List.find?_some hfind
    have h2 := List.mem_of_find?_eq_some hfind
    exact ⟨e, List.mem_reverse.1 h2, by simpa using h1, h⟩

theorem find?_foldl_assign_isSome (es : List W) (f : W → Nat) (g : W → V) (e : W)
    (he : e ∈ es) :
    ∃ v, find? (es.foldl (fun m e => assign m (f e) (g e)) ([] : Hash_Map V)) (f e) = some v := by
  rw [find?_foldl_assign]
  cases hfind : es.reverse.find? (fun e' => decide (f e' = f e)) with
  | some e' => exact ⟨g e', rfl⟩
  | none =>
    have := List.find?_eq_none.1 hfind e (List.mem_reverse.2 he)
    simp at this

/-- Assigning the entries of a map with ascending keys under their own keys. -/
theorem find?_foldl_assign_key (es : Hash_Map W) (g : Nat × W → V) (m0 : Hash_Map V)
    (hs : es.keys.Pairwise (· < ·)) (k : Nat) :
    (es.foldl (fun m e => m.assign e.1 (g e)) m0).find? k =
      match es.find? k with
      | some w => some (g (k, w))
      | none => m0.find? k := by
  induction es generalizing m0 with
  | nil => simp [find?]
  | cons e es ih =>
    obtain ⟨a, b⟩ := e
    simp only [keys, List.map_cons, List.pairwise_cons] at hs
    simp only [List.foldl_cons, ih _ hs.2]
    by_cases hak : a = k
    · subst hak
      have : find? es a = none :=
        (find?_eq_none es a).2 (fun hc => by have := hs.1 a hc; omega)
      simp [find?, this, find?_assign]
    · cases hfind : find? es k with
      | some w => simp [find?, hak, hfind]
      | none => simp [find?, hak, hfind, find?_assign]

/-- A strictly ascending list of 32-bit keys has at most `2 ^ 32` entries. -/
theorem WF.length_le {m : Hash_Map V} (h : m.WF) : m.length ≤ IndexT_card := by
  have hnd : m.keys.Nodup := h.1.imp (fun hab => Nat.ne_of_lt hab)
  have hsub : m.keys.toFinset ⊆ Finset.range IndexT_card := by
    intro k hk
    exact Finset.mem_range.2 (h.2 k (List.mem_toFinset.1 hk))
  have := Finset.card_le_card hsub
  rw [List.toFinset_card_of_nodup hnd, Finset.card_range] at this
  simpa [keys] using this

end Hash_Map

/-! ## `GroupSharedIntrinsics`: what the loops compute -/

section GroupSharedThms

variable {Intr Pose : Type}

theorem buildHashes_foldl (hashValue : Intr → Nat) (es : Hash_Map Intr)
    (acc : StdSet × List Nat) :
    es.foldl (fun acc intrinsic_it =>
        (StdSet.insert acc.1 (hashValue intrinsic_it.2), acc.2 ++ [hashValue intrinsic_it.2]))
      acc
      = ((hashesOf hashValue es).foldl StdSet.insert acc.1, acc.2 ++ hashesOf hashValue es) := by
  induction es generalizing acc with
  | nil => simp [hashesOf]
  | cons e es ih =>
    simp only [List.foldl_cons, ih]
    simp [hashesOf]

theorem buildHashes_eq (hashValue : Intr → Nat) (es : Hash_Map Intr) :
    buildHashes hashValue es
      = ((hashesOf hashValue es).foldl StdSet.insert [], hashesOf hashValue es) := by
  unfold buildHashes
  rw [buildHashes_foldl]
  simp

theorem buildReindex_foldl (hashValue : Intr → Nat) (S : StdSet)
    (pre suf : Hash_Map Intr) (m0 : Hash_Map Nat) :
    suf.foldl (fun acc intrinsic_it =>
        (Hash_Map.assign acc.1 intrinsic_it.1
            (S.distanceFind ((hashesOf hashValue (pre ++ suf)).getD acc.2 0) % IndexT_card),
          acc.2 + 1))
      (m0, pre.length)
      = (suf.foldl (fun m e => Hash_Map.assign m e.1
            (S.distanceFind (hashValue e.2) % IndexT_card)) m0,
          pre.length + suf.length) := by
  induction suf generalizing pre m0 with
  | nil => simp
  | cons e suf ih =>
    have hsplit : pre ++ e :: suf = (pre ++ [e]) ++ suf := by simp
    have hget : (hashesOf hashValue (pre ++ e :: suf)).getD pre.length 0 = hashValue e.2 := by
      have hlen : (List.map (fun entry : Nat × Intr => hashValue entry.2) pre).length
          ≤ pre.length := by simp
      simp only [hashesOf, List.getD_eq_getElem?_getD, List.map_append, List.map_cons]
      rw [List.getElem?_append_right hlen]
      simp
    simp only [List.foldl_cons, hget]
    have := ih (pre ++ [e]) (Hash_Map.assign m0 e.1 (S.distanceFind (hashValue e.2) % IndexT_card))
    simp only [List.length_append, List.length_singleton, ← hsplit] at this
    rw [this]
    simp only [List.length_cons]
    congr 1
    omega

theorem buildReindex_eq (hashValue : Intr → Nat) (S : StdSet) (es : Hash_Map Intr) :
    (buildReindex S (hashesOf hashValue es) es).1
      = es.foldl (fun m e => Hash_Map.assign m e.1
          (S.distanceFind (hashValue e.2) % IndexT_card)) [] := by
  unfold buildReindex
  have := buildReindex_foldl hashValue S [] es []
  simp only [List.nil_append, List.length_nil] at this
  rw [this]

/-- The narrowed distance in `hash_index` of the hash of an entry is its rank. -/
theorem distanceFind_eq_rankOf (hashValue : Intr → Nat) (es : Hash_Map Intr)
    (hwf : es.WF) (x : Intr) (k : Nat) (hx : (k, x) ∈ es) :
    StdSet.distanceFind ((hashesOf hashValue es).foldl StdSet.insert []) (hashValue x)
        % IndexT_card
      = rankOf (hashesOf hashValue es) (hashValue x) := by
  have hmemhs : hashValue x ∈ hashesOf hashValue es :=
    List.mem_map.2 ⟨(k, x), hx, rfl⟩
  have hsorted := StdSet.sorted_foldl_insert (hashesOf hashValue es) [] List.Pairwise.nil
  have hmem : ∀ y, y ∈ (hashesOf hashValue es).foldl StdSet.insert [] ↔
      y ∈ hashesOf hashValue es := fun y => by
    simp [StdSet.mem_foldl_insert]
  have h1 := StdSet.indexOf_eq_rank _ hsorted (hashValue x) ((hmem _).2 hmemhs)
  rw [rankOf_congr _ _ hmem] at h1
  have h2 := rankOf_lt_card _ _ hmemhs
  have h3 := List.toFinset_card_le (hashesOf hashValue es)
  have h4 := hwf.length_le
  have h5 : (hashesOf hashValue es).length = es.length := by simp [hashesOf]
  unfold StdSet.distanceFind
  rw [h1]
  apply Nat.mod_eq_of_lt
  omega

theorem find?_buildReindex (hashValue : Intr → Nat) (es : Hash_Map Intr) (hwf : es.WF)
    (k : Nat) :
    Hash_Map.find? (buildReindex (buildHashes hashValue es).1 (buildHashes hashValue es).2 es).1 k
      = (Hash_Map.find? es k).map (fun x => rankOf (hashesOf hashValue es) (hashValue x)) := by
  rw [buildHashes_eq]
  simp only
  rw [buildReindex_eq, Hash_Map.find?_foldl_assign_key es _ _ hwf.1]
  cases hfind : Hash_Map.find? es k with
  | none => simp [Hash_Map.find?]
  | some x =>
    simp only [Option.map_some', Option.some.injEq]
    exact distanceFind_eq_rankOf hashValue es hwf x k (Hash_Map.mem_of_find? es k x hfind)

/-- The intrinsics after the call: every entry of the input is assigned, in
iteration order, under the rank of its hash. -/
theorem GroupSharedIntrinsics_intrinsics (hashValue : Intr → Nat)
    (sfm_data : SfM_Data Intr Pose) (hwf : sfm_data.intrinsics.WF) :
    (GroupSharedIntrinsics hashValue sfm_data).intrinsics
      = sfm_data.intrinsics.foldl (fun m e => Hash_Map.assign m
          (rankOf (hashesOf hashValue sfm_data.intrinsics) (hashValue e.2)) e.2)
          ([] : Hash_Map Intr) := by
  simp only [GroupSharedIntrinsics, buildUpdated]
  apply List.foldl_ext
  intro acc e he
  have h1 := Hash_Map.find?_of_mem sfm_data.intrinsics e.1 e.2 hwf.1 he
  have h2 := find?_buildReindex hashValue sfm_data.intrinsics hwf e.1
  rw [h1] at h2
  simp only [h1, h2, Option.map_some', Option.getD_some]

/-- The new intrinsic id of a view. -/
theorem updateView_eq (hashValue : Intr → Nat) (es : Hash_Map Intr) (hwf : es.WF) (v : View) :
    updateView (buildReindex (buildHashes hashValue es).1 (buildHashes hashValue es).2 es).1 v
      = match Hash_Map.find? es v.id_intrinsic with
        | some x => { v with id_intrinsic := rankOf (hashesOf hashValue es) (hashValue x) }
        | none => v := by
  unfold updateView Hash_Map.count
  rw [find?_buildReindex hashValue es hwf]
  cases hfind : Hash_Map.find? es v.id_intrinsic with
  | none => simp
  | some x => simp

end GroupSharedThms

/-! ## `GroupSharedIntrinsics`: the deduplicated map -/

section GroupSharedFacts

variable {Intr Pose : Type}

theorem gsi_sorted (hashValue : Intr → Nat) (sfm_data : SfM_Data Intr Pose)
    (hwf : sfm_data.intrinsics.WF) :
    (GroupSharedIntrinsics hashValue sfm_data).intrinsics.keys.Pairwise (· < ·) := by
  rw [GroupSharedIntrinsics_intrinsics hashValue sfm_data hwf]
  exact Hash_Map.sorted_foldl_assign _ _ _ _ List.Pairwise.nil

/-- Every entry of the output comes from the input and sits under the rank of its hash. -/
theorem gsi_mem (hashValue : Intr → Nat) (sfm_data : SfM_Data Intr Pose)
    (hwf : sfm_data.intrinsics.WF) (r : Nat) (v : Intr)
    (h : (r, v) ∈ (GroupSharedIntrinsics hashValue sfm_data).intrinsics) :
    (∃ k, (k, v) ∈ sfm_data.intrinsics) ∧
      rankOf (hashesOf hashValue sfm_data.intrinsics) (hashValue v) = r := by
  have hf := Hash_Map.find?_of_mem _ r v (gsi_sorted hashValue sfm_data hwf) h
  rw [GroupSharedIntrinsics_intrinsics hashValue sfm_data hwf] at hf
  obtain ⟨e, he, h1, h2⟩ := Hash_Map.find?_foldl_assign_some _ _ _ _ _ hf
  subst h2
  exact ⟨⟨e.1, he⟩, h1⟩

/-- The hash of every input entry is found in the output, under its rank. -/
theorem gsi_find_rank (hashValue : Intr → Nat) (sfm_data : SfM_Data Intr Pose)
    (hwf : sfm_data.intrinsics.WF) (k : Nat) (x : Intr) (hx : (k, x) ∈ sfm_data.intrinsics) :
    ∃ v, Hash_Map.find? (GroupSharedIntrinsics hashValue sfm_data).intrinsics
        (rankOf (hashesOf hashValue sfm_data.intrinsics) (hashValue x)) = some v ∧
      hashValue v = hashValue x := by
  have hex := Hash_Map.find?_foldl_assign_isSome sfm_data.intrinsics
    (fun e => rankOf (hashesOf hashValue sfm_data.intrinsics) (hashValue e.2))
    (fun e => e.2) (k, x) hx
  rw [← GroupSharedIntrinsics_intrinsics hashValue sfm_data hwf] at hex
  obtain ⟨v, hv⟩ := hex
  refine ⟨v, hv, ?_⟩
  obtain ⟨⟨k', hk'⟩, hr⟩ := gsi_mem hashValue sfm_data hwf _ v (Hash_Map.mem_of_find? _ _ _ hv)
  exact rankOf_inj _ _ _ (List.mem_map.2 ⟨(k', v), hk', rfl⟩)
    (List.mem_map.2 ⟨(k, x), hx, rfl⟩) hr

theorem gsi_keys (hashValue : Intr → Nat) (sfm_data : SfM_Data Intr Pose)
    (hwf : sfm_data.intrinsics.WF) :
    (GroupSharedIntrinsics hashValue sfm_data).intrinsics.keys
      = List.range (hashesOf hashValue sfm_data.intrinsics).toFinset.card := by
  have hs1 := gsi_sorted hashValue sfm_data hwf
  have hs2 : (List.range (hashesOf hashValue sfm_data.intrinsics).toFinset.card).Pairwise
      (· < ·) := List.pairwise_lt_range _
  apply List.eq_of_perm_of_sorted _ hs1 hs2
  rw [List.perm_ext_iff_of_nodup (hs1.imp (fun hab => Nat.ne_of_lt hab)) (List.nodup_range _)]
  intro r
  rw [List.mem_range]
  constructor
  · intro hr
    obtain ⟨v, hv⟩ := (Hash_Map.mem_keys_iff _ r).1 hr
    obtain ⟨⟨k, hk⟩, hrk⟩ := gsi_mem hashValue sfm_data hwf r v (Hash_Map.mem_of_find? _ _ _ hv)
    rw [← hrk]
    exact rankOf_lt_card _ _ (List.mem_map.2 ⟨(k, v), hk, rfl⟩)
  · intro hr
    obtain ⟨y, hy, hry⟩ := exists_rankOf_eq _ r hr
    obtain ⟨e, he, hey⟩ := List.mem_map.1 hy
    obtain ⟨v, hv, _⟩ := gsi_find_rank hashValue sfm_data hwf e.1 e.2 he
    rw [hey, hry] at hv
    exact (Hash_Map.mem_keys_iff _ r).2 ⟨v, hv⟩

theorem gsi_WF (hashValue : Intr → Nat) (sfm_data : SfM_Data Intr Pose)
    (hwf : sfm_data.intrinsics.WF) :
    (GroupSharedIntrinsics hashValue sfm_data).intrinsics.WF := by
  refine ⟨gsi_sorted hashValue sfm_data hwf, ?_⟩
  intro k hk
  rw [gsi_keys hashValue sfm_data hwf, List.mem_range] at hk
  have h3 := List.toFinset_card_le (hashesOf hashValue sfm_data.intrinsics)
  have h4 := hwf.length_le
  have h5 : (hashesOf hashValue sfm_data.intrinsics).length = sfm_data.intrinsics.length := by
    simp [hashesOf]
  omega

/-- The output has the same set of hashes as the input. -/
theorem gsi_hashes (hashValue : Intr → Nat) (sfm_data : SfM_Data Intr Pose)
    (hwf : sfm_data.intrinsics.WF) (y : Nat) :
    y ∈ hashesOf hashValue (GroupSharedIntrinsics hashValue sfm_data).intrinsics ↔
      y ∈ hashesOf hashValue sfm_data.intrinsics := by
  constructor
  · intro hy
    obtain ⟨e, he, hey⟩ := List.mem_map.1 hy
    obtain ⟨⟨k, hk⟩, _⟩ := gsi_mem hashValue sfm_data hwf e.1 e.2 he
    exact List.mem_map.2 ⟨(k, e.2), hk, hey⟩
  · intro hy
    obtain ⟨e, he, hey⟩ := List.mem_map.1 hy
    obtain ⟨v, hv, hvx⟩ := gsi_find_rank hashValue sfm_data hwf e.1 e.2 he
    exact List.mem_map.2 ⟨(_, v), Hash_Map.mem_of_find? _ _ _ hv, by rw [← hey]; exact hvx⟩

/-- Assigning the entries of a map under their own keys rebuilds the map. -/
theorem foldl_assign_self {V : Type} (m : Hash_Map V) (hs : m.keys.Pairwise (· < ·)) :
    m.foldl (fun acc e => Hash_Map.assign acc e.1 e.2) ([] : Hash_Map V) = m := by
  apply Hash_Map.ext _ _
    (Hash_Map.sorted_foldl_assign m (fun e => e.1) (fun e => e.2) [] List.Pairwise.nil) hs
  intro k
  rw [Hash_Map.find?_foldl_assign_key m (fun e => e.2) [] hs k]
  cases Hash_Map.find? m k <;> simp [Hash_Map.find?]

end GroupSharedFacts

/-! ## `GroupSharedIntrinsics`: the properties -/

section GroupSharedClaims

variable {Intr Pose : Type}

/-- C1: applying `GroupSharedIntrinsics` twice gives exactly the scene that
applying it once gives (same intrinsics map, same views, everything else
untouched), for every scene whose intrinsics form a map. -/
theorem GroupSharedIntrinsics_idempotent (hashValue : Intr → Nat)
    (sfm_data : SfM_Data Intr Pose) (hwf : sfm_data.intrinsics.WF) :
    GroupSharedIntrinsics hashValue (GroupSharedIntrinsics hashValue sfm_data)
      = GroupSharedIntrinsics hashValue sfm_data := by
  have hwf1 := gsi_WF hashValue sfm_data hwf
  have hrank : ∀ e ∈ (GroupSharedIntrinsics hashValue sfm_data).intrinsics,
      rankOf (hashesOf hashValue (GroupSharedIntrinsics hashValue sfm_data).intrinsics)
        (hashValue e.2) = e.1 := by
    intro e he
    rw [rankOf_congr _ _ (gsi_hashes hashValue sfm_data hwf)]
    exact (gsi_mem hashValue sfm_data hwf e.1 e.2 he).2
  have hI : (GroupSharedIntrinsics hashValue
      (GroupSharedIntrinsics hashValue sfm_data)).intrinsics
        = (GroupSharedIntrinsics hashValue sfm_data).intrinsics := by
    rw [GroupSharedIntrinsics_intrinsics hashValue _ hwf1]
    have hstep : ∀ (acc : Hash_Map Intr),
        ∀ e ∈ (GroupSharedIntrinsics hashValue sfm_data).intrinsics,
        Hash_Map.assign acc
          (rankOf (hashesOf hashValue (GroupSharedIntrinsics hashValue sfm_data).intrinsics)
            (hashValue e.2)) e.2 = Hash_Map.assign acc e.1 e.2 := by
      intro acc e he
      rw [hrank e he]
    rw [List.foldl_ext _ _ _ hstep]
    exact foldl_assign_self _ hwf1.1
  have hV : (GroupSharedIntrinsics hashValue
      (GroupSharedIntrinsics hashValue sfm_data)).views
        = (GroupSharedIntrinsics hashValue sfm_data).views := by
    have hview : ∀ v : View,
        updateView (buildReindex
          (buildHashes hashValue (GroupSharedIntrinsics hashValue sfm_data).intrinsics).1
          (buildHashes hashValue (GroupSharedIntrinsics hashValue sfm_data).intrinsics).2
          (GroupSharedIntrinsics hashValue sfm_data).intrinsics).1 v = v := by
      intro v
      rw [updateView_eq hashValue _ hwf1 v]
      cases hfind : Hash_Map.find?
          (GroupSharedIntrinsics hashValue sfm_data).intrinsics v.id_intrinsic with
      | none => rfl
      | some x =>
        have := hrank (v.id_intrinsic, x) (Hash_Map.mem_of_find? _ _ _ hfind)
        simp only at this
        simp only [this]
    show List.map _ (GroupSharedIntrinsics hashValue sfm_data).views = _
    simp only [hview]
    exact List.map_id _
  have hshape : ∀ s : SfM_Data Intr Pose, GroupSharedIntrinsics hashValue s
      = { s with
          intrinsics := (GroupSharedIntrinsics hashValue s).intrinsics
          views := (GroupSharedIntrinsics hashValue s).views } := fun _ => rfl
  rw [hshape (GroupSharedIntrinsics hashValue sfm_data), hI, hV]

/-- Witness of C1 on the sample scene. -/
theorem GroupSharedIntrinsics_idempotent_witness :
    sampleScene.intrinsics.WF ∧
      GroupSharedIntrinsics sampleHash (GroupSharedIntrinsics sampleHash sampleScene)
        = GroupSharedIntrinsics sampleHash sampleScene :=
  ⟨by decide, GroupSharedIntrinsics_idempotent sampleHash sampleScene (by decide)⟩

/-- C2: after `GroupSharedIntrinsics`, two entries of the intrinsics map stored
under different keys have different content hashes. -/
theorem GroupSharedIntrinsics_distinct_hashes (hashValue : Intr → Nat)
    (sfm_data : SfM_Data Intr Pose) (hwf : sfm_data.intrinsics.WF)
    (k₁ k₂ : Nat) (v₁ v₂ : Intr)
    (h₁ : (k₁, v₁) ∈ (GroupSharedIntrinsics hashValue sfm_data).intrinsics)
    (h₂ : (k₂, v₂) ∈ (GroupSharedIntrinsics hashValue sfm_data).intrinsics)
    (hne : k₁ ≠ k₂) : hashValue v₁ ≠ hashValue v₂ := by
  intro heq
  have e₁ := (gsi_mem hashValue sfm_data hwf k₁ v₁ h₁).2
  have e₂ := (gsi_mem hashValue sfm_data hwf k₂ v₂ h₂).2
  rw [heq] at e₁
  exact hne (e₁.symm.trans e₂)

/-- Witness of C2 on the sample scene: the two entries it keeps. -/
theorem GroupSharedIntrinsics_distinct_hashes_witness :
    sampleScene.intrinsics.WF ∧
      (0, 20) ∈ (GroupSharedIntrinsics sampleHash sampleScene).intrinsics ∧
      (1, 17) ∈ (GroupSharedIntrinsics sampleHash sampleScene).intrinsics ∧
      sampleHash 20 ≠ sampleHash 17 :=
  ⟨by decide, by decide, by decide,
    GroupSharedIntrinsics_distinct_hashes sampleHash sampleScene (by decide) 0 1 20 17
      (by decide) (by decide) (by decide)⟩

/-- C3: after `GroupSharedIntrinsics` the keys of the intrinsics map are exactly
`0, ..., k-1`, with `k` the number of distinct content hashes of the input
intrinsics, and the entry under key `r` carries the hash of rank `r`: a hash of
the input with exactly `r` distinct input hashes below it. -/
theorem GroupSharedIntrinsics_dense_ranks (hashValue : Intr → Nat)
    (sfm_data : SfM_Data Intr Pose) (hwf : sfm_data.intrinsics.WF) :
    (GroupSharedIntrinsics hashValue sfm_data).intrinsics.keys
        = List.range (hashesOf hashValue sfm_data.intrinsics).toFinset.card ∧
      (∀ r, r < (hashesOf hashValue sfm_data.intrinsics).toFinset.card →
        ∃ v, Hash_Map.find? (GroupSharedIntrinsics hashValue sfm_data).intrinsics r = some v) ∧
      ∀ r v, (r, v) ∈ (GroupSharedIntrinsics hashValue sfm_data).intrinsics →
        hashValue v ∈ hashesOf hashValue sfm_data.intrinsics ∧
        rankOf (hashesOf hashValue sfm_data.intrinsics) (hashValue v) = r := by
  refine ⟨gsi_keys hashValue sfm_data hwf, ?_, ?_⟩
  · intro r hr
    apply (Hash_Map.mem_keys_iff _ r).1
    rw [gsi_keys hashValue sfm_data hwf]
    exact List.mem_range.2 hr
  · intro r v hv
    obtain ⟨⟨k, hk⟩, hr⟩ := gsi_mem hashValue sfm_data hwf r v hv
    exact ⟨List.mem_map.2 ⟨(k, v), hk, rfl⟩, hr⟩

/-- Witness of C3 on the sample scene. -/
theorem GroupSharedIntrinsics_dense_ranks_witness :
    sampleScene.intrinsics.WF ∧
      (GroupSharedIntrinsics sampleHash sampleScene).intrinsics.keys
        = List.range (hashesOf sampleHash sampleScene.intrinsics).toFinset.card :=
  ⟨by decide, (GroupSharedIntrinsics_dense_ranks sampleHash sampleScene (by decide)).1⟩

/-- C4: `GroupSharedIntrinsics` rewrites the intrinsic id of every view, and
nothing else in the views: an id that is a key of the input intrinsics map
becomes the rank of the hash of the intrinsic it referenced, and the output map
holds under that rank an intrinsic with the same hash; an id that is not a key
is left as it is. -/
theorem GroupSharedIntrinsics_views (hashValue : Intr → Nat)
    (sfm_data : SfM_Data Intr Pose) (hwf : sfm_data.intrinsics.WF) :
    (GroupSharedIntrinsics hashValue sfm_data).views
        = sfm_data.views.map (fun view_it =>
            (view_it.1,
              match Hash_Map.find? sfm_data.intrinsics view_it.2.id_intrinsic with
              | some x =>
                { view_it.2 with
                  id_intrinsic := rankOf (hashesOf hashValue sfm_data.intrinsics) (hashValue x) }
              | none => view_it.2)) ∧
      ∀ id x, Hash_Map.find? sfm_data.intrinsics id = some x →
        ∃ x', Hash_Map.find? (GroupSharedIntrinsics hashValue sfm_data).intrinsics
            (rankOf (hashesOf hashValue sfm_data.intrinsics) (hashValue x)) = some x' ∧
          hashValue x' = hashValue x := by
  refine ⟨?_, ?_⟩
  · show List.map _ sfm_data.views = _
    apply List.map_congr_left
    intro e _
    rw [updateView_eq hashValue _ hwf e.2]
  · intro id x hx
    exact gsi_find_rank hashValue sfm_data hwf id x (Hash_Map.mem_of_find? _ _ _ hx)

/-- Witness of C4 on the sample scene: the views after the call. -/
theorem GroupSharedIntrinsics_views_witness :
    sampleScene.intrinsics.WF ∧
      (GroupSharedIntrinsics sampleHash sampleScene).views
        = sampleScene.views.map (fun view_it =>
            (view_it.1,
              match Hash_Map.find? sampleScene.intrinsics view_it.2.id_intrinsic with
              | some x =>
                { view_it.2 with
                  id_intrinsic := rankOf (hashesOf sampleHash sampleScene.intrinsics) (sampleHash x) }
              | none => view_it.2)) :=
  ⟨by decide, (GroupSharedIntrinsics_views sampleHash sampleScene (by decide)).1⟩

end GroupSharedClaims

/-! ## `Merge` -/

section MergeThms

variable {Intr Pose V : Type}

theorem foldl_max_init (l : List (Nat × V)) (f : Nat → Nat) (init : Nat) :
    l.foldl (fun offset entry => max offset (f entry.1)) init
      = max init (l.foldl (fun offset entry => max offset (f entry.1)) 0) := by
  induction l generalizing init with
  | nil => simp
  | cons e l ih =>
    simp only [List.foldl_cons]
    rw [ih (max init (f e.1)), ih (max 0 (f e.1))]
    simp only [Nat.zero_max]
    omega

theorem le_foldl_max (l : List (Nat × V)) (f : Nat → Nat) (k : Nat)
    (hk : k ∈ Hash_Map.keys l) :
    f k ≤ l.foldl (fun offset entry => max offset (f entry.1)) 0 := by
  induction l with
  | nil => simp [Hash_Map.keys] at hk
  | cons e l ih =>
    simp only [List.foldl_cons]
    rw [foldl_max_init]
    simp only [Hash_Map.keys, List.map_cons, List.mem_cons] at hk
    rcases hk with hk | hk
    · subst hk
      omega
    · have := ih hk
      omega

theorem foldl_max_attained (l : List (Nat × V)) (f : Nat → Nat) (hne : l ≠ []) :
    ∃ k ∈ Hash_Map.keys l, l.foldl (fun offset entry => max offset (f entry.1)) 0 = f k := by
  induction l with
  | nil => exact absurd rfl hne
  | cons e l ih =>
    simp only [List.foldl_cons]
    rw [foldl_max_init]
    by_cases hl : l = []
    · subst hl
      exact ⟨e.1, by simp [Hash_Map.keys], by simp⟩
    · obtain ⟨k, hk, hmax⟩ := ih hl
      by_cases hcmp : f k ≤ f e.1
      · refine ⟨e.1, by simp [Hash_Map.keys], ?_⟩
        rw [hmax]
        simp only [Nat.zero_max]
        omega
      · refine ⟨k, by simp only [Hash_Map.keys, List.map_cons, List.mem_cons]; right; exact hk, ?_⟩
        rw [hmax]
        simp only [Nat.zero_max]
        omega

/-- The offset is above every key of the base map that is below the largest
32-bit value. -/
theorem lt_mergeOffset (m : Hash_Map V) (k : Nat) (hk : k ∈ m.keys)
    (hlt : k < UndefinedIndexT) : k < mergeOffset m := by
  unfold mergeOffset
  rw [foldl_max_init m (fun k => (k + 1) % IndexT_card)]
  have := le_foldl_max m (fun k => (k + 1) % IndexT_card) k hk
  simp only at this
  rw [Nat.mod_eq_of_lt (by unfold UndefinedIndexT at hlt; unfold IndexT_card; omega)] at this
  omega

/-- C6: for a base map whose keys are below the largest 32-bit value, the offset
`Merge` computes is 0 when the map is empty and otherwise the largest key plus 1:
it is above every key, and it is the successor of one of them (whatever the size
of the map). `Merge` computes the offsets of views, poses and intrinsics this way. -/
theorem mergeOffset_eq_max_key_succ (m : Hash_Map V) (hwf : m.WF) (hk : KeysBelowMax m) :
    (m = [] → mergeOffset m = 0) ∧
      (∀ k ∈ m.keys, k + 1 ≤ mergeOffset m) ∧
      (m ≠ [] → ∃ k ∈ m.keys, mergeOffset m = k + 1) := by
  have hmod : ∀ k ∈ m.keys, (k + 1) % IndexT_card = k + 1 := by
    intro k hmem
    have := hk k hmem
    apply Nat.mod_eq_of_lt
    unfold UndefinedIndexT at this
    unfold IndexT_card
    omega
  have hle : ∀ k ∈ m.keys, k + 1 ≤ m.foldl
      (fun offset entry => max offset ((entry.1 + 1) % IndexT_card)) 0 := by
    intro k hmem
    have := le_foldl_max m (fun k => (k + 1) % IndexT_card) k hmem
    simp only at this
    rw [hmod k hmem] at this
    exact this
  have hsize : m.length ≤ m.foldl
      (fun offset entry => max offset ((entry.1 + 1) % IndexT_card)) 0 := by
    have hnd : m.keys.Nodup := hwf.1.imp (fun hab => Nat.ne_of_lt hab)
    have hsub : m.keys.toFinset ⊆ Finset.range (m.foldl
        (fun offset entry => max offset ((entry.1 + 1) % IndexT_card)) 0) := by
      intro k hmem
      have := hle k (List.mem_toFinset.1 hmem)
      exact Finset.mem_range.2 (by omega)
    have := Finset.card_le_card hsub
    rw [List.toFinset_card_of_nodup hnd, Finset.card_range] at this
    simpa [Hash_Map.keys] using this
  have hlen := hwf.length_le
  have hoff : mergeOffset m = m.foldl
      (fun offset entry => max offset ((entry.1 + 1) % IndexT_card)) 0 := by
    unfold mergeOffset Hash_Map.size
    rw [foldl_max_init m (fun k => (k + 1) % IndexT_card)]
    have : m.length % IndexT_card ≤ m.length := Nat.mod_le _ _
    omega
  refine ⟨?_, ?_, ?_⟩
  · intro hnil
    subst hnil
    rfl
  · intro k hmem
    rw [hoff]
    exact hle k hmem
  · intro hne
    obtain ⟨k, hmem, hmax⟩ := foldl_max_attained m (fun k => (k + 1) % IndexT_card) hne
    refine ⟨k, hmem, ?_⟩
    rw [hoff, hmax]
    exact hmod k hmem

/-- Witness of C6: the views of the incoming sample scene, keyed 0, 2 and 5. -/
theorem mergeOffset_eq_max_key_succ_witness :
    mergeIncoming.views.WF ∧ KeysBelowMax mergeIncoming.views ∧
      (∀ k ∈ mergeIncoming.views.keys, k + 1 ≤ mergeOffset mergeIncoming.views) ∧
      mergeOffset mergeIncoming.views = 6 :=
  ⟨by decide, by decide,
    (mergeOffset_eq_max_key_succ mergeIncoming.views (by decide) (by decide)).2.1,
    by decide⟩

end MergeThms

/-! ## `Merge`: the appended maps -/

section MergeAppendThms

variable {Intr Pose V : Type}

theorem assign_of_lt (m : Hash_Map V) (k : Nat) (v : V) (h : ∀ k' ∈ m.keys, k' < k) :
    m.assign k v = m ++ [(k, v)] := by
  induction m with
  | nil => rfl
  | cons e m ih =>
    obtain ⟨a, b⟩ := e
    have ha : a < k := h a (by simp [Hash_Map.keys])
    have h1 : ¬ k < a := by omega
    have h2 : ¬ k = a := by omega
    simp only [Hash_Map.assign, h1, h2, if_false, List.cons_append]
    rw [ih (fun k' hk' => h k' (by
      simp only [Hash_Map.keys, List.map_cons, List.mem_cons]
      right
      exact hk'))]

theorem foldl_assign_ascending (es acc : Hash_Map V) (hs : es.keys.Pairwise (· < ·))
    (h : ∀ k ∈ acc.keys, ∀ k' ∈ es.keys, k < k') :
    es.foldl (fun a e => Hash_Map.assign a e.1 e.2) acc = acc ++ es := by
  induction es generalizing acc with
  | nil => simp
  | cons e es ih =>
    simp only [Hash_Map.keys, List.map_cons, List.pairwise_cons] at hs
    simp only [List.foldl_cons]
    rw [assign_of_lt acc e.1 e.2 (fun k hk => h k hk e.1 (by simp [Hash_Map.keys]))]
    rw [ih (acc ++ [(e.1, e.2)]) hs.2]
    · simp
    · intro k hk k' hk'
      simp only [Hash_Map.keys, List.map_append, List.map_cons, List.map_nil, List.mem_append,
        List.mem_singleton] at hk
      rcases hk with hk | hk
      · exact h k hk k' (by
          simp only [Hash_Map.keys, List.map_cons, List.mem_cons]
          right
          exact hk')
      · subst hk
        exact hs.1 k' hk'

/-- Under the range conditions an append loop of `Merge` appends the shifted
entries after the base entries. -/
theorem mergeAppend_eq (base incoming : Hash_Map V) (f : Nat → V → V)
    (hb : KeysBelowMax base) (hi : incoming.WF) (hs : ShiftInRange base incoming) :
    mergeAppend base incoming (mergeOffset base) f
      = base ++ incoming.map (fun e => (e.1 + mergeOffset base, f e.1 e.2)) := by
  have hstep : ∀ (acc : Hash_Map V), ∀ e ∈ incoming,
      Hash_Map.assign acc ((e.1 + mergeOffset base) % IndexT_card) (f e.1 e.2)
        = Hash_Map.assign acc (e.1 + mergeOffset base) (f e.1 e.2) := by
    intro acc e he
    rw [Nat.mod_eq_of_lt (hs e.1 (List.mem_map.2 ⟨e, he, rfl⟩))]
  unfold mergeAppend
  rw [List.foldl_ext _ _ _ hstep]
  have hmap := List.foldl_map (fun e : Nat × V => (e.1 + mergeOffset base, f e.1 e.2))
    (fun a (e : Nat × V) => Hash_Map.assign a e.1 e.2) incoming base
  simp only at hmap
  rw [← hmap]
  apply foldl_assign_ascending
  · simp only [Hash_Map.keys, List.map_map]
    have := hi.1
    simp only [Hash_Map.keys] at this
    rw [List.pairwise_map] at this ⊢
    exact this.imp (fun hab => by simp only [Function.comp]; omega)
  · intro k hk k' hk'
    simp only [Hash_Map.keys, List.map_map, List.mem_map, Function.comp] at hk'
    obtain ⟨e, _, he⟩ := hk'
    have := lt_mergeOffset base k hk (hb k hk)
    omega

theorem ne_shifted_key (base : Hash_Map V) (hb : KeysBelowMax base)
    (k : Nat) (hk : k ∈ base.keys) (k' : Nat) : k ≠ k' + mergeOffset base := by
  have := lt_mergeOffset base k hk (hb k hk)
  omega

/-- C7, as amended: when the base keys are below the largest 32-bit value and
the shifted incoming keys do not overflow 32 bits, `Merge` leaves every entry
of the base views, poses and intrinsics in place and appends after them the
incoming entries under `key + offset`; no shifted key is a base key, and each
map's size is the sum of the two sizes. -/
theorem Merge_appends (base incoming : SfM_Data Intr Pose) (h : MergeInRange base incoming) :
    ((Merge base incoming).views
        = base.views ++ incoming.views.map (fun e =>
            (e.1 + mergeOffset base.views,
              mergedView (mergeOffset base.views) (mergeOffset base.intrinsics) e.1 e.2)) ∧
      (Merge base incoming).poses
        = base.poses ++ incoming.poses.map (fun e => (e.1 + mergeOffset base.poses, e.2)) ∧
      (Merge base incoming).intrinsics
        = base.intrinsics ++
            incoming.intrinsics.map (fun e => (e.1 + mergeOffset base.intrinsics, e.2))) ∧
    ((∀ k ∈ base.views.keys, ∀ k', k ≠ k' + mergeOffset base.views) ∧
      (∀ k ∈ base.poses.keys, ∀ k', k ≠ k' + mergeOffset base.poses) ∧
      (∀ k ∈ base.intrinsics.keys, ∀ k', k ≠ k' + mergeOffset base.intrinsics)) ∧
    ((Merge base incoming).views.size = base.views.size + incoming.views.size ∧
      (Merge base incoming).poses.size = base.poses.size + incoming.poses.size ∧
      (Merge base incoming).intrinsics.size
        = base.intrinsics.size + incoming.intrinsics.size) := by
  obtain ⟨⟨hv1, hv2, hv3⟩, ⟨hp1, hp2, hp3⟩, ⟨hi1, hi2, hi3⟩⟩ := h
  have hV := mergeAppend_eq base.views incoming.views
    (mergedView (mergeOffset base.views) (mergeOffset base.intrinsics)) hv1 hv2 hv3
  have hP := mergeAppend_eq base.poses incoming.poses (fun _ p => p) hp1 hp2 hp3
  have hI := mergeAppend_eq base.intrinsics incoming.intrinsics (fun _ i => i) hi1 hi2 hi3
  refine ⟨⟨hV, hP, hI⟩, ⟨?_, ?_, ?_⟩, ⟨?_, ?_, ?_⟩⟩
  · exact fun k hk k' => ne_shifted_key base.views hv1 k hk k'
  · exact fun k hk k' => ne_shifted_key base.poses hp1 k hk k'
  · exact fun k hk k' => ne_shifted_key base.intrinsics hi1 k hk k'
  · show Hash_Map.size (mergeAppend base.views incoming.views (mergeOffset base.views)
      (mergedView (mergeOffset base.views) (mergeOffset base.intrinsics))) = _
    rw [hV]
    simp [Hash_Map.size]
  · show Hash_Map.size (mergeAppend base.poses incoming.poses (mergeOffset base.poses)
      (fun _ p => p)) = _
    rw [hP]
    simp [Hash_Map.size]
  · show Hash_Map.size (mergeAppend base.intrinsics incoming.intrinsics
      (mergeOffset base.intrinsics) (fun _ i => i)) = _
    rw [hI]
    simp [Hash_Map.size]

/-- Witness of the amended C7: base views keyed 0, 1 and incoming views keyed
0, 2, 5. -/
theorem Merge_appends_witness :
    MergeInRange mergeBase mergeIncoming ∧
      (Merge mergeBase mergeIncoming).views.size
        = mergeBase.views.size + mergeIncoming.views.size :=
  ⟨by decide, (Merge_appends mergeBase mergeIncoming (by decide)).2.2.1⟩

/-- The example of C7: base views keyed 0, 1 and incoming views keyed 0, 2, 5
give views keyed 0, 1, 2, 4, 7. -/
theorem Merge_sample_keys :
    (Merge mergeBase mergeIncoming).views.keys = [0, 1, 2, 4, 7] := by decide

/-- C7 as stated fails: with a base view keyed by the largest 32-bit value the
offset is 1, the shifted incoming keys do not overflow, and the incoming view
keyed one below replaces the base view: one view is left, not two. -/
theorem Merge_overwrites_max_key :
    (ShiftInRange sentinelKeyBase.views sentinelKeyIncoming.views ∧
      ShiftInRange sentinelKeyBase.poses sentinelKeyIncoming.poses ∧
      ShiftInRange sentinelKeyBase.intrinsics sentinelKeyIncoming.intrinsics) ∧
    mergeOffset sentinelKeyBase.views = 1 ∧
    Hash_Map.find? sentinelKeyBase.views 4294967295
      = some ⟨"base/x.jpg", 4294967295, 0, 0, 640, 480⟩ ∧
    Hash_Map.find? (Merge sentinelKeyBase sentinelKeyIncoming).views 4294967295
      = some ⟨"in/y.jpg", 4294967295, 1, 1, 640, 480⟩ ∧
    (Merge sentinelKeyBase sentinelKeyIncoming).views.size = 1 ∧
    sentinelKeyBase.views.size + sentinelKeyIncoming.views.size = 2 := by
  decide

/-- C5 fails on the code: in the sample merge the view offset is 2 and the pose
offset is 1; the copy of the incoming view 0 (pose id 0) is stored with pose id
2, the incoming pose 0 is stored under key 1, and no pose is stored under 2. -/
theorem Merge_pose_id_shifted_by_view_offset :
    mergeOffset mergeBase.views = 2 ∧ mergeOffset mergeBase.poses = 1 ∧
    mergeOffset mergeBase.intrinsics = 1 ∧
    Hash_Map.find? (Merge mergeBase mergeIncoming).views 2
      = some ⟨"in/0.jpg", 2, 1, 2, 640, 480⟩ ∧
    Hash_Map.find? (Merge mergeBase mergeIncoming).poses 1 = some 200 ∧
    Hash_Map.find? (Merge mergeBase mergeIncoming).poses 2 = none := by
  decide

end MergeAppendThms

/-! ## The integration critical section -/

section IntegrateThms

variable {Intr Pose Proj : Type}

theorem mapM_isSome {α β : Type} (f : α → Option β) (l : List α)
    (h : (l.mapM f).isSome) : ∀ x ∈ l, (f x).isSome := by
  induction l with
  | nil => simp
  | cons a l ih =>
    rw [List.mapM_cons] at h
    cases hfa : f a with
    | none =>
      rw [hfa] at h
      cases h
    | some b =>
      cases hl : l.mapM f with
      | none =>
        rw [hfa, hl] at h
        cases h
      | some bs =>
        intro x hx
        rcases List.mem_cons.1 hx with hx | hx
        · subst hx
          rw [hfa]
          rfl
        · exact ih (by rw [hl]; rfl) x hx

/-- When the listing of the base images does not throw, the view keys are
`0, ..., size - 1`. -/
theorem keys_eq_range_of_listing (filename : String → String) (views : Hash_Map View)
    (hwf : views.WF) (h : (listOriginalImages filename views).isSome) :
    views.keys = List.range views.size := by
  have hall := mapM_isSome _ _ h
  have hnd : views.keys.Nodup := hwf.1.imp (fun hab => Nat.ne_of_lt hab)
  have hsub : Finset.range views.size ⊆ views.keys.toFinset := by
    intro n hn
    have := hall n (List.mem_range.2 (Finset.mem_range.1 hn))
    rw [Option.isSome_map'] at this
    obtain ⟨v, hv⟩ := Option.isSome_iff_exists.1 this
    exact List.mem_toFinset.2 ((Hash_Map.mem_keys_iff views n).2 ⟨v, hv⟩)
  have hcard : views.keys.toFinset.card ≤ (Finset.range views.size).card := by
    rw [List.toFinset_card_of_nodup hnd, Finset.card_range]
    simp [Hash_Map.keys, Hash_Map.size]
  have heq := Finset.eq_of_subset_of_card_le hsub hcard
  apply List.eq_of_perm_of_sorted _ hwf.1 (List.pairwise_lt_range _)
  rw [List.perm_ext_iff_of_nodup hnd (List.nodup_range _)]
  intro k
  rw [← List.mem_toFinset, ← heq, Finset.mem_range, List.mem_range]

/-- One critical section on a scene whose view keys are `0, ..., n - 1`: the new
view is appended under the key `n`. -/
theorem integrate_contiguous (single : Bool) (st : LocState Intr Pose)
    (c : Candidate Intr Pose)
    (hkeys : st.sfm_data.views.keys = List.range st.sfm_data.views.size)
    (hsize : st.sfm_data.views.size < IndexT_card)
    (hdef : single = true → st.sfm_data.views = [] → c.localized = none) :
    ∃ st1 v, integrate single st c = some st1 ∧
      st1.sfm_data.views = st.sfm_data.views ++ [(st.sfm_data.views.size, v)] ∧
      v.id_view = st.sfm_data.views.size ∧ v.s_Img_path = c.name ∧
      st1.total_num_images = st.total_num_images + 1 ∧
      (c.bSuccessfulLocalization = false →
        v.id_pose = UndefinedIndexT ∧ v.id_intrinsic = UndefinedIndexT) := by
  have hmod : st.sfm_data.views.size % IndexT_card = st.sfm_data.views.size :=
    Nat.mod_eq_of_lt hsize
  have happ : ∀ v : View, Hash_Map.assign st.sfm_data.views st.sfm_data.views.size v
      = st.sfm_data.views ++ [(st.sfm_data.views.size, v)] := by
    intro v
    apply assign_of_lt
    intro k hk
    rw [hkeys] at hk
    exact List.mem_range.1 hk
  unfold integrate
  simp only [hmod]
  unfold Candidate.bSuccessfulLocalization
  cases hloc : c.localized with
  | none =>
    exact ⟨_, _, rfl, happ _, rfl, rfl, rfl, fun _ => ⟨rfl, rfl⟩⟩
  | some ip =>
    have hflag : (some ip).isSome = false → False := by simp
    cases hsingle : single with
    | false =>
      exact ⟨_, _, rfl, happ _, rfl, rfl, rfl, fun h => (hflag h).elim⟩
    | true =>
      cases hviews : st.sfm_data.views with
      | nil =>
        have := hdef hsingle hviews
        rw [hloc] at this
        cases this
      | cons first rest =>
        simp only [List.head?_cons, Bool.not_true, Bool.false_eq_true, if_false]
        rw [hviews] at happ
        exact ⟨_, _, rfl, happ _, rfl, rfl, rfl, fun h => (hflag h).elim⟩

end IntegrateThms

/-! ## View ids across a batch -/

section BatchThms

variable {Intr Pose Proj : Type}

theorem integrateAll_contiguous (single : Bool) (cs : List (Candidate Intr Pose))
    (st : LocState Intr Pose)
    (hkeys : st.sfm_data.views.keys = List.range st.sfm_data.views.size)
    (hsize : st.sfm_data.views.size + cs.length ≤ IndexT_card)
    (hdef : single = true → st.sfm_data.views = [] →
      ∀ c, cs.head? = some c → c.localized = none) :
    ∃ st1 news, integrateAll single st cs = some st1 ∧
      st1.sfm_data.views = st.sfm_data.views ++ news ∧
      Hash_Map.keys news = List.range' st.sfm_data.views.size cs.length ∧
      news.map (fun e => e.2.id_view) = List.range' st.sfm_data.views.size cs.length ∧
      news.map (fun e => e.2.s_Img_path) = cs.map (fun c => c.name) ∧
      st1.total_num_images = st.total_num_images + cs.length := by
  induction cs generalizing st with
  | nil => exact ⟨st, [], rfl, by simp, rfl, rfl, rfl, rfl⟩
  | cons c cs ih =>
    simp only [List.length_cons] at hsize
    obtain ⟨st1, v, hint, hviews, hid, hname, htot, _⟩ :=
      integrate_contiguous single st c hkeys (by omega) (fun h1 h2 => hdef h1 h2 c rfl)
    have hsz1 : st1.sfm_data.views.size = st.sfm_data.views.size + 1 := by
      simp [Hash_Map.size, hviews]
    have hkeys1 : st1.sfm_data.views.keys = List.range st1.sfm_data.views.size := by
      rw [hsz1, List.range_succ, ← hkeys, hviews]
      simp [Hash_Map.keys]
    have hne1 : st1.sfm_data.views ≠ [] := by
      rw [hviews]
      simp
    obtain ⟨st2, news, hall, hviews2, hk2, hid2, hname2, htot2⟩ :=
      ih st1 hkeys1 (by omega) (fun _ h2 => absurd h2 hne1)
    refine ⟨st2, (st.sfm_data.views.size, v) :: news, ?_, ?_, ?_, ?_, ?_, ?_⟩
    · simp only [integrateAll, hint]
      exact hall
    · rw [hviews2, hviews]
      simp
    · simp only [Hash_Map.keys, List.map_cons, List.length_cons, List.range'_succ]
      rw [hsz1] at hk2
      simp only [Hash_Map.keys] at hk2
      rw [hk2]
    · simp only [List.map_cons, List.length_cons, List.range'_succ, hid]
      rw [hsz1] at hid2
      rw [hid2]
    · simp only [List.map_cons, hname, hname2]
    · rw [htot2, htot]
      simp only [List.length_cons]
      omega

/-- C8: on a base scene with `V` views that passed the listing of the base
images (so that the loop is reached), the critical sections of `N` query images,
whichever of them are localized, append `N` views after the `V` views of the
base: the new views are keyed and identified `V, V+1, ..., V+N-1` in the order
of integration, no view of the base is overwritten, the keys become
`0, ..., V+N-1`, and the view count and the processed-image counter grow by `N`. -/
theorem integrateAll_view_ids (filename : String → String) (single : Bool)
    (st : LocState Intr Pose) (cs : List (Candidate Intr Pose))
    (hwf : st.sfm_data.views.WF)
    (hlist : (listOriginalImages filename st.sfm_data.views).isSome)
    (hsize : st.sfm_data.views.size + cs.length ≤ IndexT_card)
    (hdef : single = true → st.sfm_data.views = [] →
      ∀ c, cs.head? = some c → c.localized = none) :
    ∃ st1 news, integrateAll single st cs = some st1 ∧
      st1.sfm_data.views = st.sfm_data.views ++ news ∧
      Hash_Map.keys news = List.range' st.sfm_data.views.size cs.length ∧
      news.map (fun e => e.2.id_view) = List.range' st.sfm_data.views.size cs.length ∧
      news.map (fun e => e.2.s_Img_path) = cs.map (fun c => c.name) ∧
      st1.sfm_data.views.keys = List.range (st.sfm_data.views.size + cs.length) ∧
      st1.sfm_data.views.size = st.sfm_data.views.size + cs.length ∧
      st1.total_num_images = st.total_num_images + cs.length := by
  have hkeys := keys_eq_range_of_listing filename st.sfm_data.views hwf hlist
  obtain ⟨st1, news, hall, hviews, hk, hid, hname, htot⟩ :=
    integrateAll_contiguous single cs st hkeys hsize hdef
  refine ⟨st1, news, hall, hviews, hk, hid, hname, ?_, ?_, htot⟩
  · have : Hash_Map.keys st1.sfm_data.views
        = Hash_Map.keys st.sfm_data.views ++ Hash_Map.keys news := by
      rw [hviews]
      simp [Hash_Map.keys]
    rw [this, hk, hkeys, List.range_eq_range', List.range_eq_range']
    have happ := List.range'_append_1 0 st.sfm_data.views.size cs.length
    simp only [Nat.zero_add] at happ
    rw [happ, Nat.add_comm]
  · have hlen : news.length = cs.length := by
      have := congrArg List.length hk
      simpa [Hash_Map.keys] using this
    simp [Hash_Map.size, hviews, hlen]

/-- Witness of C8: three candidates, the second one not localized, on the
two-view sample scene. -/
theorem integrateAll_view_ids_witness :
    sampleState.sfm_data.views.WF ∧
      (listOriginalImages id sampleState.sfm_data.views).isSome ∧
      sampleState.sfm_data.views.size + sampleCandidates.length ≤ IndexT_card ∧
      ∃ st1 news, integrateAll false sampleState sampleCandidates = some st1 ∧
        st1.sfm_data.views = sampleState.sfm_data.views ++ news ∧
        Hash_Map.keys news = List.range' sampleState.sfm_data.views.size sampleCandidates.length ∧
        news.map (fun e => e.2.id_view)
          = List.range' sampleState.sfm_data.views.size sampleCandidates.length ∧
        news.map (fun e => e.2.s_Img_path) = sampleCandidates.map (fun c => c.name) ∧
        st1.sfm_data.views.keys
          = List.range (sampleState.sfm_data.views.size + sampleCandidates.length) ∧
        st1.sfm_data.views.size = sampleState.sfm_data.views.size + sampleCandidates.length ∧
        st1.total_num_images = sampleState.total_num_images + sampleCandidates.length :=
  ⟨by decide, by decide, by decide,
    integrateAll_view_ids id false sampleState sampleCandidates (by decide) (by decide)
      (by decide) (by decide)⟩

end BatchThms

/-! ## One image of the batch -/

section ImageThms

variable {Intr Pose Proj : Type}

theorem attempt_of_rejected (ext : Externals Intr Pose Proj) (opts : Options Intr)
    (used : StdSet) (name : String)
    (h : Rejected ext opts name) : attempt ext opts used name = Reached.skipped := by
  unfold attempt
  by_cases hfmt : ext.formatKnown name = false
  · simp [hfmt]
  · simp only [Bool.not_eq_false] at hfmt
    simp only [hfmt, Bool.not_true, Bool.false_eq_true, if_false]
    cases hread : ext.ReadImage name with
    | none => rfl
    | some wh =>
      obtain ⟨width, height⟩ := wh
      rcases h with h | h | ⟨hsingle, h⟩
      · rw [hfmt] at h
        cases h
      · rw [hread] at h
        cases h
      · simp only [hsingle, if_true]
        by_cases hsz : opts.intrinsics_data.size = 1
        · simp only [hsz, ne_eq, not_true_eq_false, if_false]
          rcases h with h | ⟨intr, w', h', hfind, hr, hmis⟩
          · exact absurd hsz h
          · rw [hread] at hr
            cases hr
            simp only [hfind]
            rw [if_pos hmis]
        · simp [hsz]

theorem attempt_of_not_rejected (ext : Externals Intr Pose Proj) (opts : Options Intr)
    (used : StdSet) (name : String)
    (hkey0 : opts.bUseSingleIntrinsics = true → opts.intrinsics_data.size = 1 →
      (Hash_Map.find? opts.intrinsics_data 0).isSome)
    (h : ¬ Rejected ext opts name) :
    ∃ used1 c, attempt ext opts used name = Reached.candidate used1 c ∧ c.name = name := by
  unfold Rejected at h
  simp only [not_or] at h
  obtain ⟨hfmt, hread, hsingle⟩ := h
  simp only [Bool.not_eq_false] at hfmt
  unfold attempt
  simp only [hfmt, Bool.not_true, Bool.false_eq_true, if_false]
  cases hr : ext.ReadImage name with
  | none => exact absurd hr hread
  | some wh =>
    obtain ⟨width, height⟩ := wh
    cases hs : opts.bUseSingleIntrinsics with
    | false => exact ⟨_, _, rfl, rfl⟩
    | true =>
      simp only [if_true]
      have hsz : opts.intrinsics_data.size = 1 := by
        by_contra hc
        exact hsingle ⟨hs, Or.inl hc⟩
      simp only [hsz, ne_eq, not_true_eq_false, if_false]
      obtain ⟨intr, hintr⟩ := Option.isSome_iff_exists.1 (hkey0 hs hsz)
      simp only [hintr]
      have hmis : ¬ (width ≠ ext.w intr ∨ ext.h intr ≠ height) := by
        intro hc
        exact hsingle ⟨hs, Or.inr ⟨intr, width, height, hintr, hr, hc⟩⟩
      rw [if_neg hmis]
      exact ⟨_, _, rfl, rfl⟩

/-- C9, as amended: an image that the loop body rejects before the critical
section (unsupported format, unreadable, or rejected in single-intrinsic mode)
is skipped: the state is unchanged, no view is added and the counter is not
incremented; every other image reaches the critical section, is recorded as one
new view carrying its name, with undefined pose id and intrinsic id when it was
not localized, and is counted once. -/
theorem processImage_skipped_or_recorded (ext : Externals Intr Pose Proj)
    (opts : Options Intr) (st : LocState Intr Pose) (name : String)
    (hkeys : st.sfm_data.views.keys = List.range st.sfm_data.views.size)
    (hsize : st.sfm_data.views.size < IndexT_card)
    (hkey0 : opts.bUseSingleIntrinsics = true → opts.intrinsics_data.size = 1 →
      (Hash_Map.find? opts.intrinsics_data 0).isSome)
    (hviews : opts.bUseSingleIntrinsics = true → st.sfm_data.views ≠ []) :
    (Rejected ext opts name → processImage ext opts st name = some st) ∧
      (¬ Rejected ext opts name →
        ∃ used1 c st1 v, attempt ext opts st.used_landmarks name = Reached.candidate used1 c ∧
          processImage ext opts st name = some st1 ∧
          st1.sfm_data.views = st.sfm_data.views ++ [(st.sfm_data.views.size, v)] ∧
          v.s_Img_path = name ∧
          (c.bSuccessfulLocalization = false →
            v.id_pose = UndefinedIndexT ∧ v.id_intrinsic = UndefinedIndexT) ∧
          st1.sfm_data.views.size = st.sfm_data.views.size + 1 ∧
          st1.total_num_images = st.total_num_images + 1) := by
  constructor
  · intro h
    unfold processImage
    rw [attempt_of_rejected ext opts st.used_landmarks name h]
  · intro h
    obtain ⟨used1, c, hatt, hname⟩ :=
      attempt_of_not_rejected ext opts st.used_landmarks name hkey0 h
    unfold processImage
    rw [hatt]
    obtain ⟨st1, v, hint, hv, _, hpath, htot, hundef⟩ :=
      integrate_contiguous opts.bUseSingleIntrinsics { st with used_landmarks := used1 } c
        hkeys hsize (fun hs hnil => absurd hnil (hviews hs))
    refine ⟨used1, c, st1, v, rfl, hint, hv, by rw [hpath, hname], hundef, ?_, htot⟩
    simp only at hv
    simp [Hash_Map.size, hv]

/-- Witness of the amended C9: an image that cannot be localized is still
recorded and counted. -/
theorem processImage_skipped_or_recorded_witness :
    sampleState.sfm_data.views.keys = List.range sampleState.sfm_data.views.size ∧
      ¬ Rejected sampleExternals sampleOptions "far.jpg" ∧
      ∃ used1 c st1 v,
        attempt sampleExternals sampleOptions sampleState.used_landmarks "far.jpg"
          = Reached.candidate used1 c ∧
        processImage sampleExternals sampleOptions sampleState "far.jpg" = some st1 ∧
        st1.sfm_data.views = sampleState.sfm_data.views ++ [(sampleState.sfm_data.views.size, v)] ∧
        v.s_Img_path = "far.jpg" ∧
        (c.bSuccessfulLocalization = false →
          v.id_pose = UndefinedIndexT ∧ v.id_intrinsic = UndefinedIndexT) ∧
        st1.sfm_data.views.size = sampleState.sfm_data.views.size + 1 ∧
        st1.total_num_images = sampleState.total_num_images + 1 :=
  have hrej : ¬ Rejected sampleExternals sampleOptions "far.jpg" := by
    unfold Rejected
    simp [sampleExternals, sampleOptions]
  ⟨by decide, hrej,
    (processImage_skipped_or_recorded sampleExternals sampleOptions sampleState "far.jpg"
      (by decide) (by decide) (by decide) (by decide)).2 hrej⟩

/-- C9 as stated fails: an image of unsupported format, an unreadable image and
an image rejected in single-intrinsic mode leave the two views and the counter
of the sample state as they were, whereas an image that merely fails to
localize adds a view and is counted. -/
theorem rejected_images_not_recorded :
    sampleExternals.formatKnown "notes.txt" = false ∧
    (processImage sampleExternals sampleOptions sampleState "notes.txt").map
        (fun s => (s.sfm_data.views.size, s.total_num_images)) = some (2, 0) ∧
    sampleExternals.ReadImage "broken.jpg" = none ∧
    (processImage sampleExternals sampleOptions sampleState "broken.jpg").map
        (fun s => (s.sfm_data.views.size, s.total_num_images)) = some (2, 0) ∧
    (processImage sampleExternals singleOptions sampleState "q0.jpg").map
        (fun s => (s.sfm_data.views.size, s.total_num_images)) = some (2, 0) ∧
    (processImage sampleExternals sampleOptions sampleState "far.jpg").map
        (fun s => (s.sfm_data.views.size, s.total_num_images)) = some (3, 1) := by
  decide

/-- C10: the flag `bSuccessfulLocalization` of an image holds exactly when
`Localize` succeeded, an intrinsic is available (given, or created from the
projection matrix) and `RefinePose` succeeded; and for every candidate whose
flag does not hold the critical section stores a view whose pose id and
intrinsic id are `UndefinedIndexT` and leaves the poses and the intrinsics of
the scene as they were. -/
theorem failed_localization_integrated_undefined (ext : Externals Intr Pose Proj)
    (opts : Options Intr) (used : StdSet) (name : String) (width height : Nat)
    (optional_intrinsic : Option Intr) (single : Bool) (st : LocState Intr Pose) :
    ((Candidate.mk name width height
          (localizeAndRefine ext opts used name width height optional_intrinsic).2
        ).bSuccessfulLocalization = true ↔
      ∃ pose data intr refined,
        ext.Localize (solverFor opts.resection_method optional_intrinsic) (width, height)
          optional_intrinsic name = some (pose, data) ∧
        (if optional_intrinsic.isNone then
            createIntrinsic ext opts.i_User_camera_model width height data
          else optional_intrinsic) = some intr ∧
        ext.RefinePose intr pose data optional_intrinsic.isNone = some refined) ∧
    ∀ c : Candidate Intr Pose, c.bSuccessfulLocalization = false →
      ∃ st1, integrate single st c = some st1 ∧
        st1.sfm_data.views = Hash_Map.assign st.sfm_data.views
          (st.sfm_data.views.size % IndexT_card)
          ⟨c.name, st.sfm_data.views.size % IndexT_card, UndefinedIndexT, UndefinedIndexT,
            c.width % IndexT_card, c.height % IndexT_card⟩ ∧
        Hash_Map.find? st1.sfm_data.views (st.sfm_data.views.size % IndexT_card)
          = some ⟨c.name, st.sfm_data.views.size % IndexT_card, UndefinedIndexT,
              UndefinedIndexT, c.width % IndexT_card, c.height % IndexT_card⟩ ∧
        st1.sfm_data.poses = st.sfm_data.poses ∧
        st1.sfm_data.intrinsics = st.sfm_data.intrinsics ∧
        st1.total_num_images = st.total_num_images + 1 := by
  constructor
  · unfold Candidate.bSuccessfulLocalization localizeAndRefine
    simp only
    cases hloc : ext.Localize (solverFor opts.resection_method optional_intrinsic)
        (width, height) optional_intrinsic name with
    | none => simp
    | some pd =>
      obtain ⟨pose, data⟩ := pd
      simp only [Option.some.injEq, Prod.mk.injEq]
      cases hintr : (if optional_intrinsic.isNone = true then
          createIntrinsic ext opts.i_User_camera_model width height data
        else optional_intrinsic) with
      | none => simp [hintr]
      | some intr =>
        simp only [hintr, Option.some.injEq]
        constructor
        · intro h
          obtain ⟨refined, href⟩ := Option.isSome_iff_exists.1 h
          exact ⟨pose, data, intr, refined, ⟨rfl, rfl⟩, hintr, href⟩
        · rintro ⟨pose', data', intr', refined, ⟨hp, hd⟩, hi, href⟩
          subst hp hd
          rw [hintr] at hi
          cases hi
          rw [href]
          rfl
  · intro c hc
    unfold Candidate.bSuccessfulLocalization at hc
    have hnone : c.localized = none := by
      cases hl : c.localized with
      | none => rfl
      | some x => simp [hl] at hc
    unfold integrate
    simp only [hnone]
    exact ⟨_, rfl, rfl, by simp [Hash_Map.find?_assign], rfl, rfl, rfl⟩

/-- Witness of C10: `blur.jpg`, whose refinement fails, is not successful and
is integrated in the sample state as view 2 with undefined pose and intrinsic
ids. -/
theorem failed_localization_integrated_undefined_witness :
    (Candidate.mk "blur.jpg" 640 480
        (localizeAndRefine sampleExternals sampleOptions [] "blur.jpg" 640 480 none).2
      ).bSuccessfulLocalization = false ∧
    ∃ st1, integrate false sampleState
        (Candidate.mk "blur.jpg" 640 480
          (localizeAndRefine sampleExternals sampleOptions [] "blur.jpg" 640 480 none).2)
          = some st1 ∧
      Hash_Map.find? st1.sfm_data.views 2
        = some ⟨"blur.jpg", 2, UndefinedIndexT, UndefinedIndexT, 640, 480⟩ ∧
      st1.sfm_data.poses = sampleState.sfm_data.poses ∧
      st1.sfm_data.intrinsics = sampleState.sfm_data.intrinsics :=
  have h := (failed_localization_integrated_undefined sampleExternals sampleOptions []
    "blur.jpg" 640 480 none false sampleState).2
      (Candidate.mk "blur.jpg" 640 480
        (localizeAndRefine sampleExternals sampleOptions [] "blur.jpg" 640 480 none).2)
  ⟨by decide, by
    obtain ⟨st1, h1, _, h3, h4, h5, _⟩ := h (by decide)
    exact ⟨st1, h1, h3, h4, h5⟩⟩

end ImageThms

/-! ## Validity of the references of the views -/

section RefsThms

variable {Intr Pose Proj : Type}

theorem mem_assign {V : Type} (m : Hash_Map V) (k : Nat) (v : V) (e : Nat × V)
    (h : e ∈ Hash_Map.assign m k v) : e = (k, v) ∨ e ∈ m := by
  induction m with
  | nil =>
    simp only [Hash_Map.assign, List.mem_singleton] at h
    exact Or.inl h
  | cons a m ih =>
    obtain ⟨ka, va⟩ := a
    by_cases h1 : k < ka
    · simp only [Hash_Map.assign, h1, if_true, List.mem_cons] at h
      rcases h with h | h | h
      · exact Or.inl h
      · exact Or.inr (by rw [h]; exact List.mem_cons_self _ _)
      · exact Or.inr (List.mem_cons_of_mem _ h)
    · by_cases h2 : k = ka
      · subst h2
        simp only [Hash_Map.assign, Nat.lt_irrefl, if_false, if_true, List.mem_cons] at h
        rcases h with h | h
        · exact Or.inl h
        · exact Or.inr (List.mem_cons_of_mem _ h)
      · simp only [Hash_Map.assign, h1, h2, if_false, List.mem_cons] at h
        rcases h with h | h
        · exact Or.inr (by rw [h]; exact List.mem_cons_self _ _)
        · rcases ih h with h' | h'
          · exact Or.inl h'
          · exact Or.inr (List.mem_cons_of_mem _ h')

theorem refsValid_integrate (single : Bool) (st : LocState Intr Pose)
    (c : Candidate Intr Pose) (hvalid : RefsValid st.sfm_data)
    (hdef : single = true → st.sfm_data.views = [] → c.localized = none) :
    ∃ st1, integrate single st c = some st1 ∧ RefsValid st1.sfm_data := by
  unfold integrate
  dsimp only
  cases hloc : c.localized with
  | none =>
    refine ⟨_, rfl, ?_⟩
    intro e he
    rcases mem_assign _ _ _ _ he with h | h
    · subst h
      exact ⟨Or.inl rfl, Or.inl rfl⟩
    · exact hvalid e h
  | some ip =>
    obtain ⟨intr, pose⟩ := ip
    cases hsingle : single with
    | false =>
      refine ⟨_, rfl, ?_⟩
      intro e he
      rcases mem_assign _ _ _ _ he with h | h
      · subst h
        exact ⟨Or.inr ((Hash_Map.mem_keys_assign _ _ _ _).2 (Or.inl rfl)),
          Or.inr ((Hash_Map.mem_keys_assign _ _ _ _).2 (Or.inl rfl))⟩
      · obtain ⟨h1, h2⟩ := hvalid e h
        exact ⟨h1.imp id (fun hk => (Hash_Map.mem_keys_assign _ _ _ _).2 (Or.inr hk)),
          h2.imp id (fun hk => (Hash_Map.mem_keys_assign _ _ _ _).2 (Or.inr hk))⟩
    | true =>
      cases hviews : st.sfm_data.views with
      | nil =>
        have := hdef hsingle hviews
        rw [hloc] at this
        cases this
      | cons first rest =>
        have hfirst : first ∈ st.sfm_data.views := by
          rw [hviews]
          exact List.mem_cons_self _ _
        simp only [List.head?_cons, Bool.not_true, Bool.false_eq_true, if_false]
        refine ⟨_, rfl, ?_⟩
        intro e he
        rcases mem_assign _ _ _ _ he with h | h
        · subst h
          exact ⟨(hvalid first hfirst).1,
            Or.inr ((Hash_Map.mem_keys_assign _ _ _ _).2 (Or.inl rfl))⟩
        · obtain ⟨h1, h2⟩ := hvalid e (by rw [hviews]; exact h)
          exact ⟨h1, h2.imp id (fun hk => (Hash_Map.mem_keys_assign _ _ _ _).2 (Or.inr hk))⟩

theorem refsValid_GroupSharedIntrinsics (hashValue : Intr → Nat)
    (sfm_data : SfM_Data Intr Pose) (hwf : sfm_data.intrinsics.WF)
    (hvalid : RefsValid sfm_data) :
    RefsValid (GroupSharedIntrinsics hashValue sfm_data) := by
  intro e he
  have he' : e ∈ sfm_data.views.map (fun view_it => (view_it.1,
      updateView (buildReindex (buildHashes hashValue sfm_data.intrinsics).1
        (buildHashes hashValue sfm_data.intrinsics).2 sfm_data.intrinsics).1 view_it.2)) := he
  obtain ⟨e0, he0, heq⟩ := List.mem_map.1 he'
  obtain ⟨h1, h2⟩ := hvalid e0 he0
  subst heq
  rw [updateView_eq hashValue _ hwf e0.2]
  cases hfind : Hash_Map.find? sfm_data.intrinsics e0.2.id_intrinsic with
  | none =>
    refine ⟨?_, h2⟩
    rcases h1 with h1 | h1
    · exact Or.inl h1
    · exact absurd h1 ((Hash_Map.find?_eq_none _ _).1 hfind)
  | some x =>
    refine ⟨Or.inr ?_, h2⟩
    obtain ⟨v, hv, _⟩ := gsi_find_rank hashValue sfm_data hwf _ x
      (Hash_Map.mem_of_find? _ _ _ hfind)
    exact (Hash_Map.mem_keys_iff _ _).2 ⟨v, hv⟩

/-- C11: if every view's intrinsic id is the undefined sentinel or a key of the
intrinsics map, and every view's pose id is the undefined sentinel or a key of
the poses map, then the same holds after the critical section of any candidate
(localized or not, in single-intrinsic mode or not) and after
`GroupSharedIntrinsics`. -/
theorem references_stay_valid (hashValue : Intr → Nat) (single : Bool)
    (st : LocState Intr Pose) (c : Candidate Intr Pose)
    (hvalid : RefsValid st.sfm_data) (hwf : st.sfm_data.intrinsics.WF)
    (hdef : single = true → st.sfm_data.views = [] → c.localized = none) :
    (∃ st1, integrate single st c = some st1 ∧ RefsValid st1.sfm_data) ∧
      RefsValid (GroupSharedIntrinsics hashValue st.sfm_data) :=
  ⟨refsValid_integrate single st c hvalid hdef,
    refsValid_GroupSharedIntrinsics hashValue st.sfm_data hwf hvalid⟩

/-- Witness of C11: a localized candidate in single-intrinsic mode on the sample
state. -/
theorem references_stay_valid_witness :
    RefsValid sampleState.sfm_data ∧ sampleState.sfm_data.intrinsics.WF ∧
      (∃ st1, integrate true sampleState ⟨"q0.jpg", 640, 480, some (3, 501)⟩ = some st1 ∧
        RefsValid st1.sfm_data) ∧
      RefsValid (GroupSharedIntrinsics sampleHash sampleState.sfm_data) :=
  ⟨by decide, by decide,
    references_stay_valid sampleHash true sampleState ⟨"q0.jpg", 640, 480, some (3, 501)⟩
      (by decide) (by decide) (by decide)⟩

end RefsThms

/-! ## Ids of the pose and of the intrinsic of a localized view -/

section FreshIdThms

variable {Intr Pose Proj : Type}

theorem find?_assign_of_some {V : Type} (m : Hash_Map V) (n : Nat) (x : V)
    (hn : n ∉ m.keys) (k : Nat) (v : V) (h : Hash_Map.find? m k = some v) :
    Hash_Map.find? (Hash_Map.assign m n x) k = some v := by
  rw [Hash_Map.find?_assign]
  have hk : k ∈ m.keys := (Hash_Map.mem_keys_iff m k).2 ⟨v, h⟩
  have hne : ¬ n = k := fun hc => hn (hc ▸ hk)
  rw [if_neg hne, h]

/-- C12, as amended: outside single-intrinsic mode a localized view, its pose
and its intrinsic are registered under the current view count `V`; when `V` is
not already a key of the poses map and of the intrinsics map, every entry the
views, the poses and the intrinsics had before the step is still there
unchanged, so every pre-existing view still references the same pose and
intrinsic. -/
theorem integrate_registers_under_view_count (st : LocState Intr Pose)
    (c : Candidate Intr Pose) (intr : Intr) (pose : Pose)
    (hloc : c.localized = some (intr, pose))
    (hkeys : st.sfm_data.views.keys = List.range st.sfm_data.views.size)
    (hsize : st.sfm_data.views.size < IndexT_card)
    (hp : st.sfm_data.views.size ∉ st.sfm_data.poses.keys)
    (hi : st.sfm_data.views.size ∉ st.sfm_data.intrinsics.keys) :
    ∃ st1, integrate false st c = some st1 ∧
      Hash_Map.find? st1.sfm_data.views st.sfm_data.views.size
        = some ⟨c.name, st.sfm_data.views.size, st.sfm_data.views.size,
            st.sfm_data.views.size, c.width % IndexT_card, c.height % IndexT_card⟩ ∧
      Hash_Map.find? st1.sfm_data.poses st.sfm_data.views.size = some pose ∧
      Hash_Map.find? st1.sfm_data.intrinsics st.sfm_data.views.size = some intr ∧
      (∀ k v, Hash_Map.find? st.sfm_data.views k = some v →
        Hash_Map.find? st1.sfm_data.views k = some v) ∧
      (∀ k x, Hash_Map.find? st.sfm_data.poses k = some x →
        Hash_Map.find? st1.sfm_data.poses k = some x) ∧
      (∀ k x, Hash_Map.find? st.sfm_data.intrinsics k = some x →
        Hash_Map.find? st1.sfm_data.intrinsics k = some x) := by
  have hmod : st.sfm_data.views.size % IndexT_card = st.sfm_data.views.size :=
    Nat.mod_eq_of_lt hsize
  have hv : st.sfm_data.views.size ∉ st.sfm_data.views.keys := by
    rw [hkeys]
    simp
  unfold integrate
  simp only [hloc, hmod]
  refine ⟨_, rfl, ?_, ?_, ?_, ?_, ?_, ?_⟩
  · simp [Hash_Map.find?_assign]
  · simp [Hash_Map.find?_assign]
  · simp [Hash_Map.find?_assign]
  · exact fun k v h => find?_assign_of_some _ _ _ hv k v h
  · exact fun k x h => find?_assign_of_some _ _ _ hp k x h
  · exact fun k x h => find?_assign_of_some _ _ _ hi k x h

/-- Witness of the amended C12 on the sample state, whose two views have one
pose and one intrinsic, both keyed 0. -/
theorem integrate_registers_under_view_count_witness :
    sampleState.sfm_data.views.size ∉ sampleState.sfm_data.poses.keys ∧
      sampleState.sfm_data.views.size ∉ sampleState.sfm_data.intrinsics.keys ∧
      ∃ st1, integrate false sampleState ⟨"q0.jpg", 640, 480, some (3, 501)⟩ = some st1 ∧
        Hash_Map.find? st1.sfm_data.views sampleState.sfm_data.views.size
          = some ⟨"q0.jpg", sampleState.sfm_data.views.size, sampleState.sfm_data.views.size,
              sampleState.sfm_data.views.size, 640 % IndexT_card, 480 % IndexT_card⟩ ∧
        Hash_Map.find? st1.sfm_data.poses sampleState.sfm_data.views.size = some 501 ∧
        Hash_Map.find? st1.sfm_data.intrinsics sampleState.sfm_data.views.size = some 3 ∧
        (∀ k v, Hash_Map.find? sampleState.sfm_data.views k = some v →
          Hash_Map.find? st1.sfm_data.views k = some v) ∧
        (∀ k x, Hash_Map.find? sampleState.sfm_data.poses k = some x →
          Hash_Map.find? st1.sfm_data.poses k = some x) ∧
        (∀ k x, Hash_Map.find? sampleState.sfm_data.intrinsics k = some x →
          Hash_Map.find? st1.sfm_data.intrinsics k = some x) :=
  ⟨by decide, by decide,
    integrate_registers_under_view_count sampleState ⟨"q0.jpg", 640, 480, some (3, 501)⟩ 3 501
      rfl (by decide) (by decide) (by decide) (by decide)⟩

/-- C12 as stated fails: on a scene with two views, keyed 0 and 1, that already
has a pose and an intrinsic keyed 2, the pose and the intrinsic of the new view
are registered under 2 and replace them; the view 1, which referenced them, now
references the new pose and the new intrinsic. -/
theorem integrate_overwrites_pose_and_intrinsic :
    (listOriginalImages id sparseIdsState.sfm_data.views).isSome ∧
    Hash_Map.find? sparseIdsState.sfm_data.views 1
      = some ⟨"base/1.jpg", 1, 2, 2, 640, 480⟩ ∧
    Hash_Map.find? sparseIdsState.sfm_data.poses 2 = some 102 ∧
    Hash_Map.find? sparseIdsState.sfm_data.intrinsics 2 = some 12 ∧
    (integrate false sparseIdsState ⟨"q0.jpg", 640, 480, some (3, 501)⟩).map
        (fun s => (Hash_Map.find? s.sfm_data.views 1, Hash_Map.find? s.sfm_data.views 2,
          Hash_Map.find? s.sfm_data.poses 2, Hash_Map.find? s.sfm_data.intrinsics 2,
          s.sfm_data.poses.size, s.sfm_data.intrinsics.size))
      = some (some ⟨"base/1.jpg", 1, 2, 2, 640, 480⟩, some ⟨"q0.jpg", 2, 2, 2, 640, 480⟩,
          some 501, some 3, 2, 2) := by
  decide

/-- In single-intrinsic mode the critical section of a localized image leaves
the intrinsics map as it was and gives the new view the intrinsic id stored in
the view that `GetViews().begin()` yields. -/
theorem integrate_single_intrinsic (st : LocState Intr Pose) (c : Candidate Intr Pose)
    (intr : Intr) (pose : Pose) (first : Nat × View) (rest : Hash_Map View)
    (hloc : c.localized = some (intr, pose))
    (hviews : st.sfm_data.views = first :: rest) :
    ∃ st1, integrate true st c = some st1 ∧
      st1.sfm_data.intrinsics = st.sfm_data.intrinsics ∧
      Hash_Map.find? st1.sfm_data.views (st.sfm_data.views.size % IndexT_card)
        = some ⟨c.name, st.sfm_data.views.size % IndexT_card, first.2.id_intrinsic,
            st.sfm_data.views.size % IndexT_card, c.width % IndexT_card,
            c.height % IndexT_card⟩ ∧
      Hash_Map.find? st1.sfm_data.poses (st.sfm_data.views.size % IndexT_card) = some pose := by
  unfold integrate
  simp only [hloc, hviews, List.head?_cons, Bool.not_true, Bool.false_eq_true, if_false]
  refine ⟨_, rfl, rfl, ?_, ?_⟩
  · simp [Hash_Map.find?_assign]
  · simp [Hash_Map.find?_assign]

/-- C13: the scene has one view and one intrinsic, keyed 0, and the view has a
pose but references no intrinsic.  The image `q0.jpg` is localized in
single-intrinsic mode with that intrinsic; no intrinsic is added, and the new
view is recorded with its pose and with the undefined intrinsic id read from the
existing view, not with the id 0 of the existing intrinsic. -/
theorem single_intrinsic_view_gets_undefined_id :
    unreferencedIntrinsicState.sfm_data.views.keys = [0] ∧
    unreferencedIntrinsicState.sfm_data.intrinsics.keys = [0] ∧
    sharedIntrinsicOptions.intrinsics_data = unreferencedIntrinsicState.sfm_data.intrinsics ∧
    RefsValid unreferencedIntrinsicState.sfm_data ∧
    (processImage sampleExternals sharedIntrinsicOptions unreferencedIntrinsicState "q0.jpg").map
        (fun s => (s.sfm_data.intrinsics.keys, Hash_Map.find? s.sfm_data.views 1,
          Hash_Map.find? s.sfm_data.poses 1, s.vec_found_poses))
      = some ([0], some ⟨"q0.jpg", 1, UndefinedIndexT, 1, 640, 480⟩, some 501, [501]) := by
  decide

end FreshIdThms

/-! ## The filtered export -/

section FilterThms

variable {Intr Pose Pos Dist : Type}

/-- The example of C14: centers `(0,0,0)`, `(1,0,0)`, `(5,0,0)` and a radius-1
filter around the origin keep the first two views, renumbered 0 and 1. -/
theorem exportFiltered_sample :
    (exportFiltered sampleDistance radiusOneOptions [] filterScene).map
        (fun used => (used.views, used.poses))
      = some ([(0, ⟨"a.jpg", 0, 0, 0, 640, 480⟩), (1, ⟨"b.jpg", 1, 0, 1, 640, 480⟩)],
          [(0, (0, 0, 0)), (1, (1, 0, 0))]) := by
  decide

/-- C14 fails on the code: once a query image could not be localized, its view
is a candidate without a pose, `poses.at` throws in the radius filter and
nothing is exported, although the views at `(0,0,0)` and `(1,0,0)` lie within
the radius. -/
theorem exportFiltered_throws_on_unlocalized_view :
    candidateViews false [] filterSceneWithFailure = [0, 1, 2, 3] ∧
    Hash_Map.find? filterSceneWithFailure.views 3
      = some ⟨"q.jpg", 3, UndefinedIndexT, UndefinedIndexT, 640, 480⟩ ∧
    Hash_Map.find? filterSceneWithFailure.poses UndefinedIndexT = none ∧
    withinRadius sampleDistance (0, 0, 0) 1 filterSceneWithFailure 0 = true ∧
    withinRadius sampleDistance (0, 0, 0) 1 filterSceneWithFailure 1 = true ∧
    exportFiltered sampleDistance radiusOneOptions [] filterSceneWithFailure = none := by
  decide

/-- C16 fails on the code: with no filter flag the radius filter still runs,
with radius 0 around the origin.  Of the three candidate views of the sample
scene only the one at the origin is exported; with usage filtering and the used
landmark 9, the only candidate, view 2, is dropped. -/
theorem exportFiltered_default_radius_drops_views :
    candidateViews false [] filterScene = [0, 1, 2] ∧
    (exportFiltered sampleDistance (defaultFilterOptions false) [] filterScene).map
        (fun used => used.views.keys) = some [0] ∧
    candidateViews true [9] filterScene = [2] ∧
    (exportFiltered sampleDistance (defaultFilterOptions true) [9] filterScene).map
        (fun used => used.views.keys) = some [] := by
  decide

end FilterThms

/-! ## The radius filter and the renumbering -/

section RenumberThms

variable {Intr Pose Pos Dist : Type}

theorem withinRadius_lookup [LE Dist] [DecidableRel (fun a b : Dist => a ≤ b)]
    (distance : Pose → Pos → Dist) (pos : Pos) (r : Dist) (sfm_data : SfM_Data Intr Pose)
    (i : Nat) (h : withinRadius distance pos r sfm_data i = true) :
    ∃ view pose, Hash_Map.find? sfm_data.views i = some view ∧
      Hash_Map.find? sfm_data.poses view.id_pose = some pose := by
  unfold withinRadius at h
  cases hv : Hash_Map.find? sfm_data.views i with
  | none => simp [hv] at h
  | some view =>
    cases hp : Hash_Map.find? sfm_data.poses view.id_pose with
    | none => simp [hv, hp] at h
    | some pose => exact ⟨view, pose, rfl, hp⟩

/-- What the radius filter returns when no lookup throws. -/
theorem radiusFilter_some [LE Dist] [DecidableRel (fun a b : Dist => a ≤ b)]
    (distance : Pose → Pos → Dist) (pos : Pos) (r : Dist) (sfm_data : SfM_Data Intr Pose)
    (which good0 good : StdSet)
    (h : radiusFilter distance pos r sfm_data which good0 = some good) :
    (∀ i, i ∈ good ↔ i ∈ good0 ∨ (i ∈ which ∧ withinRadius distance pos r sfm_data i = true)) ∧
      (good0.Pairwise (· < ·) → good.Pairwise (· < ·)) := by
  induction which generalizing good0 with
  | nil =>
    simp only [radiusFilter, Option.some.injEq] at h
    subst h
    exact ⟨fun i => by simp, fun hs => hs⟩
  | cons a rest ih =>
    unfold radiusFilter at h
    cases hv : Hash_Map.find? sfm_data.views a with
    | none => simp [hv] at h
    | some view =>
      cases hp : Hash_Map.find? sfm_data.poses view.id_pose with
      | none => simp [hv, hp] at h
      | some pose =>
        simp only [hv, hp] at h
        obtain ⟨hmem, hsorted⟩ := ih _ h
        have hwa : withinRadius distance pos r sfm_data a = decide (distance pose pos ≤ r) := by
          simp [withinRadius, hv, hp]
        by_cases hd : distance pose pos ≤ r
        · simp only [hd, if_true] at hmem hsorted
          refine ⟨fun i => ?_, fun hs => hsorted (StdSet.sorted_insert _ _ hs)⟩
          rw [hmem i, StdSet.mem_insert]
          constructor
          · rintro ((h1 | h1) | ⟨h1, h2⟩)
            · exact Or.inr ⟨by rw [h1]; exact List.mem_cons_self _ _, by rw [h1, hwa]; simp [hd]⟩
            · exact Or.inl h1
            · exact Or.inr ⟨List.mem_cons_of_mem _ h1, h2⟩
          · rintro (h1 | ⟨h1, h2⟩)
            · exact Or.inl (Or.inr h1)
            · rcases List.mem_cons.1 h1 with h1 | h1
              · exact Or.inl (Or.inl h1)
              · exact Or.inr ⟨h1, h2⟩
        · simp only [hd, if_false] at hmem hsorted
          refine ⟨fun i => ?_, hsorted⟩
          rw [hmem i]
          constructor
          · rintro (h1 | ⟨h1, h2⟩)
            · exact Or.inl h1
            · exact Or.inr ⟨List.mem_cons_of_mem _ h1, h2⟩
          · rintro (h1 | ⟨h1, h2⟩)
            · exact Or.inl h1
            · rcases List.mem_cons.1 h1 with h1 | h1
              · rw [h1, hwa] at h2
                simp [hd] at h2
              · exact Or.inr ⟨h1, h2⟩

/-- The radius filter returns a set when every candidate has a view and a pose. -/
theorem radiusFilter_isSome [LE Dist] [DecidableRel (fun a b : Dist => a ≤ b)]
    (distance : Pose → Pos → Dist) (pos : Pos) (r : Dist) (sfm_data : SfM_Data Intr Pose)
    (which good0 : StdSet)
    (hl : ∀ i ∈ which, ∃ view pose, Hash_Map.find? sfm_data.views i = some view ∧
      Hash_Map.find? sfm_data.poses view.id_pose = some pose) :
    ∃ good, radiusFilter distance pos r sfm_data which good0 = some good := by
  induction which generalizing good0 with
  | nil => exact ⟨good0, rfl⟩
  | cons a rest ih =>
    obtain ⟨view, pose, hv, hp⟩ := hl a (List.mem_cons_self _ _)
    unfold radiusFilter
    simp only [hv, hp]
    exact ih _ (fun i hi => hl i (List.mem_cons_of_mem _ hi))

/-- When every candidate has a view and a pose, the radius filter retains
exactly the candidates whose distance to the reference point is at most the
radius. -/
theorem radiusFilter_retains_within_radius [LE Dist] [DecidableRel (fun a b : Dist => a ≤ b)]
    (distance : Pose → Pos → Dist) (pos : Pos) (r : Dist) (sfm_data : SfM_Data Intr Pose)
    (which : StdSet)
    (hl : ∀ i ∈ which, ∃ view pose, Hash_Map.find? sfm_data.views i = some view ∧
      Hash_Map.find? sfm_data.poses view.id_pose = some pose) :
    ∃ good, radiusFilter distance pos r sfm_data which [] = some good ∧
      ∀ i, i ∈ good ↔ i ∈ which ∧ withinRadius distance pos r sfm_data i = true := by
  obtain ⟨good, hgood⟩ := radiusFilter_isSome distance pos r sfm_data which [] hl
  refine ⟨good, hgood, fun i => ?_⟩
  rw [(radiusFilter_some distance pos r sfm_data which [] good hgood).1 i]
  simp

theorem sorted_length_le (l : List Nat) (N : Nat) (hs : l.Pairwise (· < ·))
    (hb : ∀ i ∈ l, i < N) : l.length ≤ N := by
  have hnd : l.Nodup := hs.imp (fun hab => Nat.ne_of_lt hab)
  have hsub : l.toFinset ⊆ Finset.range N := by
    intro k hk
    exact Finset.mem_range.2 (hb k (List.mem_toFinset.1 hk))
  have := Finset.card_le_card hsub
  rw [List.toFinset_card_of_nodup hnd, Finset.card_range] at this
  exact this

/-- The renumbering loop appends one view and one pose per remaining view, under
consecutive keys. -/
theorem renumberViews_append (sfm_data : SfM_Data Intr Pose) (l : StdSet) (k0 : Nat)
    (uv : Hash_Map View) (up : Hash_Map Pose)
    (hl : ∀ i ∈ l, ∃ view pose, Hash_Map.find? sfm_data.views i = some view ∧
      Hash_Map.find? sfm_data.poses view.id_pose = some pose)
    (huv : uv.keys = List.range k0) (hup : up.keys = List.range k0)
    (hlen : k0 + l.length ≤ IndexT_card) :
    ∃ newV newP, renumberViews sfm_data l k0 (uv, up) = some (uv ++ newV, up ++ newP) ∧
      Hash_Map.keys newV = List.range' k0 l.length ∧
      Hash_Map.keys newP = List.range' k0 l.length ∧
      ∀ j i, l[j]? = some i → ∃ view pose,
        Hash_Map.find? sfm_data.views i = some view ∧
        Hash_Map.find? sfm_data.poses view.id_pose = some pose ∧
        newV[j]? = some (k0 + j, { view with id_view := k0 + j, id_pose := k0 + j }) ∧
        newP[j]? = some (k0 + j, pose) := by
  induction l generalizing k0 uv up with
  | nil =>
    refine ⟨[], [], by simp [renumberViews], rfl, rfl, ?_⟩
    intro j i hj
    simp at hj
  | cons a rest ih =>
    obtain ⟨view, pose, hv, hp⟩ := hl a (List.mem_cons_self _ _)
    have hav : Hash_Map.assign uv k0 { view with id_view := k0, id_pose := k0 }
        = uv ++ [(k0, { view with id_view := k0, id_pose := k0 })] := by
      apply assign_of_lt
      intro k hk
      rw [huv] at hk
      exact List.mem_range.1 hk
    have hap : Hash_Map.assign up k0 pose = up ++ [(k0, pose)] := by
      apply assign_of_lt
      intro k hk
      rw [hup] at hk
      exact List.mem_range.1 hk
    unfold renumberViews
    simp only [hv, hp, hav, hap]
    cases hrest : rest with
    | nil =>
      refine ⟨[(k0, { view with id_view := k0, id_pose := k0 })], [(k0, pose)],
        by simp [renumberViews], by simp [Hash_Map.keys], by simp [Hash_Map.keys], ?_⟩
      intro j i hj
      cases j with
      | zero =>
        simp only [List.getElem?_cons_zero, Option.some.injEq] at hj
        subst hj
        exact ⟨view, pose, hv, hp, by simp, by simp⟩
      | succ j => simp at hj
    | cons b rest2 =>
      rw [← hrest]
      have hlen1 : k0 + 1 + rest.length ≤ IndexT_card := by
        simp only [List.length_cons] at hlen
        omega
      have hpos : 0 < rest.length := by
        rw [hrest]
        simp
      have hmod : (k0 + 1) % IndexT_card = k0 + 1 := Nat.mod_eq_of_lt (by omega)
      rw [hmod]
      obtain ⟨newV, newP, hren, hkv, hkp, hget⟩ :=
        ih (k0 + 1) (uv ++ [(k0, { view with id_view := k0, id_pose := k0 })])
          (up ++ [(k0, pose)]) (fun i hi => hl i (List.mem_cons_of_mem _ hi))
          (by simp [Hash_Map.keys, List.range_succ, ← huv])
          (by simp [Hash_Map.keys, List.range_succ, ← hup]) hlen1
      refine ⟨(k0, { view with id_view := k0, id_pose := k0 }) :: newV, (k0, pose) :: newP,
        ?_, ?_, ?_, ?_⟩
      · rw [hren]
        simp
      · simp only [Hash_Map.keys, List.map_cons, List.length_cons, List.range'_succ]
        simp only [Hash_Map.keys] at hkv
        rw [hkv]
      · simp only [Hash_Map.keys, List.map_cons, List.length_cons, List.range'_succ]
        simp only [Hash_Map.keys] at hkp
        rw [hkp]
      · intro j i hj
        cases j with
        | zero =>
          simp only [List.getElem?_cons_zero, Option.some.injEq] at hj
          subst hj
          exact ⟨view, pose, hv, hp, by simp, by simp⟩
        | succ j =>
          simp only [List.getElem?_cons_succ] at hj
          obtain ⟨view', pose', hv', hp', h1, h2⟩ := hget j i hj
          have e : k0 + 1 + j = k0 + (j + 1) := by omega
          rw [e] at h1 h2
          exact ⟨view', pose', hv', hp', by simpa using h1, by simpa using h2⟩

end RenumberThms

/-! ## The renumbered output -/

section RenumberClaim

variable {Intr Pose Pos Dist : Type}

/-- C15: for the `m` views that survive the radius filter, the renumbering
succeeds and the output views and the output poses both have the keys
`0, ..., m-1`; the keys follow the ascending order of the original view ids;
the output view under key `k` is the `k`-th surviving view with `id_view = k`
and `id_pose = k`, and the output pose under key `k` is the pose that view
referenced in the input scene. -/
theorem renumberViews_dense_order_preserving [LE Dist]
    [DecidableRel (fun a b : Dist => a ≤ b)]
    (distance : Pose → Pos → Dist) (pos : Pos) (r : Dist) (sfm_data : SfM_Data Intr Pose)
    (which good : StdSet)
    (hbound : ∀ i ∈ which, i < IndexT_card)
    (hfilter : radiusFilter distance pos r sfm_data which [] = some good) :
    ∃ used, renumberViews sfm_data good 0 ([], []) = some used ∧
      used.1.keys = List.range good.length ∧
      used.2.keys = List.range good.length ∧
      (∀ (j₁ j₂ i₁ i₂ : Nat), good[j₁]? = some i₁ → good[j₂]? = some i₂ → j₁ < j₂ →
        i₁ < i₂) ∧
      ∀ k i, good[k]? = some i → ∃ view pose,
        Hash_Map.find? sfm_data.views i = some view ∧
        Hash_Map.find? sfm_data.poses view.id_pose = some pose ∧
        Hash_Map.find? used.1 k = some { view with id_view := k, id_pose := k } ∧
        Hash_Map.find? used.2 k = some pose := by
  obtain ⟨hmem, hsorted⟩ := radiusFilter_some distance pos r sfm_data which [] good hfilter
  have hs : good.Pairwise (· < ·) := hsorted List.Pairwise.nil
  have hin : ∀ i ∈ good, i ∈ which ∧ withinRadius distance pos r sfm_data i = true := by
    intro i hi
    rcases (hmem i).1 hi with h | h
    · simp at h
    · exact h
  have hl : ∀ i ∈ good, ∃ view pose, Hash_Map.find? sfm_data.views i = some view ∧
      Hash_Map.find? sfm_data.poses view.id_pose = some pose :=
    fun i hi => withinRadius_lookup distance pos r sfm_data i (hin i hi).2
  have hlen : good.length ≤ IndexT_card :=
    sorted_length_le good IndexT_card hs (fun i hi => hbound i (hin i hi).1)
  obtain ⟨newV, newP, hren, hkv, hkp, hget⟩ :=
    renumberViews_append sfm_data good 0 [] [] hl rfl rfl (by omega)
  simp only [List.nil_append] at hren
  have hkv' : Hash_Map.keys newV = List.range good.length := by
    rw [hkv, List.range_eq_range']
  have hkp' : Hash_Map.keys newP = List.range good.length := by
    rw [hkp, List.range_eq_range']
  have hsv : (Hash_Map.keys newV).Pairwise (· < ·) := by
    rw [hkv']
    exact List.pairwise_lt_range _
  have hsp : (Hash_Map.keys newP).Pairwise (· < ·) := by
    rw [hkp']
    exact List.pairwise_lt_range _
  refine ⟨(newV, newP), hren, hkv', hkp', ?_, ?_⟩
  · intro j₁ j₂ i₁ i₂ h₁ h₂ hlt
    obtain ⟨hj₁, e₁⟩ := List.getElem?_eq_some.1 h₁
    obtain ⟨hj₂, e₂⟩ := List.getElem?_eq_some.1 h₂
    rw [← e₁, ← e₂]
    exact List.pairwise_iff_getElem.1 hs j₁ j₂ hj₁ hj₂ hlt
  · intro k i hk
    obtain ⟨view, pose, hv, hp, h1, h2⟩ := hget k i hk
    simp only [Nat.zero_add] at h1 h2
    exact ⟨view, pose, hv, hp,
      Hash_Map.find?_of_mem newV k _ hsv (List.getElem?_mem h1),
      Hash_Map.find?_of_mem newP k _ hsp (List.getElem?_mem h2)⟩

/-- Witness of C15: the two survivors of the radius-1 filter on the sample
scene. -/
theorem renumberViews_dense_order_preserving_witness :
    radiusFilter sampleDistance (0, 0, 0) 1 filterScene [0, 1, 2] [] = some [0, 1] ∧
      ∃ used, renumberViews filterScene [0, 1] 0 ([], []) = some used ∧
        used.1.keys = List.range ([0, 1] : StdSet).length ∧
        used.2.keys = List.range ([0, 1] : StdSet).length ∧
        (∀ (j₁ j₂ i₁ i₂ : Nat), ([0, 1] : StdSet)[j₁]? = some i₁ →
          ([0, 1] : StdSet)[j₂]? = some i₂ → j₁ < j₂ → i₁ < i₂) ∧
        ∀ (k i : Nat), ([0, 1] : StdSet)[k]? = some i → ∃ view pose,
          Hash_Map.find? filterScene.views i = some view ∧
          Hash_Map.find? filterScene.poses view.id_pose = some pose ∧
          Hash_Map.find? used.1 k = some { view with id_view := k, id_pose := k } ∧
          Hash_Map.find? used.2 k = some pose :=
  ⟨by decide,
    renumberViews_dense_order_preserving sampleDistance (0, 0, 0) 1 filterScene [0, 1, 2] [0, 1]
      (by decide) (by decide)⟩

end RenumberClaim

/-! ## Flag validation -/

section FlagThms

variable {Intr Pose Proj : Type}

/-- C17: when a fixed filter position (any of `-x`, `-y`, `-z`) and a reference
image (`-f`) are both supplied, and more generally when more than one of fixed
position, reference image and queried set is supplied, the flag validation
rejects the run: `main` returns `EXIT_FAILURE` whatever the rest of the program
(loading the scene, processing the images) would do. -/
theorem filter_flags_mutually_exclusive (flags : FilterFlags) (cameraModelValid : Bool)
    (loadAndRun : Unit → ExitCode)
    (h : ((flags.used_x || flags.used_y || flags.used_z) = true ∧ flags.used_f = true) ∨
      1 < spatialFiltersSupplied flags) :
    filterFlagsRejected flags = true ∧
      mainAfterParsing flags cameraModelValid loadAndRun = ExitCode.EXIT_FAILURE := by
  have hrej : filterFlagsRejected flags = true := by
    obtain ⟨x, y, z, f, q, d⟩ := flags
    cases x <;> cases y <;> cases z <;> cases f <;> cases q <;> cases d <;>
      simp [spatialFiltersSupplied] at h <;> decide
  exact ⟨hrej, by simp [mainAfterParsing, hrej]⟩

/-- Witness of C17: the flags `-x -y -z -f -D`. -/
theorem filter_flags_mutually_exclusive_witness :
    1 < spatialFiltersSupplied ⟨true, true, true, true, false, true⟩ ∧
      filterFlagsRejected ⟨true, true, true, true, false, true⟩ = true ∧
      mainAfterParsing ⟨true, true, true, true, false, true⟩ true
        (fun _ => ExitCode.EXIT_SUCCESS) = ExitCode.EXIT_FAILURE :=
  ⟨by decide,
    filter_flags_mutually_exclusive ⟨true, true, true, true, false, true⟩ true
      (fun _ => ExitCode.EXIT_SUCCESS) (Or.inr (by decide))⟩

end FlagThms

/-! ## The tally of used landmarks -/

section TallyThms

variable {Intr Pose Proj : Type}

theorem mem_tallyUsedLandmarks (used : StdSet) (data : Image_Localizer_Match_Data Proj)
    (lm : Nat) :
    lm ∈ tallyUsedLandmarks used data ↔
      lm ∈ used ∨ ∃ idx ∈ data.vec_inliers, data.vec_landmarks.getD idx 0 = lm := by
  unfold tallyUsedLandmarks
  have hmap := List.foldl_map (fun idx => data.vec_landmarks.getD idx 0) StdSet.insert
    data.vec_inliers used
  simp only at hmap
  rw [← hmap, StdSet.mem_foldl_insert]
  simp only [List.mem_map]

theorem localizeAndRefine_fst (ext : Externals Intr Pose Proj) (opts : Options Intr)
    (used : StdSet) (name : String) (width height : Nat) (optional_intrinsic : Option Intr) :
    (localizeAndRefine ext opts used name width height optional_intrinsic).1
      = match ext.Localize (solverFor opts.resection_method optional_intrinsic)
          (width, height) optional_intrinsic name with
        | none => used
        | some pd =>
          if opts.bFilterUsedLandmarks then tallyUsedLandmarks used pd.2 else used := by
  unfold localizeAndRefine
  cases hloc : ext.Localize (solverFor opts.resection_method optional_intrinsic)
      (width, height) optional_intrinsic name with
  | none => rfl
  | some pd =>
    obtain ⟨pose, data⟩ := pd
    simp only
    split <;> rfl

/-- The candidate an image that is not rejected brings to the critical section. -/
theorem attempt_eq_candidate (ext : Externals Intr Pose Proj) (opts : Options Intr)
    (used : StdSet) (name : String) (width height : Nat)
    (hkey0 : opts.bUseSingleIntrinsics = true → opts.intrinsics_data.size = 1 →
      (Hash_Map.find? opts.intrinsics_data 0).isSome)
    (h : ¬ Rejected ext opts name) (hread : ext.ReadImage name = some (width, height)) :
    attempt ext opts used name
      = Reached.candidate
          (localizeAndRefine ext opts used name width height
            (intrinsicAtLocalize ext opts width height)).1
          ⟨name, width, height,
            (localizeAndRefine ext opts used name width height
              (intrinsicAtLocalize ext opts width height)).2⟩ := by
  unfold Rejected at h
  simp only [not_or] at h
  obtain ⟨hfmt, _, hsingle⟩ := h
  simp only [Bool.not_eq_false] at hfmt
  unfold attempt intrinsicAtLocalize
  simp only [hfmt, Bool.not_true, Bool.false_eq_true, if_false, hread]
  cases hs : opts.bUseSingleIntrinsics with
  | false => simp
  | true =>
    simp only [if_true]
    have hsz : opts.intrinsics_data.size = 1 := by
      by_contra hc
      exact hsingle ⟨hs, Or.inl hc⟩
    simp only [hsz, ne_eq, not_true_eq_false, if_false]
    obtain ⟨intr, hintr⟩ := Option.isSome_iff_exists.1 (hkey0 hs hsz)
    simp only [hintr]
    have hmis : ¬ (width ≠ ext.w intr ∨ ext.h intr ≠ height) := by
      intro hc
      exact hsingle ⟨hs, Or.inr ⟨intr, width, height, hintr, hread, hc⟩⟩
    rw [if_neg hmis]
    simp

/-- C18: for every query image that reaches the call of `Localize` and every
requested resection method, the loop body is determined by the result of
`Localize` for the solver it selects.  When no intrinsic is available, this is
the result for the 6-point DLT and no intrinsic, whatever the requested method:
if that call fails the image is recorded as not localized, and if it succeeds
the image is recorded with the refinement of the pose and of the matching data
that this call returned.  When an intrinsic is available, it is the result for
the requested method and that intrinsic. -/
theorem Localize_called_with_selected_solver (ext : Externals Intr Pose Proj)
    (opts : Options Intr) (used : StdSet) (name : String) (width height : Nat)
    (hkey0 : opts.bUseSingleIntrinsics = true → opts.intrinsics_data.size = 1 →
      (Hash_Map.find? opts.intrinsics_data 0).isSome)
    (h : ¬ Rejected ext opts name) (hread : ext.ReadImage name = some (width, height)) :
    (intrinsicAtLocalize ext opts width height = none →
      (ext.Localize SolverType.DLT_6POINTS (width, height) none name = none →
        attempt ext opts used name
          = Reached.candidate used ⟨name, width, height, none⟩) ∧
      (∀ pose data,
        ext.Localize SolverType.DLT_6POINTS (width, height) none name = some (pose, data) →
        attempt ext opts used name
          = Reached.candidate
              (if opts.bFilterUsedLandmarks then tallyUsedLandmarks used data else used)
              ⟨name, width, height,
                (createIntrinsic ext opts.i_User_camera_model width height data).bind
                  (fun intr => ext.RefinePose intr pose data true)⟩)) ∧
    (∀ intr, intrinsicAtLocalize ext opts width height = some intr →
      (ext.Localize opts.resection_method (width, height) (some intr) name = none →
        attempt ext opts used name
          = Reached.candidate used ⟨name, width, height, none⟩) ∧
      (∀ pose data,
        ext.Localize opts.resection_method (width, height) (some intr) name
          = some (pose, data) →
        attempt ext opts used name
          = Reached.candidate
              (if opts.bFilterUsedLandmarks then tallyUsedLandmarks used data else used)
              ⟨name, width, height, ext.RefinePose intr pose data false⟩)) := by
  have hatt := attempt_eq_candidate ext opts used name width height hkey0 h hread
  refine ⟨fun hnone => ⟨fun hl => ?_, fun pose data hl => ?_⟩,
    fun intr hsome => ⟨fun hl => ?_, fun pose data hl => ?_⟩⟩
  · rw [hatt, hnone]
    simp [localizeAndRefine, solverFor, hl]
  · rw [hatt, hnone]
    cases hc : createIntrinsic ext opts.i_User_camera_model width height data with
    | none => simp [localizeAndRefine, solverFor, hl, hc]
    | some intr => simp [localizeAndRefine, solverFor, hl, hc]
  · rw [hatt, hsome]
    simp [localizeAndRefine, solverFor, hl]
  · rw [hatt, hsome]
    simp [localizeAndRefine, solverFor, hl]

/-- Witness of C18: no intrinsic is available, the requested method is
`P3P_KE_CVPR17`, and `Localize` fails for every solver but the 6-point DLT; the
image `q0.jpg` is recorded with the refinement of what the 6-point DLT call
returned. -/
theorem Localize_called_with_selected_solver_witness :
    intrinsicAtLocalize dltOnlyExternals p3pOptions 640 480 = none ∧
    dltOnlyExternals.Localize SolverType.P3P_KE_CVPR17 (640, 480) none "q0.jpg" = none ∧
    dltOnlyExternals.Localize SolverType.DLT_6POINTS (640, 480) none "q0.jpg"
      = some (500, ⟨9, [0, 1], [4, 8]⟩) ∧
    attempt dltOnlyExternals p3pOptions [] "q0.jpg"
      = Reached.candidate [] ⟨"q0.jpg", 640, 480, some (3, 501)⟩ :=
  ⟨rfl, rfl, rfl,
    ((Localize_called_with_selected_solver dltOnlyExternals p3pOptions [] "q0.jpg" 640 480
      (by simp [p3pOptions, sampleOptions])
      (by simp [Rejected, dltOnlyExternals, sampleExternals, p3pOptions, sampleOptions])
      rfl).1 rfl).2 500 ⟨9, [0, 1], [4, 8]⟩ rfl⟩

theorem assign_ne_nil {V : Type} (m : Hash_Map V) (k : Nat) (v : V) :
    Hash_Map.assign m k v ≠ [] := by
  intro hc
  have : k ∈ (Hash_Map.assign m k v).keys := (Hash_Map.mem_keys_assign m k k v).2 (Or.inl rfl)
  rw [hc] at this
  simp [Hash_Map.keys] at this

/-- The critical section leaves the used landmarks alone and leaves a view. -/
theorem integrate_used_landmarks (single : Bool) (st : LocState Intr Pose)
    (c : Candidate Intr Pose) (hviews : single = true → st.sfm_data.views ≠ []) :
    ∃ st1, integrate single st c = some st1 ∧ st1.used_landmarks = st.used_landmarks ∧
      st1.sfm_data.views ≠ [] := by
  unfold integrate
  dsimp only
  cases hloc : c.localized with
  | none => exact ⟨_, rfl, rfl, assign_ne_nil _ _ _⟩
  | some ip =>
    cases hsingle : single with
    | false => exact ⟨_, rfl, rfl, assign_ne_nil _ _ _⟩
    | true =>
      cases hv : st.sfm_data.views with
      | nil => exact absurd hv (hviews hsingle)
      | cons first rest =>
        simp only [List.head?_cons, Bool.not_true, Bool.false_eq_true, if_false]
        exact ⟨_, rfl, rfl, assign_ne_nil _ _ _⟩

/-- The used landmarks after one image: those before, and the landmarks of the
inliers when `Localize` was reached and succeeded. -/
theorem processImage_used_landmarks (ext : Externals Intr Pose Proj) (opts : Options Intr)
    (st : LocState Intr Pose) (name : String)
    (htrack : opts.bFilterUsedLandmarks = true)
    (hkey0 : opts.bUseSingleIntrinsics = true → opts.intrinsics_data.size = 1 →
      (Hash_Map.find? opts.intrinsics_data 0).isSome)
    (hviews : opts.bUseSingleIntrinsics = true → st.sfm_data.views ≠ []) :
    ∃ st1, processImage ext opts st name = some st1 ∧
      (opts.bUseSingleIntrinsics = true → st1.sfm_data.views ≠ []) ∧
      ∀ lm, lm ∈ st1.used_landmarks ↔
        lm ∈ st.used_landmarks ∨
          ∃ data, LocalizeSucceeded ext opts name data ∧
            ∃ idx ∈ data.vec_inliers, data.vec_landmarks.getD idx 0 = lm := by
  by_cases hrej : Rejected ext opts name
  · refine ⟨st, ?_, hviews, fun lm => ?_⟩
    · unfold processImage
      rw [attempt_of_rejected ext opts st.used_landmarks name hrej]
    · constructor
      · exact fun h => Or.inl h
      · rintro (h | ⟨data, hsucc, _⟩)
        · exact h
        · exact absurd hrej hsucc.1
  · have hread : ∃ width height, ext.ReadImage name = some (width, height) := by
      cases hr : ext.ReadImage name with
      | none => exact absurd (Or.inr (Or.inl hr)) hrej
      | some wh => exact ⟨wh.1, wh.2, rfl⟩
    obtain ⟨width, height, hread⟩ := hread
    have hatt := attempt_eq_candidate ext opts st.used_landmarks name width height hkey0 hrej
      hread
    obtain ⟨st1, hint, hused, hne⟩ := integrate_used_landmarks opts.bUseSingleIntrinsics
      { st with used_landmarks := (localizeAndRefine ext opts st.used_landmarks name width
          height (intrinsicAtLocalize ext opts width height)).1 }
      ⟨name, width, height, (localizeAndRefine ext opts st.used_landmarks name width height
        (intrinsicAtLocalize ext opts width height)).2⟩ hviews
    refine ⟨st1, ?_, fun _ => hne, fun lm => ?_⟩
    · unfold processImage
      rw [hatt]
      exact hint
    · rw [hused]
      simp only
      rw [localizeAndRefine_fst]
      cases hloc : ext.Localize
          (solverFor opts.resection_method (intrinsicAtLocalize ext opts width height))
          (width, height) (intrinsicAtLocalize ext opts width height) name with
      | none =>
        simp only
        constructor
        · exact fun h => Or.inl h
        · rintro (h | ⟨data, ⟨_, w', h', pose', hr', hl'⟩, _⟩)
          · exact h
          · rw [hread] at hr'
            cases hr'
            rw [hloc] at hl'
            cases hl'
      | some pd =>
        obtain ⟨pose, data⟩ := pd
        simp only [htrack, if_true]
        rw [mem_tallyUsedLandmarks]
        constructor
        · rintro (h | h)
          · exact Or.inl h
          · exact Or.inr ⟨data, ⟨hrej, width, height, pose, hread, hloc⟩, h⟩
        · rintro (h | ⟨data', ⟨_, w', h', pose', hr', hl'⟩, hin⟩)
          · exact Or.inl h
          · rw [hread] at hr'
            cases hr'
            rw [hloc] at hl'
            cases hl'
            exact Or.inr hin

/-- C19, as amended: with usage tracking, the used landmarks at the end of the
batch are those at its start together with the landmarks of the inliers of
every image for which `Localize` was reached and succeeded, whether or not the
refinement of that image succeeded afterwards. -/
theorem processAll_used_landmarks (ext : Externals Intr Pose Proj) (opts : Options Intr)
    (names : List String) (st : LocState Intr Pose)
    (htrack : opts.bFilterUsedLandmarks = true)
    (hkey0 : opts.bUseSingleIntrinsics = true → opts.intrinsics_data.size = 1 →
      (Hash_Map.find? opts.intrinsics_data 0).isSome)
    (hviews : opts.bUseSingleIntrinsics = true → st.sfm_data.views ≠ []) :
    ∃ st1, processAll ext opts st names = some st1 ∧
      ∀ lm, lm ∈ st1.used_landmarks ↔
        lm ∈ st.used_landmarks ∨
          ∃ name ∈ names, ∃ data, LocalizeSucceeded ext opts name data ∧
            ∃ idx ∈ data.vec_inliers, data.vec_landmarks.getD idx 0 = lm := by
  induction names generalizing st with
  | nil => exact ⟨st, rfl, fun lm => by simp⟩
  | cons name names ih =>
    obtain ⟨st1, hp, hv1, hmem1⟩ :=
      processImage_used_landmarks ext opts st name htrack hkey0 hviews
    obtain ⟨st2, hall, hmem2⟩ := ih st1 hv1
    refine ⟨st2, ?_, fun lm => ?_⟩
    · simp only [processAll, hp]
      exact hall
    · rw [hmem2 lm, hmem1 lm]
      constructor
      · rintro ((h | ⟨data, hs, hin⟩) | ⟨n, hn, data, hs, hin⟩)
        · exact Or.inl h
        · exact Or.inr ⟨name, List.mem_cons_self _ _, data, hs, hin⟩
        · exact Or.inr ⟨n, List.mem_cons_of_mem _ hn, data, hs, hin⟩
      · rintro (h | ⟨n, hn, data, hs, hin⟩)
        · exact Or.inl (Or.inl h)
        · rcases List.mem_cons.1 hn with hn | hn
          · subst hn
            exact Or.inl (Or.inr ⟨data, hs, hin⟩)
          · exact Or.inr ⟨n, hn, data, hs, hin⟩

/-- Witness of the amended C19: a batch of three images, one that is localized
and refined, one whose refinement fails, one that cannot be localized. -/
theorem processAll_used_landmarks_witness :
    ∃ st1, processAll sampleExternals trackingOptions sampleState
        ["q0.jpg", "blur.jpg", "far.jpg"] = some st1 ∧
      ∀ lm, lm ∈ st1.used_landmarks ↔
        lm ∈ sampleState.used_landmarks ∨
          ∃ name ∈ ["q0.jpg", "blur.jpg", "far.jpg"], ∃ data,
            LocalizeSucceeded sampleExternals trackingOptions name data ∧
            ∃ idx ∈ data.vec_inliers, data.vec_landmarks.getD idx 0 = lm :=
  processAll_used_landmarks sampleExternals trackingOptions ["q0.jpg", "blur.jpg", "far.jpg"]
    sampleState rfl (by decide) (by decide)

/-- C19 as stated fails: with usage tracking, the image `blur.jpg`, whose
refinement fails, is recorded without a pose, yet the landmarks 4 and 8 of its
inliers are in the used-landmark set. -/
theorem voided_localization_still_tallied :
    (localizeAndRefine sampleExternals trackingOptions [] "blur.jpg" 640 480 none).2 = none ∧
    (processImage sampleExternals trackingOptions sampleState "blur.jpg").map
        (fun s => (s.used_landmarks, Hash_Map.find? s.sfm_data.views 2, s.sfm_data.poses,
          s.vec_found_poses))
      = some ([4, 8], some ⟨"blur.jpg", 2, UndefinedIndexT, UndefinedIndexT, 640, 480⟩,
          [(0, 100)], []) := by
  decide

end TallyThms

/-! ## `generate_feature_path` -/

section FeaturePathThms

theorem stripMarkers_replicate (N : Nat) (r : List Char) (k : Nat)
    (hr : r.head? ≠ some '@') :
    stripMarkers (List.replicate N '@' ++ r) k = (r, k + N) := by
  induction N generalizing k with
  | zero =>
    simp only [List.replicate_zero, List.nil_append, Nat.add_zero]
    cases r with
    | nil => rfl
    | cons c rest =>
      have hc : ¬ c = '@' := by
        intro hc
        apply hr
        simp [hc]
      simp [stripMarkers, hc]
  | succ N ih =>
    have hcons : List.replicate (N + 1) '@' ++ r = '@' :: (List.replicate N '@' ++ r) := rfl
    rw [hcons]
    simp only [stripMarkers, if_true]
    rw [ih (k + 1)]
    congr 1
    omega

theorem foldl_range_getD {α β : Type} (g : β → α → β) (dflt : α) (l : List α) (a : β) :
    (List.range l.length).foldl (fun acc i => g acc (l.getD i dflt)) a = l.foldl g a := by
  induction l using List.reverseRecOn with
  | nil => rfl
  | append_singleton l x ih =>
    simp only [List.length_append, List.length_singleton, List.range_succ, List.foldl_append,
      List.foldl_cons, List.foldl_nil]
    have hstep : ∀ (acc : β), ∀ i ∈ List.range l.length,
        g acc ((l ++ [x]).getD i dflt) = g acc (l.getD i dflt) := by
      intro acc i hi
      have hlt := List.mem_range.1 hi
      simp [List.getD_eq_getElem?_getD, List.getElem?_append_left hlt]
    rw [List.foldl_ext _ _ _ hstep, ih]
    simp [List.getD_eq_getElem?_getD]

theorem stripMarkers_of_no_marker (d : String) (N : Nat)
    (hd : d.data.getLast? ≠ some '@') :
    stripMarkers (d ++ String.mk (List.replicate N '@')).data.reverse 0 = (d.data.reverse, N) := by
  have hdata : (d ++ String.mk (List.replicate N '@')).data.reverse
      = List.replicate N '@' ++ d.data.reverse := by
    simp [String.data_append, List.reverse_append]
  rw [hdata, stripMarkers_replicate N d.data.reverse 0 (by rw [List.head?_reverse]; exact hd)]
  simp

/-- C20: for a feature directory made of `d`, which has no trailing marker,
followed by `N >= 1` markers `@`, and an image path whose elements are at least
`N` parent directory components followed by the file name,
`generate_feature_path` returns the file spec of `d` extended by the last `N`
parent components in their order, the base name of the image and the extension;
for the directory `d` itself it returns the file spec of `d`, the base name and
the extension. -/
theorem generate_feature_path_spec (fs : PathFunctions) (d sImageName extension : String)
    (hd : d.data.getLast? ≠ some '@') :
    generate_feature_path fs d sImageName extension
        = fs.create_filespec d (fs.basename_part sImageName) extension ∧
      ∀ (N : Nat) (parents : List String) (file : String), 1 ≤ N →
        fs.filespec_elements sImageName = parents ++ [file] → N ≤ parents.length →
        generate_feature_path fs (d ++ String.mk (List.replicate N '@')) sImageName extension
          = fs.create_filespec
              ((parents.drop (parents.length - N)).foldl
                (fun dir component => fs.folder_append_separator dir ++ component) d)
              (fs.basename_part sImageName) extension := by
  constructor
  · have h0 := stripMarkers_of_no_marker d 0 hd
    have hd0 : d ++ String.mk (List.replicate 0 '@') = d := by
      simp only [List.replicate_zero]
      exact String.append_empty d
    rw [hd0] at h0
    unfold generate_feature_path
    simp only [h0, List.reverse_reverse, ne_eq, not_true_eq_false, if_false]
  · intro N parents file hN hpth hpar
    have hs := stripMarkers_of_no_marker d N hd
    have hN0 : N ≠ 0 := by omega
    have hoff : ((parents ++ [file]).length : Int) - (N : Int) - 1
        = ((parents.length - N : Nat) : Int) := by
      simp only [List.length_append, List.length_singleton]
      omega
    unfold generate_feature_path
    simp only [hs, List.reverse_reverse, ne_eq, hN0, not_false_eq_true, if_true, hpth, hoff,
      Int.toNat_ofNat]
    have hnonneg : (0 : Int) ≤ ((parents.length - N : Nat) : Int) := Int.ofNat_nonneg _
    rw [if_pos hnonneg]
    congr 1
    have hlen : (parents.drop (parents.length - N)).length = N := by
      simp only [List.length_drop]
      omega
    have hstep : ∀ (dir : String), ∀ i ∈ List.range N,
        fs.folder_append_separator dir ++ (parents ++ [file]).getD (parents.length - N + i) ""
          = fs.folder_append_separator dir
              ++ (parents.drop (parents.length - N)).getD i "" := by
      intro dir i hi
      have hlt := List.mem_range.1 hi
      have hidx : parents.length - N + i < parents.length := by omega
      simp [List.getD_eq_getElem?_getD, List.getElem?_append_left hidx, List.getElem?_drop]
    rw [List.foldl_ext _ _ _ hstep]
    have := foldl_range_getD (fun dir component => fs.folder_append_separator dir ++ component)
      "" (parents.drop (parents.length - N)) d
    rw [hlen] at this
    exact this

/-- Witness of C20: the directory `feats@` and the image `videos/a/frame_1.jpg`. -/
theorem generate_feature_path_spec_witness :
    generate_feature_path samplePathFunctions ("feats" ++ String.mk (List.replicate 1 '@'))
        "videos/a/frame_1.jpg" ".feat"
      = samplePathFunctions.create_filespec
          ((["videos", "a"].drop (["videos", "a"].length - 1)).foldl
            (fun dir component => samplePathFunctions.folder_append_separator dir ++ component)
            "feats")
          (samplePathFunctions.basename_part "videos/a/frame_1.jpg") ".feat" :=
  (generate_feature_path_spec samplePathFunctions "feats" "videos/a/frame_1.jpg" ".feat"
    (by decide)).2 1 ["videos", "a"] "frame_1.jpg" (by decide) (by decide) (by decide)

/-- The sample feature paths: one marker takes the last parent directory, two
markers the last two, no marker none. -/
theorem generate_feature_path_sample :
    generate_feature_path samplePathFunctions "feats@" "videos/a/frame_1.jpg" ".feat"
        = "feats/a/frame_1.feat" ∧
    generate_feature_path samplePathFunctions "feats@@" "videos/a/frame_1.jpg" ".feat"
        = "feats/videos/a/frame_1.feat" ∧
    generate_feature_path samplePathFunctions "feats" "videos/a/frame_1.jpg" ".feat"
        = "feats/frame_1.feat" := by
  decide

end FeaturePathThms

/-! ## `GroupSharedIntrinsics`: the representative of a hash -/

section RepresentativeThms

variable {Intr Pose : Type}

theorem find?_reverse_split {α : Type} (l : List α) (p : α → Bool) (e : α)
    (h : l.reverse.find? p = some e) :
    p e = true ∧ ∃ before after, l = before ++ e :: after ∧ ∀ a ∈ after, p a = false := by
  obtain ⟨hp, as, bs, hsplit, hnot⟩ := List.find?_eq_some.1 h
  refine ⟨hp, bs.reverse, as.reverse, ?_, ?_⟩
  · have := congrArg List.reverse hsplit
    simpa using this
  · intro a ha
    have := hnot a (List.mem_reverse.1 ha)
    simpa using this

theorem keys_lt_of_split {V : Type} (l before after : Hash_Map V) (e : Nat × V)
    (hs : l.keys.Pairwise (· < ·)) (hl : l = before ++ e :: after) :
    ∀ e' ∈ before, e'.1 < e.1 := by
  intro e' he'
  subst hl
  simp only [Hash_Map.keys, List.map_append, List.map_cons] at hs
  have := (List.pairwise_append.1 hs).2.2 e'.1 (List.mem_map.2 ⟨e', he', rfl⟩) e.1
    (List.mem_cons_self _ _)
  exact this

theorem find?_of_mem_of_nodup {V : Type} (m : Hash_Map V) (k : Nat) (v : V)
    (hs : m.keys.Nodup) (h : (k, v) ∈ m) : Hash_Map.find? m k = some v := by
  induction m with
  | nil => simp at h
  | cons e m ih =>
    obtain ⟨a, b⟩ := e
    simp only [Hash_Map.keys, List.map_cons, List.nodup_cons] at hs
    rcases List.mem_cons.1 h with h | h
    · cases h
      simp [Hash_Map.find?]
    · have hk : k ∈ m.map Prod.fst := List.mem_map.2 ⟨(k, v), h, rfl⟩
      have hne : ¬ a = k := fun hc => hs.1 (hc ▸ hk)
      simp only [Hash_Map.find?, hne, if_false]
      exact ih hs.2 h

/-- Assigning the entries of a map, in any iteration order, under their own keys. -/
theorem find?_foldl_assign_key_of_nodup {V W : Type} (es : Hash_Map W) (g : Nat × W → V)
    (m0 : Hash_Map V) (hs : es.keys.Nodup) (k : Nat) :
    Hash_Map.find? (es.foldl (fun m e => Hash_Map.assign m e.1 (g e)) m0) k =
      match Hash_Map.find? es k with
      | some w => some (g (k, w))
      | none => Hash_Map.find? m0 k := by
  induction es generalizing m0 with
  | nil => simp [Hash_Map.find?]
  | cons e es ih =>
    obtain ⟨a, b⟩ := e
    simp only [Hash_Map.keys, List.map_cons, List.nodup_cons] at hs
    simp only [List.foldl_cons, ih _ hs.2]
    by_cases hak : a = k
    · subst hak
      have : Hash_Map.find? es a = none := (Hash_Map.find?_eq_none es a).2 hs.1
      simp [Hash_Map.find?, this, Hash_Map.find?_assign]
    · cases hfind : Hash_Map.find? es k with
      | some w => simp [Hash_Map.find?, hak, hfind]
      | none => simp [Hash_Map.find?, hak, hfind, Hash_Map.find?_assign]

/-- A map of 32-bit keys has at most `2 ^ 32` entries. -/
theorem length_le_of_isMap {V : Type} (m : Hash_Map V) (h : m.IsMap) :
    m.length ≤ IndexT_card := by
  have hsub : m.keys.toFinset ⊆ Finset.range IndexT_card := by
    intro k hk
    exact Finset.mem_range.2 (h.2 k (List.mem_toFinset.1 hk))
  have := Finset.card_le_card hsub
  rw [List.toFinset_card_of_nodup h.1, Finset.card_range] at this
  simpa [Hash_Map.keys] using this

theorem distanceFind_eq_rankOf_of_isMap (hashValue : Intr → Nat) (es : Hash_Map Intr)
    (hmap : es.IsMap) (x : Intr) (k : Nat) (hx : (k, x) ∈ es) :
    StdSet.distanceFind ((hashesOf hashValue es).foldl StdSet.insert []) (hashValue x)
        % IndexT_card
      = rankOf (hashesOf hashValue es) (hashValue x) := by
  have hmemhs : hashValue x ∈ hashesOf hashValue es :=
    List.mem_map.2 ⟨(k, x), hx, rfl⟩
  have hsorted := StdSet.sorted_foldl_insert (hashesOf hashValue es) [] List.Pairwise.nil
  have hmem : ∀ y, y ∈ (hashesOf hashValue es).foldl StdSet.insert [] ↔
      y ∈ hashesOf hashValue es := fun y => by
    simp [StdSet.mem_foldl_insert]
  have h1 := StdSet.indexOf_eq_rank _ hsorted (hashValue x) ((hmem _).2 hmemhs)
  rw [rankOf_congr _ _ hmem] at h1
  have h2 := rankOf_lt_card _ _ hmemhs
  have h3 := List.toFinset_card_le (hashesOf hashValue es)
  have h4 := length_le_of_isMap es hmap
  have h5 : (hashesOf hashValue es).length = es.length := by simp [hashesOf]
  unfold StdSet.distanceFind
  rw [h1]
  apply Nat.mod_eq_of_lt
  omega

theorem find?_buildReindex_of_isMap (hashValue : Intr → Nat) (es : Hash_Map Intr)
    (hmap : es.IsMap) (k : Nat) :
    Hash_Map.find? (buildReindex (buildHashes hashValue es).1 (buildHashes hashValue es).2 es).1 k
      = (Hash_Map.find? es k).map (fun x => rankOf (hashesOf hashValue es) (hashValue x)) := by
  rw [buildHashes_eq]
  simp only
  rw [buildReindex_eq, find?_foldl_assign_key_of_nodup es _ _ hmap.1]
  cases hfind : Hash_Map.find? es k with
  | none => simp [Hash_Map.find?]
  | some x =>
    simp only [Option.map_some', Option.some.injEq]
    exact distanceFind_eq_rankOf_of_isMap hashValue es hmap x k
      (Hash_Map.mem_of_find? es k x hfind)

/-- The intrinsics after the call, for a map in any iteration order: every entry
of the input is assigned, in iteration order, under the rank of its hash. -/
theorem GroupSharedIntrinsics_intrinsics_of_isMap (hashValue : Intr → Nat)
    (sfm_data : SfM_Data Intr Pose) (hmap : sfm_data.intrinsics.IsMap) :
    (GroupSharedIntrinsics hashValue sfm_data).intrinsics
      = sfm_data.intrinsics.foldl (fun m e => Hash_Map.assign m
          (rankOf (hashesOf hashValue sfm_data.intrinsics) (hashValue e.2)) e.2)
          ([] : Hash_Map Intr) := by
  simp only [GroupSharedIntrinsics, buildUpdated]
  apply List.foldl_ext
  intro acc e he
  have h1 := find?_of_mem_of_nodup sfm_data.intrinsics e.1 e.2 hmap.1 he
  have h2 := find?_buildReindex_of_isMap hashValue sfm_data.intrinsics hmap e.1
  rw [h1] at h2
  simp only [h1, h2, Option.map_some', Option.getD_some]

/-- C21, as amended: whatever the order in which the intrinsics map is iterated,
the entry `GroupSharedIntrinsics` keeps for a hash is the last entry of the
input map, in iteration order, that has this hash: it occurs in the input and no
entry after it has the same hash.  When the map is iterated by ascending key,
its key is the largest among the input entries with this hash. -/
theorem GroupSharedIntrinsics_keeps_last_entry (hashValue : Intr → Nat)
    (sfm_data : SfM_Data Intr Pose) (hmap : sfm_data.intrinsics.IsMap) (r : Nat) (v : Intr)
    (h : (r, v) ∈ (GroupSharedIntrinsics hashValue sfm_data).intrinsics) :
    ∃ k before after, sfm_data.intrinsics = before ++ (k, v) :: after ∧
      (∀ e ∈ after, hashValue e.2 ≠ hashValue v) ∧
      (sfm_data.intrinsics.keys.Pairwise (· < ·) →
        ∀ e ∈ sfm_data.intrinsics, hashValue e.2 = hashValue v → e.1 ≤ k) := by
  have heq := GroupSharedIntrinsics_intrinsics_of_isMap hashValue sfm_data hmap
  have hsorted : (GroupSharedIntrinsics hashValue sfm_data).intrinsics.keys.Pairwise (· < ·) := by
    rw [heq]
    exact Hash_Map.sorted_foldl_assign _ _ _ _ List.Pairwise.nil
  have hf := Hash_Map.find?_of_mem _ r v hsorted h
  rw [heq, Hash_Map.find?_foldl_assign] at hf
  cases hfind : sfm_data.intrinsics.reverse.find?
      (fun e => decide (rankOf (hashesOf hashValue sfm_data.intrinsics) (hashValue e.2) = r)) with
  | none => simp [hfind, Hash_Map.find?] at hf
  | some e =>
    simp only [hfind, Option.some.injEq] at hf
    obtain ⟨hpe, before, after, hsplit, hafter⟩ := find?_reverse_split _ _ e hfind
    obtain ⟨k, v'⟩ := e
    simp only at hf
    subst hf
    have hrank : rankOf (hashesOf hashValue sfm_data.intrinsics) (hashValue v') = r := by
      simpa using hpe
    have hdiff : ∀ a ∈ after, hashValue a.2 ≠ hashValue v' := by
      intro a ha heq'
      have := hafter a ha
      simp only [decide_eq_false_iff_not] at this
      apply this
      rw [heq']
      exact hrank
    refine ⟨k, before, after, hsplit, hdiff, ?_⟩
    intro hasc e' he' heq'
    rw [hsplit] at he'
    rcases List.mem_append.1 he' with hb | hb
    · exact Nat.le_of_lt (keys_lt_of_split _ before after (k, v') hasc hsplit e' hb)
    · rcases List.mem_cons.1 hb with hb | hb
      · rw [hb]
      · exact absurd heq' (hdiff e' hb)

/-- Witness of the amended C21: the sample scene has the intrinsics 57 and 17
with the same hash, under the keys 3 and 7, iterated in this order; the output
keeps 17. -/
theorem GroupSharedIntrinsics_keeps_last_entry_witness :
    sampleScene.intrinsics.IsMap ∧
      (1, 17) ∈ (GroupSharedIntrinsics sampleHash sampleScene).intrinsics ∧
      ∃ k before after, sampleScene.intrinsics = before ++ (k, 17) :: after ∧
        (∀ e ∈ after, sampleHash e.2 ≠ sampleHash 17) ∧
        (sampleScene.intrinsics.keys.Pairwise (· < ·) →
          ∀ e ∈ sampleScene.intrinsics, sampleHash e.2 = sampleHash 17 → e.1 ≤ k) :=
  ⟨by decide, by decide,
    GroupSharedIntrinsics_keeps_last_entry sampleHash sampleScene (by decide) 1 17 (by decide)⟩

/-- C21 as stated fails when the map is not iterated by ascending key: with the
entries of the sample scene visited in the order 7, 5, 3, the intrinsics 17
(key 7) and 57 (key 3) share a hash and the output keeps 57, the entry visited
last, whose key 3 is the smallest of the two. -/
theorem GroupSharedIntrinsics_keeps_smaller_key :
    descendingScene.intrinsics.IsMap ∧
    Hash_Map.find? descendingScene.intrinsics 7 = some 17 ∧
    Hash_Map.find? descendingScene.intrinsics 3 = some 57 ∧
    sampleHash 17 = sampleHash 57 ∧
    (GroupSharedIntrinsics sampleHash descendingScene).intrinsics = [(0, 20), (1, 57)] ∧
    (GroupSharedIntrinsics sampleHash sampleScene).intrinsics = [(0, 20), (1, 17)] := by
  decide

end RepresentativeThms

/-! ## `FindCommonRootDir` -/

section CommonRootThms

/-- The counter after the loop: the characters below it agree, and it is the
smaller length or the two strings differ at it. -/
theorem findCommonLoop_spec (dir1 dir2 : List Char) (remaining i : Nat)
    (hsum : i + remaining = min dir1.length dir2.length)
    (hint : min dir1.length dir2.length ≤ INT_MAX)
    (hagree : ∀ j, j < i → dir1.getD j default = dir2.getD j default) :
    ∃ m, findCommonLoop dir1 dir2 remaining i = some m ∧
      m ≤ min dir1.length dir2.length ∧
      (∀ j, j < m → dir1.getD j default = dir2.getD j default) ∧
      (m = min dir1.length dir2.length ∨ dir1.getD m default ≠ dir2.getD m default) := by
  induction remaining generalizing i with
  | zero =>
    exact ⟨i, rfl, by omega, hagree, Or.inl (by omega)⟩
  | succ n ih =>
    unfold findCommonLoop
    by_cases hdiff : dir1.getD i default ≠ dir2.getD i default
    · rw [if_pos hdiff]
      exact ⟨i, rfl, by omega, hagree, Or.inr hdiff⟩
    · rw [if_neg hdiff]
      have hne : ¬ i = INT_MAX := by omega
      rw [if_neg hne]
      apply ih (i + 1) (by omega)
      intro j hj
      by_cases hji : j = i
      · subst hji
        exact not_not.1 hdiff
      · exact hagree j (by omega)

theorem common_length_unique (dir1 dir2 : List Char) (n m m' : Nat)
    (hm : m ≤ n) (hm' : m' ≤ n)
    (ha : ∀ j, j < m → dir1.getD j default = dir2.getD j default)
    (ha' : ∀ j, j < m' → dir1.getD j default = dir2.getD j default)
    (hd : m = n ∨ dir1.getD m default ≠ dir2.getD m default)
    (hd' : m' = n ∨ dir1.getD m' default ≠ dir2.getD m' default) : m = m' := by
  rcases Nat.lt_trichotomy m m' with hlt | heq | hgt
  · rcases hd with hd | hd
    · omega
    · exact absurd (ha' m hlt) hd
  · exact heq
  · rcases hd' with hd' | hd'
    · omega
    · exact absurd (ha m' hgt) hd'

theorem take_eq_take_of_agree (dir1 dir2 : List Char) (m : Nat)
    (h1 : m ≤ dir1.length) (h2 : m ≤ dir2.length)
    (ha : ∀ j, j < m → dir1.getD j default = dir2.getD j default) :
    dir1.take m = dir2.take m := by
  apply List.ext_getElem?
  intro j
  by_cases hj : j < m
  · rw [List.getElem?_take_of_lt hj, List.getElem?_take_of_lt hj]
    have := ha j hj
    rw [List.getD_eq_getElem?_getD, List.getD_eq_getElem?_getD] at this
    rw [List.getElem?_eq_getElem (by omega), List.getElem?_eq_getElem (by omega)] at this ⊢
    simpa using this
  · have e1 : (dir1.take m)[j]? = none := by
      apply List.getElem?_eq_none
      simp only [List.length_take]
      omega
    have e2 : (dir2.take m)[j]? = none := by
      apply List.getElem?_eq_none
      simp only [List.length_take]
      omega
    rw [e1, e2]

/-- C22: `FindCommonRootDir` returns the longest common prefix of its arguments:
the result is a prefix of both, and it equals one of them or the arguments
differ at the character just after it; the result does not depend on the order
of the arguments, and `FindCommonRootDir(d, d) = d`.  The lengths are within the
range of the counter `int i`. -/
theorem FindCommonRootDir_longest_common (dir1 dir2 : String)
    (h1 : dir1.length ≤ INT_MAX) (h2 : dir2.length ≤ INT_MAX) :
    ∃ r, FindCommonRootDir dir1 dir2 = some r ∧
      (∃ t, dir1 = r ++ t) ∧ (∃ t, dir2 = r ++ t) ∧
      (r = dir1 ∨ r = dir2 ∨
        ∃ c1 c2, dir1.data[r.length]? = some c1 ∧ dir2.data[r.length]? = some c2 ∧ c1 ≠ c2) ∧
      FindCommonRootDir dir2 dir1 = some r ∧
      FindCommonRootDir dir1 dir1 = some dir1 := by
  have hl1 : dir1.length = dir1.data.length := rfl
  have hl2 : dir2.length = dir2.data.length := rfl
  obtain ⟨m, hloop, hm, hagree, hend⟩ :=
    findCommonLoop_spec dir1.data dir2.data (min dir1.data.length dir2.data.length) 0
      (by omega) (by omega) (fun j hj => absurd hj (Nat.not_lt_zero j))
  obtain ⟨m', hloop', hm', hagree', hend'⟩ :=
    findCommonLoop_spec dir2.data dir1.data (min dir2.data.length dir1.data.length) 0
      (by omega) (by omega) (fun j hj => absurd hj (Nat.not_lt_zero j))
  obtain ⟨m0, hloop0, hm0, _, hend0⟩ :=
    findCommonLoop_spec dir1.data dir1.data (min dir1.data.length dir1.data.length) 0
      (by omega) (by omega) (fun j hj => absurd hj (Nat.not_lt_zero j))
  have htake : dir1.data.take m = dir2.data.take m :=
    take_eq_take_of_agree dir1.data dir2.data m (by omega) (by omega) hagree
  have hmm : m = m' := by
    apply common_length_unique dir1.data dir2.data (min dir1.data.length dir2.data.length) m m'
      hm (by omega) hagree (fun j hj => (hagree' j hj).symm) hend
    rcases hend' with h | h
    · exact Or.inl (by omega)
    · exact Or.inr (fun hc => h hc.symm)
  have hm0' : m0 = dir1.data.length := by
    rcases hend0 with h | h
    · omega
    · exact absurd rfl h
  refine ⟨String.mk (dir1.data.take m), ?_, ?_, ?_, ?_, ?_, ?_⟩
  · unfold FindCommonRootDir
    rw [hl1, hl2, hloop]
    rfl
  · refine ⟨String.mk (dir1.data.drop m), ?_⟩
    apply String.ext
    simp [String.data_append]
  · refine ⟨String.mk (dir2.data.drop m), ?_⟩
    apply String.ext
    rw [htake]
    simp [String.data_append]
  · by_cases hmin : m = min dir1.data.length dir2.data.length
    · by_cases hle : dir1.data.length ≤ dir2.data.length
      · left
        apply String.ext
        have : m = dir1.data.length := by omega
        simp [this]
      · right
        left
        apply String.ext
        have : m = dir2.data.length := by omega
        rw [htake]
        simp [this]
    · right
      right
      have hlt : m < min dir1.data.length dir2.data.length := by omega
      have hdiff : dir1.data.getD m default ≠ dir2.data.getD m default := by
        rcases hend with h | h
        · exact absurd h hmin
        · exact h
      have hlen : (String.mk (dir1.data.take m)).length = m := by
        show (dir1.data.take m).length = m
        simp only [List.length_take]
        omega
      rw [hlen]
      have hi1 : m < dir1.data.length := by omega
      have hi2 : m < dir2.data.length := by omega
      refine ⟨dir1.data[m], dir2.data[m], List.getElem?_eq_getElem hi1,
        List.getElem?_eq_getElem hi2, ?_⟩
      rw [List.getD_eq_getElem?_getD, List.getD_eq_getElem?_getD,
        List.getElem?_eq_getElem hi1, List.getElem?_eq_getElem hi2] at hdiff
      simpa using hdiff
  · unfold FindCommonRootDir
    rw [hl1, hl2, hloop', ← hmm, htake]
    rfl
  · unfold FindCommonRootDir
    rw [hl1, hloop0, hm0']
    simp only [Option.map_some', Option.some.injEq]
    apply String.ext
    simp

/-- Witness of C22: two paths below `/data/`. -/
theorem FindCommonRootDir_longest_common_witness :
    ∃ r, FindCommonRootDir "/data/base/images" "/data/query" = some r ∧
      (∃ t, "/data/base/images" = r ++ t) ∧ (∃ t, "/data/query" = r ++ t) ∧
      (r = "/data/base/images" ∨ r = "/data/query" ∨
        ∃ c1 c2, "/data/base/images".data[r.length]? = some c1 ∧
          "/data/query".data[r.length]? = some c2 ∧ c1 ≠ c2) ∧
      FindCommonRootDir "/data/query" "/data/base/images" = some r ∧
      FindCommonRootDir "/data/base/images" "/data/base/images" = some "/data/base/images" :=
  FindCommonRootDir_longest_common "/data/base/images" "/data/query" (by decide) (by decide)

/-- The sample paths have the common root `/data/`. -/
theorem FindCommonRootDir_sample :
    FindCommonRootDir "/data/base/images" "/data/query" = some "/data/" ∧
      FindCommonRootDir "/data/query" "/data/base/images" = some "/data/" := by
  decide

end CommonRootThms

/-! ## The undefined sentinel in `Merge` and in the filtered export -/

section SentinelThms

variable {Intr Pose Pos Dist : Type}

/-- Adding a non-zero 32-bit offset to the undefined sentinel wraps to the
offset minus one. -/
theorem sentinel_plus_offset (offset : Nat) (h0 : 0 < offset) (h1 : offset < IndexT_card) :
    (UndefinedIndexT + offset) % IndexT_card = offset - 1 := by
  unfold UndefinedIndexT IndexT_card at *
  omega

/-- C23 fails on the code: the incoming view has the undefined sentinel as pose
id and as intrinsic id; with the offsets 2 (views) and 1 (intrinsics) of the
base, its copy is stored with the intrinsic id 0 and the pose id 1, which are
the keys of an intrinsic and of a pose of the base scene. -/
theorem Merge_sentinel_becomes_reference :
    Hash_Map.find? mergeIncomingUnlocalized.views 0
      = some ⟨"in/q.jpg", 0, UndefinedIndexT, UndefinedIndexT, 640, 480⟩ ∧
    mergeOffset mergeBasePosed.views = 2 ∧ mergeOffset mergeBasePosed.intrinsics = 1 ∧
    Hash_Map.find? (Merge mergeBasePosed mergeIncomingUnlocalized).views 2
      = some ⟨"in/q.jpg", 2, 0, 1, 640, 480⟩ ∧
    Hash_Map.find? (Merge mergeBasePosed mergeIncomingUnlocalized).intrinsics 0 = some 11 ∧
    Hash_Map.find? mergeBasePosed.intrinsics 0 = some 11 ∧
    Hash_Map.find? (Merge mergeBasePosed mergeIncomingUnlocalized).poses 1 = some 101 ∧
    Hash_Map.find? mergeBasePosed.poses 1 = some 101 := by
  decide

/-- The radius filter throws as soon as one candidate view has no pose. -/
theorem radiusFilter_none_of_missing_pose [LE Dist] [DecidableRel (fun a b : Dist => a ≤ b)]
    (distance : Pose → Pos → Dist) (pos : Pos) (r : Dist) (sfm_data : SfM_Data Intr Pose)
    (which good0 : StdSet) (i : Nat) (view : View) (hi : i ∈ which)
    (hv : Hash_Map.find? sfm_data.views i = some view)
    (hp : Hash_Map.find? sfm_data.poses view.id_pose = none) :
    radiusFilter distance pos r sfm_data which good0 = none := by
  induction which generalizing good0 with
  | nil => simp at hi
  | cons a rest ih =>
    unfold radiusFilter
    cases hva : Hash_Map.find? sfm_data.views a with
    | none => rfl
    | some va =>
      cases hpa : Hash_Map.find? sfm_data.poses va.id_pose with
      | none => simp only [hpa]
      | some pa =>
        simp only [hpa]
        rcases List.mem_cons.1 hi with h | h
        · subst h
          rw [hv] at hva
          cases hva
          rw [hp] at hpa
          cases hpa
        · exact ih _ h

/-- Nothing is exported when a candidate view has no pose. -/
theorem exportFiltered_none_of_missing_pose [LE Dist] [DecidableRel (fun a b : Dist => a ≤ b)]
    (distance : Pose → Pos → Dist) (fopts : FilterOptions Pos Dist) (used_landmarks : StdSet)
    (sfm_data : SfM_Data Intr Pose) (i : Nat) (view : View)
    (hi : i ∈ candidateViews fopts.bFilterUsedLandmarks used_landmarks sfm_data)
    (hv : Hash_Map.find? sfm_data.views i = some view)
    (hp : Hash_Map.find? sfm_data.poses view.id_pose = none) :
    exportFiltered distance fopts used_landmarks sfm_data = none := by
  unfold exportFiltered
  simp only
  rw [radiusFilter_none_of_missing_pose distance fopts.filterPos fopts.filterRadius sfm_data
    _ [] i view hi hv hp]

/-- C24 fails on the code: in the sample scene with one unlocalized view every
pose id is the undefined sentinel or a key of the poses map and every intrinsic
id likewise, yet the filtered export without usage filtering throws at the pose
lookup of the unlocalized view, for the radius 1 as for the default radius. -/
theorem exportFiltered_fails_on_valid_references :
    RefsValid filterSceneWithFailure ∧
    3 ∈ candidateViews false [] filterSceneWithFailure ∧
    (Hash_Map.find? filterSceneWithFailure.views 3).map (fun v => v.id_pose)
      = some UndefinedIndexT ∧
    exportFiltered sampleDistance radiusOneOptions [] filterSceneWithFailure = none ∧
    exportFiltered sampleDistance (defaultFilterOptions false) [] filterSceneWithFailure
      = none := by
  decide

end SentinelThms

end OpenMVG
